import Mathlib

/-!
# dirwalk.c: the filesystem mutation-and-undo engine

A shallow embedding of `src/src/dirwalk.c`.

Conventions of the embedding.

* A C `char` is a `Char`; the terminator is `NUL`.  A buffer is a `List Char`;
  the string a `%s` conversion or `strlen` sees in it is `cstr buf`, the
  characters before the first `NUL`.
* The operating system is the structure `FS`: a table of objects keyed by
  their canonical component path below `/`, in the order `readdir`
  enumerates them, plus the working directory.  The process is the
  non-privileged owner of every object, so only the owner permission bits
  decide access; the root directory itself is a fixed directory of mode 0755.
  Symbolic links are followed in the final component only (at most 40 levels);
  a path that runs through a link does not resolve.  Hard links, timestamps,
  the umask (taken as 0) and the NAME_MAX limit are left out.
* `malloc` always succeeds.  What is modelled of memory is whether a pointer
  is NULL (`Option`), reads of the `dir_contents` pointer array that are out
  of bounds or go through a NULL slot, and the state of the `old_path` field
  of an undo slot (`StrPtr`): it is the one pointer field that a push may
  leave as it finds it, so it can still hold a pointer that an earlier undo
  has freed.  Using or freeing such a pointer, like the reads above, ends the
  run with `Abort.undefinedBehaviour`.  The other `free` calls are left out:
  `path`, `content` and `dir_contents` are written by every push, and the
  pointers found in a copied `dir_contents` are slots of the zero-initialised
  pointer array, each NULL or an allocation that nothing else frees.
* Recursion through the directory tree takes a fuel argument; running out of
  it is `Abort.outOfFuel`.
* The terminal is replaced by arguments: the text the user types in a dialog
  and the key pressed.
* File sizes are integers (`off_t`).  The only floating-point step, the
  `%.1f` conversion in `format_size`, is computed exactly on integers; this is
  what the C code gives for sizes below 2^53.
-/

namespace Dirwalk

/-! ## Constants -/

abbrev CStr := List Char

def MAX_FILES : Nat := 20000

def MAX_PATH : Nat := 4096

def MAX_UNDO : Nat := 100

def MAX_DIR_CONTENTS : Nat := 1000

/-- The string terminator. -/
def NUL : Char := Char.ofNat 0

/-- The C string held in a buffer: the characters before the first NUL. -/
def cstr (buf : List Char) : CStr := buf.takeWhile (fun c => c != NUL)

/-- The outcome of `snprintf(buf, n, ...)` and of `strncpy(buf, s, n - 1)` followed by
`buf[n - 1] = 0`: at most `n - 1` characters are kept. -/
def truncate (n : Nat) (s : CStr) : CStr := s.take (n - 1)

/-- The outcome of `snprintf(buf, n, "%s/%s", a, b)`. -/
def join_path (n : Nat) (a b : CStr) : CStr := truncate n (a ++ '/' :: b)

/-! ## The file system -/

abbrev Path := List CStr

/-- An object of the file system with what the program can observe of it. -/
inductive Inode where
  | reg (perm : Nat) (data : List Char)
  | dir (perm : Nat)
  | lnk (target : CStr)
  | other (perm : Nat)
  deriving DecidableEq, Repr

structure FS where
  objs : List (Path × Inode)
  cwd : Path
  deriving DecidableEq, Repr

def S_IFREG : Nat := 0o100000

def S_IFDIR : Nat := 0o040000

def S_IFLNK : Nat := 0o120000

def S_IFIFO : Nat := 0o010000

/-- The test `(m & S_IFMT) == S_IFREG`. -/
def S_ISREG (m : Nat) : Bool := m / 4096 % 16 == 8

/-- The test `(m & S_IFMT) == S_IFDIR`. -/
def S_ISDIR (m : Nat) : Bool := m / 4096 % 16 == 4

/-- The test `(m & S_IFMT) == S_IFLNK`. -/
def S_ISLNK (m : Nat) : Bool := m / 4096 % 16 == 10

/-- The fields of `struct stat` the program reads. -/
structure Stat where
  st_mode : Nat
  st_size : Int
  deriving DecidableEq, Repr

def Inode.stat : Inode → Stat
  | .reg perm data => ⟨S_IFREG + perm % 4096, data.length⟩
  | .dir perm => ⟨S_IFDIR + perm % 4096, 4096⟩
  | .lnk target => ⟨S_IFLNK + 0o777, target.length⟩
  | .other perm => ⟨S_IFIFO + perm % 4096, 0⟩

/-- Owner read permission (bit 0400). -/
def canR (perm : Nat) : Bool := perm / 256 % 2 == 1

/-- Owner write permission (bit 0200). -/
def canW (perm : Nat) : Bool := perm / 128 % 2 == 1

/-- Owner search permission (bit 0100). -/
def canX (perm : Nat) : Bool := perm / 64 % 2 == 1

def lookupObj : List (Path × Inode) → Path → Option Inode
  | [], _ => none
  | o :: rest, p => if o.1 = p then some o.2 else lookupObj rest p

/-- The object at a canonical path; the root is a fixed directory. -/
def FS.get (fs : FS) (p : Path) : Option Inode :=
  if p = [] then some (.dir 0o755) else lookupObj fs.objs p

/-- The name of `p` when `p` is an entry of directory `d`. -/
def childName (d p : Path) : Option CStr :=
  if p.dropLast = d then p.getLast? else none

/-- The entries of directory `d` in enumeration order. -/
def FS.children (fs : FS) (d : Path) : List CStr :=
  fs.objs.filterMap (fun o => childName d o.1)

/-- The components of a path string: its maximal slash-free runs. -/
def splitPath : CStr → CStr → List CStr
  | cur, [] => if cur = [] then [] else [cur]
  | cur, c :: s =>
    if c = '/' then (if cur = [] then splitPath [] s else cur :: splitPath [] s)
    else splitPath (cur ++ [c]) s

/-- Walk the components from directory `cur`; every directory stepped through
must be a searchable directory.  The result is the canonical path of the last
component, which need not exist. -/
def FS.walk (fs : FS) : Path → List CStr → Option Path
  | cur, [] => some cur
  | cur, c :: rest =>
    match fs.get cur with
    | some (.dir perm) =>
      if canX perm then
        if c = ['.'] then fs.walk cur rest
        else if c = ['.', '.'] then fs.walk cur.dropLast rest
        else fs.walk (cur ++ [c]) rest
      else none
    | _ => none

/-- Resolve a path string, taken relative to `from_dir` unless it is absolute. -/
def FS.resolveFrom (fs : FS) (from_dir : Path) (s : CStr) : Option Path :=
  match s with
  | [] => none
  | c :: _ => fs.walk (if c = '/' then [] else from_dir) (splitPath [] s)

/-- Path resolution without following a final symbolic link. -/
def FS.namei (fs : FS) (s : CStr) : Option Path := fs.resolveFrom fs.cwd s

/-- Follow symbolic links in the final component; the result is a path that
holds no link (it may hold nothing). -/
def FS.follow (fs : FS) : Nat → Path → Option Path
  | 0, _ => none
  | n + 1, p =>
    match fs.get p with
    | some (.lnk target) =>
      match fs.resolveFrom p.dropLast target with
      | some q => fs.follow n q
      | none => none
    | _ => some p

/-- Path resolution following a final symbolic link. -/
def FS.nameiFollow (fs : FS) (s : CStr) : Option Path :=
  match fs.namei s with
  | some p => fs.follow 40 p
  | none => none

/-- Whether the parent directory of `p` allows adding and removing entries. -/
def FS.parentWritable (fs : FS) (p : Path) : Bool :=
  match fs.get p.dropLast with
  | some (.dir perm) => canW perm
  | _ => false

def FS.remove (fs : FS) (p : Path) : FS :=
  { fs with objs := fs.objs.filter (fun o => o.1 != p) }

def FS.add (fs : FS) (p : Path) (i : Inode) : FS :=
  { fs with objs := fs.objs ++ [(p, i)] }

def FS.replace (fs : FS) (p : Path) (i : Inode) : FS :=
  { fs with objs := fs.objs.map (fun o => if o.1 = p then (p, i) else o) }

/-- A directory entry name: not empty, without a slash, neither `.` nor `..`. -/
def validName (n : CStr) : Bool := n != [] && !(n.contains '/') && !(n == ['.'] || n == ['.', '.'])

/-- Whether `d` is a directory the process may search. -/
def FS.searchable (fs : FS) (d : Path) : Bool :=
  match fs.get d with
  | some (.dir perm) => canX perm
  | _ => false

/-- The length of the path string that spells the components `p` after a base. -/
def pathLen (p : Path) : Nat := (p.map (fun c => c.length + 1)).sum

/-- A sufficient condition for a walk from `base` to stay within `MAX_PATH`
and within `fuel` levels: every name in the table is a directory entry name,
every path joined to `base` fits the buffer, and no object lies `fuel` levels
deep. -/
def FS.scanBound (fs : FS) (base : CStr) (fuel : Nat) : Bool :=
  decide (1 ≤ fuel) && fs.objs.all (fun o =>
    o.1.all validName && decide (base.length + pathLen o.1 < MAX_PATH) &&
      decide (o.1.length < fuel))

/-- Whether the path names an object that is not a symbolic link (as the
result of `realpath` does). -/
def FS.notLink (fs : FS) (p : Path) : Bool :=
  match fs.get p with
  | some (.lnk _) => false
  | _ => true

/-- The conditions under which a scan of `base` with `fuel` levels returns:
`scanBound`, and `base` does not name a symbolic link. -/
def FS.scannable (fs : FS) (base : CStr) (fuel : Nat) : Bool :=
  fs.scanBound base fuel &&
    (match fs.namei base with
     | some d => fs.notLink d
     | none => true)

/-! ### System calls -/

/-- The call `lstat(path, &st)`: `none` is the result -1. -/
def lstat (fs : FS) (path : CStr) : Option Stat :=
  match fs.namei path with
  | some p => (fs.get p).map Inode.stat
  | none => none

/-- The call `stat(path, &st)`. -/
def stat (fs : FS) (path : CStr) : Option Stat :=
  match fs.nameiFollow path with
  | some p => (fs.get p).map Inode.stat
  | none => none

/-- The test `access(path, F_OK) == 0`. -/
def access (fs : FS) (path : CStr) : Bool :=
  match fs.nameiFollow path with
  | some p => (fs.get p).isSome
  | none => false

/-- The calls `opendir` and `readdir` until it returns NULL: the names in the
directory, `.` and `..` first; `none` when the directory cannot be opened. -/
def opendir (fs : FS) (path : CStr) : Option (List CStr) :=
  match fs.nameiFollow path with
  | some p =>
    match fs.get p with
    | some (.dir perm) => if canR perm then some (['.'] :: ['.', '.'] :: fs.children p) else none
    | _ => none
  | none => none

/-- The block `fopen(path, "r")`, `fseek`, `ftell`, `malloc(size + 1)`, `fread`,
`buf[size] = 0`, `fclose`: the buffer, or `none` when the file cannot be opened. -/
def read_file (fs : FS) (path : CStr) : Option (List Char) :=
  match fs.nameiFollow path with
  | some p =>
    match fs.get p with
    | some (.reg perm data) => if canR perm then some (data ++ [NUL]) else none
    | _ => none
  | none => none

/-- The call `fopen(path, "w")`: the file system with the file created or
truncated, and the stream (the path of the open file); `none` is NULL. -/
def fopen_w (fs : FS) (path : CStr) : Option (FS × Path) :=
  match fs.nameiFollow path with
  | some p =>
    match fs.get p with
    | some (.reg perm _) => if canW perm then some (fs.replace p (.reg perm []), p) else none
    | some _ => none
    | none => if p != [] && fs.parentWritable p then some (fs.add p (.reg 0o666 []), p) else none
  | none => none

/-- The call `fprintf(file, "%s", buf)` followed by `fclose(file)`. -/
def fprintf_s (fs : FS) (file : Path) (buf : List Char) : FS :=
  match fs.get file with
  | some (.reg perm data) => fs.replace file (.reg perm (data ++ cstr buf))
  | _ => fs

/-- The call `unlink(path)`; `none` is the result -1. -/
def unlink (fs : FS) (path : CStr) : Option FS :=
  match fs.namei path with
  | some p =>
    match fs.get p with
    | some (.dir _) => none
    | some _ => if p != [] && fs.parentWritable p then some (fs.remove p) else none
    | none => none
  | none => none

/-- The call `rmdir(path)`. -/
def rmdir (fs : FS) (path : CStr) : Option FS :=
  match fs.namei path with
  | some p =>
    match fs.get p with
    | some (.dir _) =>
      if p != [] && fs.parentWritable p && (fs.children p).isEmpty then some (fs.remove p)
      else none
    | _ => none
  | none => none

/-- Create a new object at `path`, which must hold nothing. -/
def create (fs : FS) (path : CStr) (i : Inode) : Option FS :=
  match fs.namei path with
  | some p =>
    match fs.get p with
    | some _ => none
    | none => if p != [] && fs.parentWritable p then some (fs.add p i) else none
  | none => none

/-- The call `mkdir(path, mode)`. -/
def mkdir (fs : FS) (path : CStr) (mode : Nat) : Option FS :=
  create fs path (.dir (mode % 4096))

/-- The call `symlink(target, path)`. -/
def symlink (fs : FS) (target path : CStr) : Option FS :=
  if target = [] then none else create fs path (.lnk target)

/-- The call `open(path, O_CREAT | O_WRONLY | O_EXCL, mode)` followed by `close`. -/
def open_excl (fs : FS) (path : CStr) (mode : Nat) : Option FS :=
  create fs path (.reg (mode % 4096) [])

def Inode.chmod (mode : Nat) : Inode → Inode
  | .reg _ data => .reg (mode % 4096) data
  | .dir _ => .dir (mode % 4096)
  | .lnk target => .lnk target
  | .other _ => .other (mode % 4096)

/-- The call `chmod(path, mode)`: only the bits 07777 of `mode` are used. -/
def chmod (fs : FS) (path : CStr) (mode : Nat) : Option FS :=
  match fs.nameiFollow path with
  | some p =>
    match fs.get p with
    | some i => if p != [] then some (fs.replace p (i.chmod mode)) else none
    | none => none
  | none => none

/-- Move the object at `po` and everything below it to `pn`. -/
def FS.moveTree (fs : FS) (po pn : Path) : FS :=
  { fs with objs := fs.objs.map (fun o =>
      if po.isPrefixOf o.1 then (pn ++ o.1.drop po.length, o.2) else o) }

/-- The call `rename(old, new)`. -/
def rename (fs : FS) (old new : CStr) : Option FS :=
  match fs.namei old, fs.namei new with
  | some po, some pn =>
    match fs.get po with
    | none => none
    | some io =>
      if po = [] || pn = [] || !fs.parentWritable po || !fs.parentWritable pn then none
      else if po = pn then some fs
      else if po.isPrefixOf pn then none
      else
        match io, fs.get pn with
        | _, none => some (fs.moveTree po pn)
        | .dir _, some (.dir _) =>
          if (fs.children pn).isEmpty then some ((fs.remove pn).moveTree po pn) else none
        | .dir _, some _ => none
        | _, some (.dir _) => none
        | _, some _ => some ((fs.remove pn).moveTree po pn)
  | _, _ => none

/-! ## Program data -/

/-- Why a run has no result. -/
inductive Abort where
  | outOfFuel
  | undefinedBehaviour
  deriving DecidableEq, Repr

deriving instance DecidableEq for Except

/-- The struct `FileInfo` (the `mtime` field is not modelled). -/
structure FileInfo where
  full_path : CStr
  display_path : CStr
  size : Int
  mode : Nat
  deriving DecidableEq, Repr

/-- The struct `DirContent`; a NULL pointer is `none`. -/
structure DirContent where
  path : Option CStr
  content : Option (List Char)
  is_dir : Int
  deriving DecidableEq, Repr

inductive ActionType where
  | ACTION_DELETE
  | ACTION_CREATE
  | ACTION_RENAME
  | ACTION_CHMOD
  | ACTION_EDIT
  | ACTION_MOVE
  deriving DecidableEq, Repr

/-- A `char *` field that stays in its slot after `free`: NULL, a pointer to a
live string, or a pointer to memory that has been freed. -/
inductive StrPtr where
  | null
  | live (s : CStr)
  | freed
  deriving DecidableEq, Repr

/-- The struct `UndoAction`. -/
structure UndoAction where
  type : ActionType
  path : CStr
  old_path : StrPtr
  old_mode : Nat
  content : Option (List Char)
  dir_contents : Option (List DirContent)
  dir_content_count : Int
  deriving DecidableEq, Repr

/-- A slot of the zero-initialised global array. -/
def UndoAction.zero : UndoAction :=
  ⟨.ACTION_DELETE, [], .null, 0, none, none, 0⟩

/-- The global variables together with the file system. -/
structure State where
  fs : FS
  sort_by_size : Bool
  show_links : Bool
  show_dirs : Bool
  show_files : Bool
  undo_stack : List UndoAction
  undo_count : Int
  deriving DecidableEq, Repr

/-- The globals at program start over a given file system and flags. -/
def State.init (fs : FS) (sort_by_size show_links show_dirs show_files : Bool) : State :=
  ⟨fs, sort_by_size, show_links, show_dirs, show_files, List.replicate MAX_UNDO UndoAction.zero, 0⟩

/-- The slot `undo_stack[i]`. -/
def State.slot (s : State) (i : Int) : UndoAction := s.undo_stack.getD i.toNat UndoAction.zero

/-- The layout of memory, as far as the program depends on it: what is read
when the pointer held in slot `k` of the `dir_contents` pointer array is used
as a `char *` (`peek k`, a C string) or converted to `int` (`low k`). -/
structure Layout where
  peek : Nat → CStr
  low : Nat → Int

/-- The locals of `main` that the commands read and write. -/
structure Main where
  s : State
  dir_path : CStr
  files : List FileInfo
  selected : Int
  offset : Int
  status : String
  deriving DecidableEq, Repr

/-- The text `wgetnstr(win, buf, n)` stores for what the user typed. -/
def wgetnstr (n : Nat) (typed : CStr) : CStr := typed.take n

/-! ## compare_files, match_type, clean_path -/

/-- The function `strcoll` in the C locale, used for concrete runs. -/
def strcoll_C : CStr → CStr → Int
  | [], [] => 0
  | [], _ :: _ => -1
  | _ :: _, [] => 1
  | a :: as, b :: bs => if a = b then strcoll_C as bs else (a.toNat : Int) - (b.toNat : Int)

def compare_files (strcoll : CStr → CStr → Int) (sort_by_size : Bool) (fa fb : FileInfo) : Int :=
  if sort_by_size && fb.size != fa.size then
    (if fb.size > fa.size then 1 else -1)
  else strcoll fa.display_path fb.display_path

def qsort_insert {α : Type} (cmp : α → α → Int) (x : α) : List α → List α
  | [] => [x]
  | y :: ys => if cmp x y ≤ 0 then x :: y :: ys else y :: qsort_insert cmp x ys

/-- The library function `qsort`, modelled as an insertion sort (C leaves the
order of elements that compare equal unspecified). -/
def qsort {α : Type} (cmp : α → α → Int) : List α → List α
  | [] => []
  | x :: xs => qsort_insert cmp x (qsort cmp xs)

def match_type (s : State) (sb : Stat) : Bool :=
  if !s.show_links && !s.show_dirs && !s.show_files then true
  else (s.show_links && S_ISLNK sb.st_mode) ||
       (s.show_dirs && S_ISDIR sb.st_mode) ||
       (s.show_files && S_ISREG sb.st_mode)

/-- The loop of `clean_path` that removes doubled slashes: at a slash followed
by a slash the rest is moved down by one, otherwise the cursor advances. -/
def collapse_slashes : CStr → CStr
  | [] => []
  | [c] => [c]
  | c :: d :: rest =>
    if c = '/' ∧ d = '/' then collapse_slashes (d :: rest)
    else c :: collapse_slashes (d :: rest)

/-- The loop `while (*p) { if (*p == '/' && *(p+1) == '/') memmove(p, p+1,
strlen(p)); else p++; }` of `clean_path`, one iteration per unit of fuel:
`before` is the text in front of the cursor `p`, the last argument the string
at `p`.  The `memmove` drops the character at `p`; `none` means the fuel ran
out before the loop ended. -/
def collapse_loop : Nat → CStr → CStr → Option CStr
  | 0, _, _ => none
  | _ + 1, before, [] => some before
  | fuel + 1, before, c :: rest =>
    if c = '/' ∧ rest.head? = some '/' then collapse_loop fuel before rest
    else collapse_loop fuel (before ++ [c]) rest

/-- The function `clean_path`: the pair (return value, `*full_path`). -/
def clean_path (path base : CStr) : CStr × CStr :=
  let full0 :=
    if path.get? 0 = some '.' ∧ path.get? 1 = some '/' then truncate MAX_PATH (base ++ path.drop 1)
    else truncate MAX_PATH path
  let full := collapse_slashes full0
  let base_len := base.length
  let cleaned :=
    if full.take base_len = base ∧ full.get? base_len = some '/' then
      truncate MAX_PATH ('.' :: full.drop base_len)
    else if full = base then ['.']
    else truncate MAX_PATH full
  (cleaned, full)

def directory_exists (fs : FS) (path : CStr) : Bool :=
  match stat fs path with
  | none => false
  | some st => S_ISDIR st.st_mode

/-! ## save_directory_contents, dirwalk, remove_directory -/

/-- Whether `readdir` returned the entry `.` or `..`. -/
def is_dot (name : CStr) : Bool := name == ['.'] || name == ['.', '.']

/-- The loop of `save_directory_contents` over the entries `readdir` returns;
`recur` is the recursive call. -/
def save_loop (fs : FS)
    (recur : CStr → List (Option DirContent) → Nat → Except Abort (Int × List (Option DirContent) × Nat))
    (path : CStr) :
    List CStr → List (Option DirContent) → Nat → Except Abort (Int × List (Option DirContent) × Nat)
  | [], contents, content_count => .ok (0, contents, content_count)
  | name :: rest, contents, content_count =>
    if ¬ content_count < MAX_DIR_CONTENTS then .ok (0, contents, content_count)
    else if is_dot name then save_loop fs recur path rest contents content_count
    else
      let fullpath := join_path MAX_PATH path name
      match lstat fs fullpath with
      | none => save_loop fs recur path rest contents content_count
      | some stat_block =>
        let node : DirContent := ⟨some fullpath, none, if S_ISDIR stat_block.st_mode then 1 else 0⟩
        let contents1 := contents.set content_count (some node)
        if S_ISREG stat_block.st_mode then
          let contents2 := contents1.set content_count
            (some { node with content := read_file fs fullpath })
          save_loop fs recur path rest contents2 (content_count + 1)
        else if S_ISDIR stat_block.st_mode then
          match recur fullpath contents1 content_count with
          | .error e => .error e
          | .ok (_, contents2, count2) => save_loop fs recur path rest contents2 (count2 + 1)
        else save_loop fs recur path rest contents1 (content_count + 1)

def save_directory_contents (fs : FS) :
    Nat → CStr → List (Option DirContent) → Nat → Except Abort (Int × List (Option DirContent) × Nat)
  | 0, _, _, _ => .error .outOfFuel
  | fuel + 1, path, contents, content_count =>
    match opendir fs path with
    | none => .ok (-1, contents, content_count)
    | some names =>
      save_loop fs (fun p c n => save_directory_contents fs fuel p c n) path names contents content_count

/-- The loop of `dirwalk` over the entries `readdir` returns; `*count` is the
length of `files`. -/
def dirwalk_loop (s : State)
    (recur : CStr → List FileInfo → Except Abort (Int × List FileInfo))
    (path base : CStr) : List CStr → List FileInfo → Except Abort (Int × List FileInfo)
  | [], files => .ok (0, files)
  | name :: rest, files =>
    if is_dot name then dirwalk_loop s recur path base rest files
    else
      let fullpath := join_path MAX_PATH path name
      match lstat s.fs fullpath with
      | none => dirwalk_loop s recur path base rest files
      | some stat_block =>
        if match_type s stat_block && decide (files.length ≥ MAX_FILES) then .ok (-1, files)
        else
          let files1 :=
            if match_type s stat_block then
              let r := clean_path fullpath base
              files ++ [⟨r.2, r.1, stat_block.st_size, stat_block.st_mode⟩]
            else files
          if S_ISDIR stat_block.st_mode then
            match recur fullpath files1 with
            | .error e => .error e
            | .ok r => dirwalk_loop s recur path base rest r.2
          else dirwalk_loop s recur path base rest files1

def dirwalk (s : State) : Nat → CStr → List FileInfo → CStr → Except Abort (Int × List FileInfo)
  | 0, _, _, _ => .error .outOfFuel
  | fuel + 1, path, files, base =>
    match opendir s.fs path with
    | none => .ok (-1, files)
    | some names => dirwalk_loop s (fun p fl => dirwalk s fuel p fl base) path base names files

/-- The loop of `remove_directory`; the flag tells whether the loop ran to its
end (`true`) or left the function with -1 (`false`). -/
def remove_loop (recur : FS → CStr → Except Abort (Int × FS)) (path : CStr) :
    List CStr → FS → Except Abort (Bool × FS)
  | [], fs => .ok (true, fs)
  | name :: rest, fs =>
    if is_dot name then remove_loop recur path rest fs
    else
      let fullpath := join_path MAX_PATH path name
      match lstat fs fullpath with
      | none => remove_loop recur path rest fs
      | some stat_block =>
        if S_ISDIR stat_block.st_mode then
          match recur fs fullpath with
          | .error e => .error e
          | .ok r => if r.1 == -1 then .ok (false, r.2) else remove_loop recur path rest r.2
        else
          match unlink fs fullpath with
          | none => .ok (false, fs)
          | some fs1 => remove_loop recur path rest fs1

/-- The function `remove_directory` (its two unused parameters are left out). -/
def remove_directory : Nat → FS → CStr → Except Abort (Int × FS)
  | 0, _, _ => .error .outOfFuel
  | fuel + 1, fs, path =>
    match opendir fs path with
    | none => .ok (-1, fs)
    | some names =>
      match remove_loop (fun f p => remove_directory fuel f p) path names fs with
      | .error e => .error e
      | .ok (false, fs1) => .ok (-1, fs1)
      | .ok (true, fs1) =>
        match rmdir fs1 path with
        | none => .ok (-1, fs1)
        | some fs2 => .ok (0, fs2)

/-! ## The mutating operations -/

/-- Write `undo_stack[undo_count]` and increment `undo_count`. -/
def State.push (s : State) (a : UndoAction) : State :=
  { s with undo_stack := s.undo_stack.set s.undo_count.toNat a, undo_count := s.undo_count + 1 }

def edit_file (s : State) (path : CStr) (typed : CStr) : Int × State :=
  let content := wgetnstr 1024 typed
  let old_content := read_file s.fs path
  match fopen_w s.fs path with
  | none => (-1, s)
  | some (fs1, file) =>
    let s1 := { s with fs := fprintf_s fs1 file content }
    if s1.undo_count < (MAX_UNDO : Int) then
      (0, s1.push { s1.slot s1.undo_count with
        type := .ACTION_EDIT, path := path,
        content := some (match old_content with | some buf => buf | none => [NUL]),
        dir_contents := none, dir_content_count := 0 })
    else (0, s1)

def rename_file (s : State) (old_path : CStr) (typed : CStr) (base_path : CStr) : Int × State :=
  let new_name := wgetnstr 256 typed
  let new_path := join_path MAX_PATH base_path new_name
  if access s.fs new_path then (-1, s)
  else
    match rename s.fs old_path new_path with
    | none => (-1, s)
    | some fs1 =>
      let s1 := { s with fs := fs1 }
      if s1.undo_count < (MAX_UNDO : Int) then
        (0, s1.push { s1.slot s1.undo_count with
          type := .ACTION_RENAME, path := new_path, old_path := .live old_path,
          content := none, dir_contents := none, dir_content_count := 0 })
      else (0, s1)

/-- The text before the last slash, when there is a slash (`strrchr`, `strncpy`). -/
def before_last_slash (s : CStr) : Option CStr :=
  if '/' ∈ s then some ((s.reverse.dropWhile (fun c => c != '/')).drop 1).reverse else none

def move_file (s : State) (old_path : CStr) (typed : CStr) : Int × State :=
  let new_path := wgetnstr MAX_PATH typed
  let dir_ok :=
    match before_last_slash new_path with
    | some dir_path => directory_exists s.fs dir_path
    | none => true
  if !dir_ok then (-1, s)
  else
    match rename s.fs old_path new_path with
    | none => (-1, s)
    | some fs1 =>
      let s1 := { s with fs := fs1 }
      if s1.undo_count < (MAX_UNDO : Int) then
        (0, s1.push { s1.slot s1.undo_count with
          type := .ACTION_MOVE, path := new_path, old_path := .live old_path,
          content := none, dir_contents := none, dir_content_count := 0 })
      else (0, s1)

def restore_step (fs : FS) (c : DirContent) : FS :=
  match c.path with
  | none => fs
  | some path =>
    if c.is_dir ≠ 0 then
      match mkdir fs path 0o755 with
      | some fs1 => fs1
      | none => fs
    else
      match fopen_w fs path with
      | none => fs
      | some (fs1, file) =>
        match c.content with
        | some buf => fprintf_s fs1 file buf
        | none => fs1

def restore_directory_contents (fs : FS) (contents : List DirContent) (content_count : Int) :
    Int × FS :=
  (0, (contents.take content_count.toNat).foldl restore_step fs)

/-- The `switch` of `undo_last_action`: the effect of reversing `action` on the
file system. -/
def undo_effect (fuel : Nat) (fs : FS) (action : UndoAction) : Except Abort FS :=
  match action.type with
  | .ACTION_DELETE =>
    match action.content with
    | some buf =>
      match fopen_w fs action.path with
      | some (fs1, file) => .ok (fprintf_s fs1 file buf)
      | none => .ok fs
    | none =>
      let fs1 := match mkdir fs action.path 0o755 with
        | some fs1 => fs1
        | none => fs
      match action.dir_contents with
      | some contents =>
        if action.dir_content_count > 0 then
          .ok (restore_directory_contents fs1 contents action.dir_content_count).2
        else .ok fs1
      | none => .ok fs1
  | .ACTION_CREATE =>
    if access fs action.path then
      match lstat fs action.path with
      | none => .error .undefinedBehaviour
      | some st =>
        if S_ISDIR st.st_mode then
          match remove_directory fuel fs action.path with
          | .error e => .error e
          | .ok r => .ok r.2
        else
          match unlink fs action.path with
          | some fs1 => .ok fs1
          | none => .ok fs
    else .ok fs
  | .ACTION_RENAME | .ACTION_MOVE =>
    match action.old_path with
    | .null => .ok fs
    | .live old_path =>
      match rename fs action.path old_path with
      | some fs1 => .ok fs1
      | none => .ok fs
    | .freed => .error .undefinedBehaviour
  | .ACTION_CHMOD =>
    match chmod fs action.path action.old_mode with
    | some fs1 => .ok fs1
    | none => .ok fs
  | .ACTION_EDIT =>
    match fopen_w fs action.path with
    | some (fs1, file) =>
      match action.content with
      | some buf => .ok (fprintf_s fs1 file buf)
      | none => .error .undefinedBehaviour
    | none => .ok fs

/-- The block of `undo_last_action` that frees the record: the slot as it is
left behind.  `free(action->old_path)` runs whenever the field is not NULL and
the field is not cleared afterwards; when it already points to freed memory
this is a second `free` of the same pointer. -/
def free_action (action : UndoAction) : Except Abort UndoAction :=
  match action.old_path with
  | .null => .ok action
  | .live _ => .ok { action with old_path := .freed }
  | .freed => .error .undefinedBehaviour

/-- The function `undo_last_action`: -1 on an empty stack; otherwise the
reversal of the top record, then the block that frees the record, then
`undo_count--`, then the rescan of `base_path` and the sort. -/
def undo_last_action (strcoll : CStr → CStr → Int) (fuel : Nat) (s : State)
    (files : List FileInfo) (base_path : CStr) : Except Abort (Int × State × List FileInfo) :=
  if s.undo_count == 0 then .ok (-1, s, files)
  else
    let action := s.slot (s.undo_count - 1)
    match undo_effect fuel s.fs action with
    | .error e => .error e
    | .ok fs1 =>
      match free_action action with
      | .error e => .error e
      | .ok left =>
        let s1 := { s with fs := fs1,
                           undo_stack := s.undo_stack.set (s.undo_count - 1).toNat left,
                           undo_count := s.undo_count - 1 }
        match dirwalk s1 fuel base_path [] base_path with
        | .error e => .error e
        | .ok r => .ok (0, s1, qsort (compare_files strcoll s1.sort_by_size) r.2)

def isspace (c : Char) : Bool := c.toNat == 32 || (9 ≤ c.toNat && c.toNat ≤ 13)

def is_octal (c : Char) : Bool := 48 ≤ c.toNat && c.toNat ≤ 55

/-- The call `sscanf(input, "%o", &new_mode)`: the value stored when the result
is 1, on a 32-bit `mode_t`. -/
def sscanf_o (input : CStr) : Option Nat :=
  let s := input.dropWhile isspace
  let neg := s.head? = some '-'
  let s1 := if s.head? = some '-' ∨ s.head? = some '+' then s.drop 1 else s
  let digits := s1.takeWhile is_octal
  if digits = [] then none
  else
    let v := digits.foldl (fun a c => a * 8 + (c.toNat - 48)) 0 % 2 ^ 32
    some (if neg then (2 ^ 32 - v) % 2 ^ 32 else v)

/-- The function `change_permissions`, compiled without HAVE_LCHMOD. -/
def change_permissions (s : State) (path : CStr) (typed : CStr) : Int × State :=
  match lstat s.fs path with
  | none => (-1, s)
  | some st =>
    if S_ISLNK st.st_mode then (-1, s)
    else
      let input := wgetnstr 10 typed
      match sscanf_o input with
      | none => (-1, s)
      | some new_mode =>
        if new_mode > 0o777 then (-1, s)
        else
          match chmod s.fs path new_mode with
          | none => (-1, s)
          | some fs1 =>
            let s1 := { s with fs := fs1 }
            if s1.undo_count < (MAX_UNDO : Int) then
              (0, s1.push { s1.slot s1.undo_count with
                type := .ACTION_CHMOD, path := path, old_mode := st.st_mode,
                content := none, dir_contents := none, dir_content_count := 0 })
            else (0, s1)

/-- The key that ends the loop `while ((ch = getch()) != 'f' && ch != 'd' && ch != 'l')`. -/
inductive ObjKey where
  | f
  | d
  | l
  deriving DecidableEq, Repr

def create_object (s : State) (base_path : CStr) (typed : CStr) (ch : ObjKey)
    (typed_target : CStr) : Int × State :=
  let input := wgetnstr 256 typed
  let fullpath := join_path MAX_PATH base_path input
  if access s.fs fullpath then (-1, s)
  else
    let made :=
      match ch with
      | .f => open_excl s.fs fullpath 0o644
      | .d => mkdir s.fs fullpath 0o755
      | .l => symlink s.fs (wgetnstr 256 typed_target) fullpath
    match made with
    | none => (-1, s)
    | some fs1 =>
      let s1 := { s with fs := fs1 }
      if s1.undo_count < (MAX_UNDO : Int) then
        (0, s1.push { s1.slot s1.undo_count with
          type := .ACTION_CREATE, path := fullpath,
          content := none, dir_contents := none, dir_content_count := 0 })
      else (0, s1)

/-! ## The commands of the main loop -/

/-- The struct the `memcpy` of the delete command places at index `i` of the
record's `dir_contents`: the source is the array of pointers, read as an array
of structs, so three pointers make one struct (LP64: 24 bytes against 8). -/
def slot_as_struct (lay : Layout) (slots : List (Option DirContent)) (i : Nat) : DirContent :=
  { path := (slots.getD (3 * i) none).map (fun _ => lay.peek (3 * i)),
    content := (slots.getD (3 * i + 1) none).map (fun _ => lay.peek (3 * i + 1)),
    is_dir := match slots.getD (3 * i + 2) none with
      | none => 0
      | some _ => lay.low (3 * i + 2) }

/-- The call `memcpy(dst, dir_contents, dir_content_count * sizeof(DirContent))`:
it reads `3 * dir_content_count` slots of the array of `MAX_DIR_CONTENTS` pointers. -/
def memcpy_contents (lay : Layout) (slots : List (Option DirContent)) (count : Nat) :
    Except Abort (List DirContent) :=
  if 3 * count > MAX_DIR_CONTENTS then .error .undefinedBehaviour
  else .ok ((List.range count).map (slot_as_struct lay slots))

/-- The loop `for (i < dir_content_count) free(dir_contents[i]->path) ...`: it
reads slot `i` and dereferences it. -/
def free_contents (slots : List (Option DirContent)) (count : Nat) : Except Abort Unit :=
  if (List.range count).all (fun i => decide (i < MAX_DIR_CONTENTS) && (slots.getD i none).isSome)
  then .ok () else .error .undefinedBehaviour

/-- The removal part of the delete command: (`success`, `content`,
`dir_contents`, `dir_content_count`, file system). -/
def delete_object (fuel : Nat) (fs : FS) (e : FileInfo) :
    Except Abort (Bool × Option (List Char) × List (Option DirContent) × Nat × FS) :=
  let dir_contents : List (Option DirContent) := List.replicate MAX_DIR_CONTENTS none
  if S_ISREG e.mode then
    let content := read_file fs e.full_path
    match unlink fs e.full_path with
    | some fs1 => .ok (true, content, dir_contents, 0, fs1)
    | none => .ok (false, content, dir_contents, 0, fs)
  else if S_ISDIR e.mode then
    match save_directory_contents fs fuel e.full_path dir_contents 0 with
    | .error err => .error err
    | .ok (_, slots, count) =>
      match remove_directory fuel fs e.full_path with
      | .error err => .error err
      | .ok r => .ok (r.1 == 0, none, slots, count, r.2)
  else
    match unlink fs e.full_path with
    | some fs1 => .ok (true, none, dir_contents, 0, fs1)
    | none => .ok (false, none, dir_contents, 0, fs)

/-- The command `d` of the main loop; `confirm` is the answer to the dialog. -/
def delete_command (lay : Layout) (fuel : Nat) (m : Main) (confirm : Bool) : Except Abort Main :=
  if 0 ≤ m.selected ∧ m.selected < (m.files.length : Int) then
    match m.files.get? m.selected.toNat with
    | none => .error .undefinedBehaviour
    | some e =>
      if confirm then
        match delete_object fuel m.s.fs e with
        | .error err => .error err
        | .ok (success, content, slots, count, fs1) =>
          let s1 := { m.s with fs := fs1 }
          if success then
            let status :=
              if S_ISDIR e.mode then "Directory deleted"
              else if S_ISLNK e.mode then "Link deleted" else "File deleted"
            let pushed : Except Abort State :=
              if s1.undo_count < (MAX_UNDO : Int) then
                let copied : Except Abort (Option (List DirContent)) :=
                  if count > 0 then (memcpy_contents lay slots count).map some else .ok none
                match copied with
                | .error err => .error err
                | .ok dc =>
                  .ok (s1.push { s1.slot s1.undo_count with
                    type := .ACTION_DELETE, path := e.full_path, content := content,
                    dir_contents := dc, dir_content_count := count })
              else (free_contents slots count).map (fun _ => s1)
            match pushed with
            | .error err => .error err
            | .ok s2 =>
              let files := m.files.eraseIdx m.selected.toNat
              let selected :=
                if m.selected ≥ (files.length : Int) ∧ files.length > 0 then m.selected - 1 else m.selected
              .ok { m with s := s2, files := files, selected := selected, status := status }
          else
            (free_contents slots count).map
              (fun _ => { m with s := s1, status := "Delete failed" })
      else .ok m
  else if m.selected < 0 then .error .undefinedBehaviour
  else .ok m

/-- The command `u` of the main loop. -/
def undo_command (strcoll : CStr → CStr → Int) (fuel : Nat) (m : Main) (confirm : Bool) :
    Except Abort Main :=
  if confirm then
    match undo_last_action strcoll fuel m.s m.files m.dir_path with
    | .error err => .error err
    | .ok (r, s1, files) =>
      if r == 0 then
        .ok { m with s := s1, files := files, selected := 0, offset := 0, status := "Action undone" }
      else .ok { m with s := s1, files := files, status := "Nothing to undo" }
  else .ok m

/-! ## The tree below a directory -/

/-- Whether the object is a directory. -/
def Inode.isDir : Inode → Bool
  | .dir _ => true
  | _ => false

/-- Whether the object is a directory the process may read and search. -/
def Inode.openable : Inode → Bool
  | .dir perm => canR perm && canX perm
  | _ => true

/-- Well-formed table: no path occurs twice, and the parent of every object is
the root or a directory of the table. -/
def FS.wf (fs : FS) : Bool :=
  decide (fs.objs.map Prod.fst).Nodup &&
    fs.objs.all (fun o => o.1 != [] &&
      (o.1.dropLast == [] || match fs.get o.1.dropLast with
        | some i => i.isDir
        | none => false))

/-- The objects strictly below the directory `b`. -/
def FS.descendants (fs : FS) (b : Path) : List (Path × Inode) :=
  fs.objs.filter (fun o => b.isPrefixOf o.1 && o.1 != b)

/-- The path string `dirwalk` builds for the object `rel` below the scan root:
`base` followed by a slash and a name for every level. -/
def render : CStr → Path → CStr
  | base, [] => base
  | base, c :: rel => render (base ++ '/' :: c) rel

/-- The entry `dirwalk` makes for an object found at the path string `fullpath`. -/
def entryFor (base fullpath : CStr) (i : Inode) : FileInfo :=
  ⟨(clean_path fullpath base).2, (clean_path fullpath base).1, i.stat.st_size, i.stat.st_mode⟩

/-- The entry of the descendant `o` of the scan root `b`, named by `base`. -/
def entryOf (base : CStr) (b : Path) (o : Path × Inode) : FileInfo :=
  entryFor base (render base (o.1.drop b.length)) o.2

/-- The entry for the path `q` below the scan root `b`, named by `base`. -/
def FS.entryAt (fs : FS) (base : CStr) (b q : Path) : FileInfo :=
  entryFor base (render base (q.drop b.length)) ((fs.get q).getD (.other 0))

/-- The paths below `d` in the order a depth-first walk that reads every
directory meets them. -/
def FS.subtree (fs : FS) : Nat → Path → List Path
  | 0, _ => []
  | fuel + 1, d =>
    (fs.children d).flatMap (fun n =>
      (d ++ [n]) :: (match fs.get (d ++ [n]) with
        | some (.dir _) => fs.subtree fuel (d ++ [n])
        | _ => []))

/-! ## Sequences of calls -/

/-- The object `create_object` makes for the key pressed (no link target typed). -/
def createdInode : ObjKey → Inode
  | .f => .reg 0o644 []
  | .d => .dir 0o755
  | .l => .lnk []

/-- The undo record `create_object` writes for `fullpath` over the slot `old`. -/
def createRecord (old : UndoAction) (fullpath : CStr) : UndoAction :=
  { old with type := .ACTION_CREATE, path := fullpath, content := none, dir_contents := none,
             dir_content_count := 0 }

/-- The object made for one input of `create_all` below the directory `b`. -/
def createdObj (b : Path) (i : CStr × ObjKey) : Path × Inode := (b ++ [i.1], createdInode i.2)

/-- Calls of `create_object` one after the other, one per (name, key) typed;
the results in call order and the final state. -/
def create_all (s : State) (base_path : CStr) : List (CStr × ObjKey) → List Int × State
  | [] => ([], s)
  | i :: rest =>
    let r := create_object s base_path i.1 i.2 []
    let rr := create_all r.2 base_path rest
    (r.1 :: rr.1, rr.2)

/-- `n` calls of `undo_last_action` one after the other. -/
def undo_all (strcoll : CStr → CStr → Int) (fuel : Nat) (base_path : CStr) :
    Nat → State → List FileInfo → Except Abort (List Int × State × List FileInfo)
  | 0, s, files => .ok ([], s, files)
  | n + 1, s, files =>
    match undo_last_action strcoll fuel s files base_path with
    | .error e => .error e
    | .ok r =>
      match undo_all strcoll fuel base_path n r.2.1 r.2.2 with
      | .error e => .error e
      | .ok rr => .ok (r.1 :: rr.1, rr.2)

/-- The table `fs` with the objects `extra` appended. -/
def FS.plus (fs : FS) (extra : List (Path × Inode)) : FS :=
  { fs with objs := fs.objs ++ extra }

/-! ## format_size, copy_file -/

/-- The decimal digit for `n % 10`. -/
def digit (n : Nat) : Char := "0123456789".toList.getD (n % 10) '0'

/-- The decimal digits of `n`, most significant first; `fuel` bounds their number. -/
def utoa_digits : Nat → Nat → CStr → CStr
  | 0, _, acc => acc
  | fuel + 1, n, acc =>
    if n < 10 then digit n :: acc else utoa_digits fuel (n / 10) (digit n :: acc)

/-- The decimal text of a number below `10 ^ 20`. -/
def utoa (n : Nat) : CStr := utoa_digits 20 n []

/-- The conversion `%ld`. -/
def printf_ld (n : Int) : CStr := if n < 0 then '-' :: utoa n.natAbs else utoa n.natAbs

/-- The conversion `%.1f` of the double `num / den`, for `num < 2 ^ 53` and `den`
a power of two (the division is then exact): the quotient rounded to one
decimal place, a tie going to the even digit. -/
def printf_1f (num den : Nat) : CStr :=
  let q := num * 10 / den
  let r := num * 10 % den
  let t := if 2 * r > den ∨ (2 * r = den ∧ q % 2 = 1) then q + 1 else q
  utoa (t / 10) ++ ['.', digit t]

/-- The function `format_size`: the text left in the static buffer (32 bytes
are enough for every 64-bit size). -/
def format_size (size : Int) : CStr :=
  if size > 1024 * 1024 then printf_1f size.toNat (1024 * 1024) ++ [' ', 'M', 'B']
  else if size > 1024 then printf_1f size.toNat 1024 ++ [' ', 'K', 'B']
  else printf_ld size ++ [' ', 'B']

/-- Whether the owner may open the object for reading. -/
def Inode.readable : Inode → Bool
  | .reg perm _ => canR perm
  | .dir perm => canR perm
  | .lnk _ => false
  | .other perm => canR perm

/-- The call `fopen(path, "rb")`: the stream (the path of the open object);
`none` is NULL. -/
def fopen_r (fs : FS) (path : CStr) : Option Path :=
  match fs.nameiFollow path with
  | some p =>
    match fs.get p with
    | some i => if i.readable then some p else none
    | none => none
  | none => none

/-- The bytes the loop `while ((bytes = fread(buffer, 1, 4096, source)) > 0)`
reads from the open source: the data of a regular file, nothing from any other
object. -/
def fread_all (fs : FS) (file : Path) : List Char :=
  match fs.get file with
  | some (.reg _ data) => data
  | _ => []

/-- The calls `fwrite(buffer, 1, bytes, dest)` of the copy loop and the final
`fclose(dest)`. -/
def fwrite_all (fs : FS) (file : Path) (bytes : List Char) : FS :=
  match fs.get file with
  | some (.reg perm data) => fs.replace file (.reg perm (data ++ bytes))
  | _ => fs

/-- The function `copy_file`.  Both streams are opened before either is
tested, and the source is read after the destination has been truncated. -/
def copy_file (s : State) (src dst : CStr) : Int × State :=
  let source := fopen_r s.fs src
  let dest := fopen_w s.fs dst
  match source, dest with
  | some sp, some (fs1, dp) => (0, { s with fs := fwrite_all fs1 dp (fread_all fs1 sp) })
  | none, some (fs1, _) => (-1, { s with fs := fs1 })
  | _, none => (-1, s)

/-! ## Runs of slashes -/

/-- Every maximal run of slashes replaced by a single slash, in the words of
the specification: at a slash, one slash is written and the rest of the run is
skipped; every other character is kept. -/
def squeeze_runs : CStr → CStr
  | [] => []
  | c :: s =>
    if c = '/' then '/' :: squeeze_runs (s.dropWhile (fun d => d == '/'))
    else c :: squeeze_runs s
termination_by s => s.length
decreasing_by
  · simp only [List.length_cons]
    exact Nat.lt_succ_of_le (List.dropWhile_sublist _).length_le
  · simp

/-! ## The entries a scan visits -/

/-- The loop of `dirwalk` with the filter and the `MAX_FILES` test left out:
the joined path and the `lstat` result of every entry the loop reaches, in the
order it reaches them; `recur` lists a subdirectory. -/
def visit_loop (fs : FS) (recur : CStr → List (CStr × Stat)) (path : CStr) :
    List CStr → List (CStr × Stat)
  | [] => []
  | name :: rest =>
    if is_dot name then visit_loop fs recur path rest
    else
      let fullpath := join_path MAX_PATH path name
      match lstat fs fullpath with
      | none => visit_loop fs recur path rest
      | some stat_block =>
        (fullpath, stat_block) ::
          ((if S_ISDIR stat_block.st_mode then recur fullpath else []) ++
            visit_loop fs recur path rest)

/-- Every entry a scan of `path` reaches when nothing is filtered out and
nothing is capped (`fuel` levels deep). -/
def FS.visit (fs : FS) : Nat → CStr → List (CStr × Stat)
  | 0, _ => []
  | fuel + 1, path =>
    match opendir fs path with
    | none => []
    | some names => visit_loop fs (fun p => fs.visit fuel p) path names

/-- The entry `dirwalk` stores for a visited path and its `lstat` result. -/
def visitEntry (base : CStr) (v : CStr × Stat) : FileInfo :=
  ⟨(clean_path v.1 base).2, (clean_path v.1 base).1, v.2.st_size, v.2.st_mode⟩

/-- The state with the three filter flags cleared. -/
def State.noFilter (s : State) : State :=
  { s with show_links := false, show_dirs := false, show_files := false }

/-- The entry types the specification's filter names, and `other` for every
type it does not name (FIFO, socket, device). -/
inductive EntryType where
  | symlink
  | directory
  | regularFile
  | other
  deriving DecidableEq, Repr

/-- The type of an entry, read off the file-type bits of its mode. -/
def EntryType.ofMode (mode : Nat) : EntryType :=
  if mode / 4096 % 16 = 10 then .symlink
  else if mode / 4096 % 16 = 4 then .directory
  else if mode / 4096 % 16 = 8 then .regularFile
  else .other

/-- The types a filter requests, in the specification's words: one type for
each of the flags links, dirs, files that is set. -/
def requestedTypes (links dirs files : Bool) : List EntryType :=
  (if links then [EntryType.symlink] else []) ++
  (if dirs then [EntryType.directory] else []) ++
  (if files then [EntryType.regularFile] else [])

/-- The inclusion rule of the specification, written from its words and not
from `match_type`: an entry is included iff the filter is empty or the entry's
type is one of the requested types. -/
def filterIncludes (requested : List EntryType) (mode : Nat) : Bool :=
  requested.isEmpty || requested.contains (EntryType.ofMode mode)

/-! ## Invariant and concrete inputs -/

/-- The bounds on `undo_count`: `0 <= undo_count <= MAX_UNDO`. -/
def State.countOK (s : State) : Prop := 0 ≤ s.undo_count ∧ s.undo_count ≤ (MAX_UNDO : Int)

/-- A memory layout in which every pointer reads as the empty string and as 0. -/
def layZero : Layout := ⟨fun _ => [], fun _ => 0⟩

/-- The entry the scan makes for an object below the scan root `/r`. -/
def entryDemo (rel : String) (size : Int) (mode : Nat) : FileInfo :=
  ⟨"/r".toList ++ rel.toList, '.' :: rel.toList, size, mode⟩

/-- The tree `/r` holding `a.txt` with the given bytes and `d/x.txt` = "42". -/
def fsDemo (a_txt : List Char) : FS :=
  ⟨[(["r".toList], .dir 0o755),
    (["r".toList, "a.txt".toList], .reg 0o644 a_txt),
    (["r".toList, "d".toList], .dir 0o755),
    (["r".toList, "d".toList, "x.txt".toList], .reg 0o644 "42".toList)], []⟩

/-- The main loop right after start-up on `fsDemo`, no flags given. -/
def mainDemo (a_txt : List Char) (selected : Int) : Main :=
  ⟨State.init (fsDemo a_txt) false false false false, "/r".toList,
    [entryDemo "/a.txt" a_txt.length 0o100644, entryDemo "/d" 4096 0o040755,
     entryDemo "/d/x.txt" 2 0o100644], selected, 0, ""⟩

/-- The tree `/r` holding the file `a` and the symbolic link `b` to a name that
does not exist. -/
def fsDangling : FS :=
  ⟨[(["r".toList], .dir 0o755),
    (["r".toList, "a".toList], .reg 0o644 "A".toList),
    (["r".toList, "b".toList], .lnk "nowhere".toList)], []⟩

/-- A five-digit file name. -/
def bigName (k : Nat) : CStr :=
  [digit (k / 10000), digit (k / 1000), digit (k / 100), digit (k / 10), digit k]

/-- The tree `/r` holding one directory `d` with `n` empty regular files named
by five digits. -/
def fsBig (n : Nat) : FS :=
  ⟨([['r']], .dir 0o755) :: ([['r'], ['d']], .dir 0o755) ::
    (List.range n).map (fun k => ([['r'], ['d'], bigName k], .reg 0o644 [])), []⟩

/-- The names and kinds typed for 101 creations: five-digit names, files and
directories in turn. -/
def createDemo : List (CStr × ObjKey) :=
  (List.range (MAX_UNDO + 1)).map (fun k => (bigName k, if k % 2 = 0 then ObjKey.f else ObjKey.d))

/-- The globals at program start on the tree `/r` holding the empty directory `d`. -/
def stateDemo : State := State.init (fsBig 0) false false false false

/-- The file system root holding the regular file `a`. -/
def fsRoot : FS := ⟨[([['a']], .reg 0o644 [])], []⟩

/-- The main loop on `/r` of `fsBig 0` with the empty directory `d` selected. -/
def mainEmptyDir : Main :=
  ⟨stateDemo, ['/', 'r'], [⟨"/r/d".toList, "./d".toList, 4096, 0o040755⟩], 0, 0, ""⟩

/-- The globals after `a.txt` was renamed to `b.txt` by `rename_file` and
`b.txt` was then removed from outside the program. -/
def stateRenamed : State :=
  let s1 := (rename_file (mainDemo "hello".toList 0).s "/r/a.txt".toList "b.txt".toList
    "/r".toList).2
  { s1 with fs := (unlink s1.fs "/r/b.txt".toList).getD s1.fs }

/-- The main loop on `/r` of `fsDangling` with the symbolic link `b` selected. -/
def mainLink : Main :=
  ⟨State.init fsDangling false false false false, "/r".toList,
    [⟨"/r/a".toList, "./a".toList, 1, 0o100644⟩, ⟨"/r/b".toList, "./b".toList, 7, 0o120777⟩],
    1, 0, ""⟩

/-- The tree `/r` holding the file `a` and the directory `d` with the symbolic
link `l`, the FIFO `p` and the file `x`. -/
def fsMixed : FS :=
  ⟨[([['r']], .dir 0o755),
    ([['r'], ['a']], .reg 0o644 ['A']),
    ([['r'], ['d']], .dir 0o755),
    ([['r'], ['d'], ['l']], .lnk "../a".toList),
    ([['r'], ['d'], ['p']], .other 0o644),
    ([['r'], ['d'], ['x']], .reg 0o644 "42".toList)], []⟩

/-- The entries of a scan of `/r` on `fsMixed` with no flag set. -/
def scanMixed : List FileInfo :=
  [entryDemo "/a" 1 0o100644, entryDemo "/d" 4096 0o040755, entryDemo "/d/l" 4 0o120777,
   entryDemo "/d/p" 0 0o010644, entryDemo "/d/x" 2 0o100644]

/-- The globals after `rename_file` has run on `path` with the typed name
`new_name` and the rename has been undone; when either step aborts, the
globals of `s`. -/
def renamedAndUndone (s : State) (path new_name base_path : CStr) : State :=
  match undo_last_action strcoll_C 4 (rename_file s path new_name base_path).2 [] base_path with
  | .ok r => r.2.1
  | .error _ => s

/-- The main loop on `/r` of `fsDangling` with the symbolic link `b` selected,
after `a` was renamed to `c` and the rename was undone. -/
def mainLinkReused : Main :=
  { mainLink with s := renamedAndUndone mainLink.s "/r/a".toList ['c'] "/r".toList }

theorem splitPath_noslash (n : CStr) (h : '/' ∉ n) (cur : CStr) :
    splitPath cur n = if cur ++ n = [] then [] else [cur ++ n] := by
  induction n generalizing cur with
  | nil => simp [splitPath]
  | cons c n ih =>
    have hc : c ≠ '/' := fun e => h (by simp [e])
    have hn : '/' ∉ n := fun e => h (by simp [e])
    simp [splitPath, hc, ih hn]

theorem splitPath_append_slash (s n cur : CStr) :
    splitPath cur (s ++ '/' :: n) = splitPath cur s ++ splitPath [] n := by
  induction s generalizing cur with
  | nil => by_cases h : cur = [] <;> simp [splitPath, h]
  | cons c s ih =>
    by_cases hc : c = '/'
    · by_cases h : cur = [] <;> simp [splitPath, hc, h, ih]
    · simp [splitPath, hc, ih]

theorem validName_iff (n : CStr) :
    validName n = true ↔ n ≠ [] ∧ '/' ∉ n ∧ n ≠ ['.'] ∧ n ≠ ['.', '.'] := by
  simp [validName]
  tauto

theorem splitPath_join (s n : CStr) (hn : validName n = true) :
    splitPath [] (s ++ '/' :: n) = splitPath [] s ++ [n] := by
  rw [splitPath_append_slash, splitPath_noslash n ((validName_iff n).1 hn).2.1]
  simp [((validName_iff n).1 hn).1]

theorem walk_append (fs : FS) (cs ds : List CStr) (cur : Path) :
    fs.walk cur (cs ++ ds) = (fs.walk cur cs).bind (fun q => fs.walk q ds) := by
  induction cs generalizing cur with
  | nil => simp [FS.walk]
  | cons c cs ih =>
    simp only [List.cons_append, FS.walk]
    split
    · split
      · split
        · exact ih _
        · split
          · exact ih _
          · exact ih _
      · rfl
    · rfl

theorem walk_single (fs : FS) (d : Path) (n : CStr) (hn : validName n = true) :
    fs.walk d [n] = if fs.searchable d then some (d ++ [n]) else none := by
  obtain ⟨_, _, h1, h2⟩ := (validName_iff n).1 hn
  unfold FS.walk FS.searchable
  split <;> simp_all [FS.walk]

theorem namei_join (fs : FS) (path n : CStr) (d : Path) (hp : fs.namei path = some d)
    (hn : validName n = true) :
    fs.namei (path ++ '/' :: n) = if fs.searchable d then some (d ++ [n]) else none := by
  unfold FS.namei FS.resolveFrom at *
  cases path with
  | nil => simp at hp
  | cons c path =>
    simp only [List.cons_append] at *
    rw [← List.cons_append, splitPath_join _ _ hn, walk_append, hp]
    simp [walk_single _ _ _ hn]

theorem lookupObj_append (l r : List (Path × Inode)) (p : Path) :
    lookupObj (l ++ r) p = (lookupObj l p).orElse (fun _ => lookupObj r p) := by
  induction l with
  | nil => simp [lookupObj]
  | cons o l ih => by_cases h : o.1 = p <;> simp [lookupObj, h, ih]

theorem lookupObj_filter_ne (l : List (Path × Inode)) (p q : Path) :
    lookupObj (l.filter (fun o => o.1 != p)) q = if q = p then none else lookupObj l q := by
  induction l with
  | nil => simp [lookupObj]
  | cons o l ih =>
    rw [List.filter_cons]
    by_cases h : o.1 = p <;> by_cases hq : q = p
    · subst hq; simpa [h] using ih
    · have h2 : ¬ o.1 = q := fun e => hq (e ▸ h)
      have h3 : ¬ p = q := fun e => hq e.symm
      simp [h, ih, hq, lookupObj, h3]
    · subst hq; simp [h, lookupObj] ; simpa using ih
    · simp [h, ih, hq, lookupObj]

theorem lookupObj_map_replace (l : List (Path × Inode)) (p q : Path) (i : Inode) :
    lookupObj (l.map (fun o => if o.1 = p then (p, i) else o)) q =
      if q = p then (lookupObj l p).map (fun _ => i) else lookupObj l q := by
  induction l with
  | nil => simp [lookupObj]
  | cons o l ih =>
    rw [List.map_cons]
    by_cases h : o.1 = p <;> by_cases hq : q = p
    · subst hq; simp [h, lookupObj]
    · have h2 : ¬ p = q := fun e => hq e.symm
      have h3 : ¬ o.1 = q := fun e => hq (e ▸ h)
      simp [h, hq, lookupObj, h2, h3, ih]
    · subst hq; simp [h, lookupObj]; simpa using ih
    · by_cases h2 : o.1 = q <;> simp [h, hq, lookupObj, ih, h2]

theorem get_nil (fs : FS) : fs.get [] = some (.dir 0o755) := by simp [FS.get]

theorem get_add (fs : FS) (p q : Path) (i : Inode) (h : fs.get p = none) :
    (fs.add p i).get q = if q = p then some i else fs.get q := by
  have hp : p ≠ [] := by intro e; simp [FS.get, e] at h
  have hl : lookupObj fs.objs p = none := by simpa [FS.get, hp] using h
  by_cases hq : q = []
  · subst hq
    have : ¬ [] = p := fun e => hp e.symm
    simp [get_nil, this]
  · by_cases hqp : q = p
    · subst hqp; simp [FS.get, FS.add, hq, lookupObj_append, hl, lookupObj]
    · have : ¬ p = q := fun e => hqp e.symm
      simp only [FS.get, FS.add, hq, hqp, lookupObj_append, lookupObj, this, if_false]
      cases lookupObj fs.objs q <;> simp

theorem get_remove (fs : FS) (p q : Path) (hp : p ≠ []) :
    (fs.remove p).get q = if q = p then none else fs.get q := by
  by_cases hq : q = []
  · subst hq
    have : ¬ [] = p := fun e => hp e.symm
    simp [get_nil, this]
  · simp [FS.get, FS.remove, hq, lookupObj_filter_ne]

theorem get_replace (fs : FS) (p q : Path) (i : Inode) (hp : p ≠ []) :
    (fs.replace p i).get q = if q = p then (fs.get p).map (fun _ => i) else fs.get q := by
  by_cases hq : q = []
  · subst hq
    have : ¬ [] = p := fun e => hp e.symm
    simp [get_nil, this]
  · simp [FS.get, FS.replace, hq, hp, lookupObj_map_replace]

theorem walk_congr (fs fs2 : FS) (h : ∀ q, fs2.searchable q = fs.searchable q)
    (cs : List CStr) (cur : Path) : fs2.walk cur cs = fs.walk cur cs := by
  induction cs generalizing cur with
  | nil => simp [FS.walk]
  | cons c cs ih =>
    have hs := h cur
    unfold FS.searchable at hs
    unfold FS.walk
    cases h1 : fs.get cur with
    | none =>
      cases h2 : fs2.get cur with
      | none => simp
      | some j =>
        cases j <;> simp_all
    | some i =>
      cases h2 : fs2.get cur with
      | none => cases i <;> simp_all
      | some j =>
        cases i <;> cases j <;> simp_all

theorem childName_eq_some (d p : Path) (n : CStr) :
    childName d p = some n ↔ p = d ++ [n] := by
  unfold childName
  constructor
  · intro h
    split at h
    · rename_i hd
      rw [← hd]
      exact (List.dropLast_append_getLast? n h).symm
    · simp at h
  · intro h
    subst h
    simp

theorem mem_children (fs : FS) (d : Path) (n : CStr) :
    n ∈ fs.children d ↔ ∃ i, (d ++ [n], i) ∈ fs.objs := by
  unfold FS.children
  simp only [List.mem_filterMap, childName_eq_some]
  constructor
  · rintro ⟨o, ho, h⟩
    exact ⟨o.2, by rw [← h]; exact ho⟩
  · rintro ⟨i, hi⟩
    exact ⟨_, hi, rfl⟩

theorem lookupObj_some_mem (l : List (Path × Inode)) (p : Path) (i : Inode)
    (h : lookupObj l p = some i) : (p, i) ∈ l := by
  induction l with
  | nil => simp [lookupObj] at h
  | cons o l ih =>
    unfold lookupObj at h
    split at h
    · rename_i ho
      simp only [Option.some.injEq] at h
      simp [← ho, ← h]
    · exact List.mem_cons_of_mem _ (ih h)

theorem get_some_mem (fs : FS) (p : Path) (i : Inode) (hp : p ≠ []) (h : fs.get p = some i) :
    (p, i) ∈ fs.objs := by
  simp only [FS.get, hp, if_false] at h
  exact lookupObj_some_mem _ _ _ h

theorem pathLen_append (d : Path) (n : CStr) : pathLen (d ++ [n]) = pathLen d + n.length + 1 := by
  simp [pathLen]; omega

theorem truncate_of_lt (s : CStr) (h : s.length < MAX_PATH) : truncate MAX_PATH s = s := by
  unfold truncate
  exact List.take_of_length_le (by unfold MAX_PATH at *; omega)

theorem scanBound_mem (fs : FS) (base : CStr) (fuel : Nat) (h : fs.scanBound base fuel = true)
    (p : Path) (i : Inode) (hm : (p, i) ∈ fs.objs) :
    (∀ c ∈ p, validName c = true) ∧ base.length + pathLen p < MAX_PATH ∧ p.length < fuel := by
  simp only [FS.scanBound, Bool.and_eq_true, decide_eq_true_eq, List.all_eq_true] at h
  have := h.2 _ hm
  exact ⟨this.1.1, this.1.2, this.2⟩

theorem follow_nonlink (fs : FS) (n : Nat) (p : Path) (h : ∀ t, fs.get p ≠ some (.lnk t)) :
    fs.follow (n + 1) p = some p := by
  unfold FS.follow
  split
  · rename_i t ht; exact absurd ht (h t)
  · rfl

theorem stat_mode_div (i : Inode) : i.stat.st_mode / 4096 % 16 =
    match i with
    | .reg _ _ => 8
    | .dir _ => 4
    | .lnk _ => 10
    | .other _ => 1 := by
  cases i <;> simp only [Inode.stat, S_IFREG, S_IFLNK, S_IFIFO, S_IFDIR] <;> omega

theorem S_ISDIR_stat (i : Inode) : S_ISDIR i.stat.st_mode = true ↔ ∃ perm, i = .dir perm := by
  unfold S_ISDIR
  rw [stat_mode_div]
  cases i <;> simp

theorem S_ISREG_stat (i : Inode) :
    S_ISREG i.stat.st_mode = true ↔ ∃ perm data, i = .reg perm data := by
  unfold S_ISREG
  rw [stat_mode_div]
  cases i <;> simp

theorem S_ISLNK_stat (i : Inode) : S_ISLNK i.stat.st_mode = true ↔ ∃ t, i = .lnk t := by
  unfold S_ISLNK
  rw [stat_mode_div]
  cases i <;> simp

theorem dirwalk_loop_total (s : State)
    (recur : CStr → List FileInfo → Except Abort (Int × List FileInfo)) (path base : CStr)
    (names : List CStr)
    (hrec : ∀ n ∈ names, is_dot n = false → ∀ st, lstat s.fs (join_path MAX_PATH path n) = some st →
      S_ISDIR st.st_mode = true → ∀ fl, ∃ r, recur (join_path MAX_PATH path n) fl = .ok r) :
    ∀ files, ∃ r, dirwalk_loop s recur path base names files = .ok r := by
  induction names with
  | nil => intro files; exact ⟨_, rfl⟩
  | cons n names ih =>
    have ih2 := ih (fun m hm => hrec m (List.mem_cons_of_mem _ hm))
    intro files
    unfold dirwalk_loop
    split
    · exact ih2 _
    · rename_i hdot
      simp only
      split
      · exact ih2 _
      · rename_i st hst
        split
        · exact ⟨_, rfl⟩
        · split
          · rename_i hdir
            obtain ⟨r, hr⟩ := hrec n (List.mem_cons_self _ _) (by simpa using hdot) st hst hdir
              (if match_type s st = true then
                files ++ [⟨(clean_path (join_path MAX_PATH path n) base).2,
                  (clean_path (join_path MAX_PATH path n) base).1, st.st_size, st.st_mode⟩]
              else files)
            rw [hr]
            exact ih2 _
          · exact ih2 _

theorem is_dot_of_valid (n : CStr) (h : validName n = true) : is_dot n = false := by
  simp [validName] at h; simpa [is_dot] using h.2

theorem dirwalk_total (s : State) (base : CStr) (F : Nat) (hb : s.fs.scanBound base F = true) :
    ∀ fuel path files d, s.fs.namei path = some d → (∀ t, s.fs.get d ≠ some (.lnk t)) →
      path.length ≤ base.length + pathLen d → F ≤ fuel + d.length → 1 ≤ fuel →
      ∃ r, dirwalk s fuel path files base = .ok r := by
  intro fuel
  induction fuel with
  | zero => intro _ _ _ _ _ _ _ h; omega
  | succ fuel ih =>
    intro path files d hd hlnk hlen hF _
    unfold dirwalk
    cases hop : opendir s.fs path with
    | none => exact ⟨_, rfl⟩
    | some names =>
      simp only
      apply dirwalk_loop_total
      intro n hn hdot st hst hdir fl
      -- identify the names
      unfold opendir FS.nameiFollow at hop
      rw [hd] at hop
      simp only [follow_nonlink _ _ _ hlnk] at hop
      split at hop
      · split at hop
        · simp only [Option.some.injEq] at hop
          subst hop
          simp only [List.mem_cons] at hn
          rcases hn with hn | hn | hn
          · simp [hn, is_dot] at hdot
          · simp [hn, is_dot] at hdot
          · obtain ⟨i, hi⟩ := (mem_children _ _ _).1 hn
            obtain ⟨hv, hshort, hdepth⟩ := scanBound_mem _ _ _ hb _ _ hi
            have hvn : validName n = true := hv n (by simp)
            have hj : join_path MAX_PATH path n = path ++ '/' :: n := by
              unfold join_path
              apply truncate_of_lt
              rw [pathLen_append] at hshort
              simp only [List.length_append, List.length_cons]
              omega
            rw [hj] at hst ⊢
            unfold lstat at hst
            rw [namei_join _ _ _ _ hd hvn] at hst
            split at hst
            · rename_i q hq
              split at hq
              · simp only [Option.some.injEq] at hq
                subst hq
                cases hg : s.fs.get (d ++ [n]) with
                | none => simp [hg] at hst
                | some j =>
                  simp only [hg, Option.map_some', Option.some.injEq] at hst
                  subst hst
                  obtain ⟨perm, rfl⟩ := (S_ISDIR_stat j).1 hdir
                  have hq2 : s.fs.namei (path ++ '/' :: n) = some (d ++ [n]) := by
                    rw [namei_join _ _ _ _ hd hvn]; simp [*]
                  refine ih _ _ (d ++ [n]) hq2 ?_ ?_ ?_ ?_
                  · intro t; simp [hg]
                  · rw [pathLen_append]; simp only [List.length_append, List.length_cons]; omega
                  · simp only [List.length_append, List.length_cons, List.length_nil] at hdepth ⊢; omega
                  · simp only [List.length_append, List.length_cons, List.length_nil] at hdepth; omega
              · simp at hq
            · simp at hst
        · simp at hop
      · simp at hop

theorem searchable_remove (fs : FS) (p : Path) (hp : p ≠ []) (h : fs.searchable p = false)
    (q : Path) : (fs.remove p).searchable q = fs.searchable q := by
  unfold FS.searchable at *
  rw [get_remove _ _ _ hp]
  by_cases hq : q = p
  · subst hq; simp [h]
  · simp [hq]

theorem searchable_add (fs : FS) (p : Path) (i : Inode) (h : fs.get p = none)
    (hi : ∀ perm, i ≠ .dir perm) (q : Path) : (fs.add p i).searchable q = fs.searchable q := by
  unfold FS.searchable
  rw [get_add _ _ _ _ h]
  by_cases hq : q = p
  · subst hq; cases i <;> simp_all
  · simp [hq]

theorem searchable_replace (fs : FS) (p : Path) (i : Inode) (hp : p ≠ [])
    (h : fs.searchable p = false) (hi : ∀ perm, i ≠ .dir perm) (q : Path) :
    (fs.replace p i).searchable q = fs.searchable q := by
  unfold FS.searchable at *
  rw [get_replace _ _ _ _ hp]
  by_cases hq : q = p
  · subst hq
    cases hg : fs.get q with
    | none => simp
    | some j => cases i <;> simp_all
  · simp [hq]

theorem namei_congr (fs fs2 : FS) (hc : fs2.cwd = fs.cwd)
    (h : ∀ q, fs2.searchable q = fs.searchable q) (s : CStr) : fs2.namei s = fs.namei s := by
  unfold FS.namei FS.resolveFrom
  cases s with
  | nil => rfl
  | cons c s => simp only [hc]; exact walk_congr _ _ h _ _

theorem cstr_append_nul (data : List Char) (h : NUL ∉ data) : cstr (data ++ [NUL]) = data := by
  unfold cstr
  induction data with
  | nil => simp [List.takeWhile]
  | cons c data ih =>
    have hc : c ≠ NUL := fun e => h (by simp [e])
    have hd : NUL ∉ data := fun e => h (by simp [e])
    have hb : (c != NUL) = true := by simpa using hc
    simp only [List.cons_append, List.takeWhile_cons, hb, if_true]
    rw [ih hd]

theorem read_file_reg (fs : FS) (path : CStr) (p : Path) (perm : Nat) (data : List Char)
    (hp : fs.namei path = some p) (hg : fs.get p = some (.reg perm data)) (hr : canR perm = true) :
    read_file fs path = some (data ++ [NUL]) := by
  unfold read_file FS.nameiFollow
  rw [hp]
  simp only [follow_nonlink fs 39 p (by simp [hg]), hg, hr, if_true]

theorem unlink_nondir (fs : FS) (path : CStr) (p : Path) (i : Inode)
    (hp : fs.namei path = some p) (hg : fs.get p = some i) (hi : ∀ perm, i ≠ .dir perm)
    (hne : p ≠ []) (hw : fs.parentWritable p = true) : unlink fs path = some (fs.remove p) := by
  unfold unlink
  rw [hp]
  simp only [hg]
  cases i <;> simp_all

theorem fopen_w_new (fs : FS) (path : CStr) (p : Path)
    (hp : fs.namei path = some p) (hg : fs.get p = none)
    (hw : fs.parentWritable p = true) :
    fopen_w fs path = some (fs.add p (.reg 0o666 []), p) := by
  have hne : p ≠ [] := by intro e; simp [e, get_nil] at hg
  unfold fopen_w FS.nameiFollow
  rw [hp]
  simp only [follow_nonlink fs 39 p (by simp [hg]), hg]
  simp [hne, hw]

theorem fopen_w_reg (fs : FS) (path : CStr) (p : Path) (perm : Nat) (data : List Char)
    (hp : fs.namei path = some p) (hg : fs.get p = some (.reg perm data)) (hw : canW perm = true) :
    fopen_w fs path = some (fs.replace p (.reg perm []), p) := by
  unfold fopen_w FS.nameiFollow
  rw [hp]
  simp only [follow_nonlink fs 39 p (by simp [hg]), hg, hw, if_true]

theorem fprintf_s_reg (fs : FS) (p : Path) (perm : Nat) (data buf : List Char)
    (hg : fs.get p = some (.reg perm data)) :
    fprintf_s fs p buf = fs.replace p (.reg perm (data ++ cstr buf)) := by
  unfold fprintf_s
  simp only [hg]

theorem slot_push (s : State) (a : UndoAction) (h0 : 0 ≤ s.undo_count)
    (h1 : s.undo_count < (MAX_UNDO : Int)) (harr : s.undo_stack.length = MAX_UNDO) :
    (s.push a).slot ((s.push a).undo_count - 1) = a := by
  unfold State.push State.slot
  simp only [add_sub_cancel_right]
  rw [List.getD_eq_getElem?_getD, List.getElem?_set_self]
  · rfl
  · omega

theorem rescan_total (s : State) (base : CStr) (fuel : Nat)
    (h : s.fs.scannable base fuel = true) (files : List FileInfo) :
    ∃ r, dirwalk s fuel base files base = .ok r := by
  simp only [FS.scannable, Bool.and_eq_true] at h
  obtain ⟨hb, hl⟩ := h
  cases hn : s.fs.namei base with
  | none =>
    have h1 : 1 ≤ fuel := by
      simp only [FS.scanBound, Bool.and_eq_true, decide_eq_true_eq] at hb; exact hb.1
    obtain ⟨k, rfl⟩ : ∃ k, fuel = k + 1 := ⟨fuel - 1, by omega⟩
    unfold dirwalk opendir FS.nameiFollow
    simp [hn]
  | some d =>
    rw [hn] at hl
    have h1 : 1 ≤ fuel := by
      simp only [FS.scanBound, Bool.and_eq_true, decide_eq_true_eq] at hb; exact hb.1
    refine dirwalk_total s base fuel hb fuel base files d hn ?_ (by omega) (by omega) h1
    intro t ht
    simp [FS.notLink, ht] at hl

theorem scanBound_of_keys (fs fs2 : FS) (base : CStr) (fuel : Nat)
    (hk : ∀ o ∈ fs2.objs, ∃ i, (o.1, i) ∈ fs.objs)
    (h : fs.scanBound base fuel = true) : fs2.scanBound base fuel = true := by
  simp only [FS.scanBound, Bool.and_eq_true, decide_eq_true_eq, List.all_eq_true] at h ⊢
  refine ⟨h.1, fun o ho => ?_⟩
  obtain ⟨i, hi⟩ := hk o ho
  exact h.2 (o.1, i) hi

theorem scannable_of_keys (fs fs2 : FS) (base : CStr) (fuel : Nat)
    (hk : ∀ o ∈ fs2.objs, ∃ i, (o.1, i) ∈ fs.objs)
    (hc : fs2.cwd = fs.cwd) (hs : ∀ q, fs2.searchable q = fs.searchable q)
    (hl : ∀ q, fs2.notLink q = true ∨ fs2.get q = fs.get q)
    (h : fs.scannable base fuel = true) : fs2.scannable base fuel = true := by
  simp only [FS.scannable, Bool.and_eq_true] at h ⊢
  refine ⟨scanBound_of_keys fs fs2 base fuel hk h.1, ?_⟩
  rw [namei_congr fs fs2 hc hs]
  have h2 := h.2
  cases hn : fs.namei base with
  | none => rfl
  | some d =>
    rw [hn] at h2
    simp only
    rcases hl d with h3 | h3
    · exact h3
    · simpa [FS.notLink, h3] using h2

theorem mode_reg_not_dir (m : Nat) (h : S_ISREG m = true) : S_ISDIR m = false ∧ S_ISLNK m = false := by
  simp only [S_ISREG, S_ISDIR, S_ISLNK, beq_iff_eq, beq_eq_false_iff_ne] at *
  omega

theorem parentWritable_congr (fs fs2 : FS) (p : Path) (h : fs2.get p.dropLast = fs.get p.dropLast) :
    fs2.parentWritable p = fs.parentWritable p := by
  unfold FS.parentWritable; rw [h]

theorem dropLast_ne (p : Path) (hp : p ≠ []) : p.dropLast ≠ p := by
  intro e
  have := congrArg List.length e
  simp at this
  have : p.length ≠ 0 := by simpa using hp
  omega

theorem delete_file_run (lay : Layout) (fuel : Nat) (m : Main) (e : FileInfo) (p : Path)
    (perm : Nat) (data : List Char)
    (hsel : 0 ≤ m.selected) (he : m.files.get? m.selected.toNat = some e)
    (hreg : S_ISREG e.mode = true)
    (hp : m.s.fs.namei e.full_path = some p) (hget : m.s.fs.get p = some (.reg perm data))
    (hw : m.s.fs.parentWritable p = true)
    (hfull : m.s.undo_count < (MAX_UNDO : Int)) :
    delete_command lay fuel m true = .ok
      { m with
        s := ({ m.s with fs := m.s.fs.remove p } : State).push
          { m.s.slot m.s.undo_count with
            type := .ACTION_DELETE, path := e.full_path, content := read_file m.s.fs e.full_path,
            dir_contents := none, dir_content_count := 0 },
        files := m.files.eraseIdx m.selected.toNat,
        selected :=
          if m.selected ≥ ((m.files.eraseIdx m.selected.toNat).length : Int) ∧
            (m.files.eraseIdx m.selected.toNat).length > 0 then m.selected - 1 else m.selected,
        status := "File deleted" } := by
  have hlt : m.selected < (m.files.length : Int) := by
    have := List.get?_eq_some.1 he
    obtain ⟨h, _⟩ := this
    omega
  have hne : p ≠ [] := by intro e; simp [e, get_nil] at hget
  have hun := unlink_nondir m.s.fs e.full_path p _ hp hget (by simp) hne hw
  obtain ⟨hnd, hnl⟩ := mode_reg_not_dir _ hreg
  unfold delete_command
  simp only [hsel, hlt, and_self, if_true, he, delete_object, hreg, hun, hfull, hnd, hnl,
    Bool.false_eq_true, if_false]
  simp
  rfl

theorem undo_count_push (s : State) (a : UndoAction) : (s.push a).undo_count = s.undo_count + 1 := rfl

theorem fs_push (s : State) (a : UndoAction) : (s.push a).fs = s.fs := rfl

/-- The free block succeeds on a record whose `old_path` is NULL or live. -/
theorem free_action_ok (a : UndoAction) (h : a.old_path ≠ .freed) :
    ∃ left, free_action a = .ok left := by
  unfold free_action
  cases ho : a.old_path with
  | null => exact ⟨_, rfl⟩
  | live t => exact ⟨_, rfl⟩
  | freed => exact absurd ho h

/-- The free block on a record whose `old_path` has been freed before. -/
theorem free_action_freed (a : UndoAction) (h : a.old_path = .freed) :
    free_action a = .error .undefinedBehaviour := by
  unfold free_action
  rw [h]

/-- The frame of `undo_last_action` around the reversal: when the reversal
gives `fs1`, the record can be freed and the rescan returns, the result is 0,
the file system is `fs1`, the slot is left as `free_action` leaves it and the
count is one less. -/
theorem undo_last_action_run (strcoll : CStr → CStr → Int) (fuel : Nat) (s : State)
    (files : List FileInfo) (base : CStr) (fs1 : FS) (left : UndoAction)
    (hc : s.undo_count ≠ 0)
    (heff : undo_effect fuel s.fs (s.slot (s.undo_count - 1)) = .ok fs1)
    (hfree : free_action (s.slot (s.undo_count - 1)) = .ok left)
    (hscan : fs1.scannable base fuel = true) :
    ∃ files2, undo_last_action strcoll fuel s files base = .ok (0,
      { s with fs := fs1, undo_stack := s.undo_stack.set (s.undo_count - 1).toNat left,
               undo_count := s.undo_count - 1 }, files2) := by
  obtain ⟨r, hr⟩ := rescan_total
    { s with fs := fs1, undo_stack := s.undo_stack.set (s.undo_count - 1).toNat left,
             undo_count := s.undo_count - 1 } base fuel hscan []
  refine ⟨qsort (compare_files strcoll s.sort_by_size) r.2, ?_⟩
  unfold undo_last_action
  have hc2 : (s.undo_count == 0) = false := by simpa using hc
  simp only [hc2, Bool.false_eq_true, if_false, heff, hfree, hr]

/-- The frame of `undo_last_action` when the slot of the record holds an
`old_path` that was freed before: the record is freed after the reversal, and
freeing `old_path` again is undefined behaviour. -/
theorem undo_last_action_double_free (strcoll : CStr → CStr → Int) (fuel : Nat) (s : State)
    (files : List FileInfo) (base : CStr) (fs1 : FS)
    (hc : s.undo_count ≠ 0)
    (heff : undo_effect fuel s.fs (s.slot (s.undo_count - 1)) = .ok fs1)
    (hop : (s.slot (s.undo_count - 1)).old_path = .freed) :
    undo_last_action strcoll fuel s files base = .error .undefinedBehaviour := by
  unfold undo_last_action
  have hc2 : (s.undo_count == 0) = false := by simpa using hc
  simp only [hc2, Bool.false_eq_true, if_false, heff, free_action_freed _ hop]

/-- Undoing a Delete record that carries content, when nothing is at the path. -/
theorem undo_delete_content (strcoll : CStr → CStr → Int) (fuel : Nat) (s1 : State)
    (files : List FileInfo) (base : CStr) (buf : List Char) (p : Path)
    (hc : s1.undo_count ≠ 0)
    (hty : (s1.slot (s1.undo_count - 1)).type = .ACTION_DELETE)
    (hcont : (s1.slot (s1.undo_count - 1)).content = some buf)
    (hop : (s1.slot (s1.undo_count - 1)).old_path ≠ .freed)
    (hp : s1.fs.namei (s1.slot (s1.undo_count - 1)).path = some p) (hg : s1.fs.get p = none)
    (hw : s1.fs.parentWritable p = true)
    (hscan : ((s1.fs.add p (.reg 0o666 [])).replace p (.reg 0o666 (cstr buf))).scannable base fuel
      = true) :
    ∃ left files2, undo_last_action strcoll fuel s1 files base = .ok (0,
      { s1 with fs := (s1.fs.add p (.reg 0o666 [])).replace p (.reg 0o666 (cstr buf)),
                undo_stack := s1.undo_stack.set (s1.undo_count - 1).toNat left,
                undo_count := s1.undo_count - 1 }, files2) := by
  have hne : p ≠ [] := by intro e; simp [e, get_nil] at hg
  have hfo := fopen_w_new s1.fs _ p hp hg hw
  have hg2 : (s1.fs.add p (.reg 0o666 [])).get p = some (.reg 0o666 []) := by
    rw [get_add _ _ _ _ hg]; simp
  have hfp := fprintf_s_reg (s1.fs.add p (.reg 0o666 [])) p 0o666 [] buf hg2
  have heff : undo_effect fuel s1.fs (s1.slot (s1.undo_count - 1))
      = .ok ((s1.fs.add p (.reg 0o666 [])).replace p (.reg 0o666 (cstr buf))) := by
    simp only [undo_effect, hty, hcont, hfo, hfp, List.nil_append]
  obtain ⟨left, hleft⟩ := free_action_ok _ hop
  obtain ⟨files2, h⟩ := undo_last_action_run strcoll fuel s1 files base _ left hc heff hleft hscan
  exact ⟨left, files2, h⟩

theorem get_after_restore (fs : FS) (p q : Path) (data : List Char) (hg : fs.get p = none) :
    ((fs.add p (.reg 0o666 [])).replace p (.reg 0o666 data)).get q =
      if q = p then some (.reg 0o666 data) else fs.get q := by
  have hne : p ≠ [] := by intro e; simp [e, get_nil] at hg
  rw [get_replace _ _ _ _ hne, get_add _ _ _ _ hg, get_add _ _ _ _ hg]
  by_cases h : q = p <;> simp [h]

theorem searchable_of_get (fs : FS) (p : Path) (i : Inode) (h : fs.get p = some i)
    (hi : ∀ perm, i ≠ .dir perm) : fs.searchable p = false := by
  unfold FS.searchable; rw [h]; cases i <;> simp_all

theorem searchable_none (fs : FS) (p : Path) (h : fs.get p = none) : fs.searchable p = false := by
  unfold FS.searchable; rw [h]

/-- Removing a file and putting a regular file back at its path keeps a
scannable tree scannable. -/
theorem scannable_after_restore (fs : FS) (p : Path) (i : Inode) (data : List Char)
    (base : CStr) (fuel : Nat) (hg : fs.get p = some i) (hi : ∀ perm, i ≠ .dir perm)
    (hne : p ≠ []) (h : fs.scannable base fuel = true) :
    (((fs.remove p).add p (.reg 0o666 [])).replace p (.reg 0o666 data)).scannable base fuel
      = true := by
  have hg1 : (fs.remove p).get p = none := by rw [get_remove _ _ _ hne]; simp
  refine scannable_of_keys fs _ base fuel ?_ rfl ?_ ?_ h
  · intro o ho
    simp only [FS.replace, FS.add, FS.remove, List.mem_map, List.mem_append, List.mem_filter,
      List.mem_singleton] at ho
    obtain ⟨o2, ho2, rfl⟩ := ho
    by_cases hp : o2.1 = p
    · simp only [hp, if_true]
      exact ⟨i, get_some_mem _ _ _ hne hg⟩
    · simp only [hp, if_false]
      rcases ho2 with ho2 | ho2
      · exact ⟨o2.2, ho2.1⟩
      · exact absurd (by rw [ho2]) hp
  · intro q
    rw [searchable_replace _ _ _ hne _ (by simp), searchable_add _ _ _ hg1 (by simp),
      searchable_remove _ _ hne (searchable_of_get _ _ _ hg hi)]
    rw [searchable_add _ _ _ hg1 (by simp)]
    exact searchable_none _ _ hg1
  · intro q
    by_cases hq : q = p
    · left
      unfold FS.notLink
      rw [get_after_restore _ _ _ _ hg1]
      simp [hq]
    · right
      rw [get_after_restore _ _ _ _ hg1, get_remove _ _ _ hne]
      simp [hq]

theorem undo_command_ok (strcoll : CStr → CStr → Int) (fuel : Nat) (m : Main) (s1 : State)
    (files : List FileInfo)
    (h : undo_last_action strcoll fuel m.s m.files m.dir_path = .ok (0, s1, files)) :
    undo_command strcoll fuel m true = .ok
      { m with s := s1, files := files, selected := 0, offset := 0, status := "Action undone" } := by
  unfold undo_command
  simp [h]

/-- C1 (amended): for a readable regular file whose bytes hold no NUL, in a
writable directory, the delete command (undo stack not full, and the slot the
record goes to holding no `old_path` that an earlier undo has freed) followed
by the undo command leaves a regular file at the same path holding exactly the
original bytes. -/
theorem delete_file_undo_restores_content (lay : Layout) (strcoll : CStr → CStr → Int)
    (fuel : Nat) (m : Main) (e : FileInfo) (p : Path) (perm : Nat) (data : List Char)
    (hsel : 0 ≤ m.selected) (he : m.files.get? m.selected.toNat = some e)
    (hreg : S_ISREG e.mode = true)
    (hp : m.s.fs.namei e.full_path = some p) (hget : m.s.fs.get p = some (.reg perm data))
    (hr : canR perm = true) (hnul : NUL ∉ data)
    (hw : m.s.fs.parentWritable p = true)
    (h0 : 0 ≤ m.s.undo_count) (hfull : m.s.undo_count < (MAX_UNDO : Int))
    (harr : m.s.undo_stack.length = MAX_UNDO)
    (hold : (m.s.slot m.s.undo_count).old_path ≠ .freed)
    (hscan : m.s.fs.scannable m.dir_path fuel = true) :
    ∃ m1 m2, delete_command lay fuel m true = .ok m1 ∧ m1.status = "File deleted" ∧
      m1.s.fs.get p = none ∧
      undo_command strcoll fuel m1 true = .ok m2 ∧ m2.status = "Action undone" ∧
      m2.s.fs.get p = some (.reg 0o666 data) ∧
      read_file m2.s.fs e.full_path = some (data ++ [NUL]) := by
  have hne : p ≠ [] := by intro e; simp [e, get_nil] at hget
  have hdel := delete_file_run lay fuel m e p perm data hsel he hreg hp hget hw hfull
  have hrd := read_file_reg _ _ _ _ _ hp hget hr
  rw [hrd] at hdel
  have hsr := searchable_of_get _ _ _ hget (by simp)
  have hg1 : (m.s.fs.remove p).get p = none := by rw [get_remove _ _ _ hne]; simp
  have hn1 : (m.s.fs.remove p).namei e.full_path = some p := by
    rw [namei_congr m.s.fs (m.s.fs.remove p) rfl (searchable_remove _ _ hne hsr)]; exact hp
  have hw1 : (m.s.fs.remove p).parentWritable p = true := by
    rw [parentWritable_congr m.s.fs _ p]
    · exact hw
    · rw [get_remove _ _ _ hne]; simp [dropLast_ne p hne]
  have hsc := scannable_after_restore m.s.fs p _ (cstr (data ++ [NUL])) m.dir_path fuel hget
    (by simp) hne hscan
  obtain ⟨m1, hdel, hst, hdp, hs⟩ : ∃ m1, delete_command lay fuel m true = .ok m1 ∧
      m1.status = "File deleted" ∧ m1.dir_path = m.dir_path ∧
      m1.s = ({ m.s with fs := m.s.fs.remove p } : State).push
        { m.s.slot m.s.undo_count with
          type := .ACTION_DELETE, path := e.full_path, content := some (data ++ [NUL]),
          dir_contents := none, dir_content_count := 0 } := ⟨_, hdel, rfl, rfl, rfl⟩
  have hslot := slot_push ({ m.s with fs := m.s.fs.remove p } : State)
    { m.s.slot m.s.undo_count with
      type := .ACTION_DELETE, path := e.full_path, content := some (data ++ [NUL]),
      dir_contents := none, dir_content_count := 0 } h0 hfull harr
  rw [← hs] at hslot
  have hfs : m1.s.fs = m.s.fs.remove p := by rw [hs]; rfl
  have hcnt : m1.s.undo_count = m.s.undo_count + 1 := by rw [hs]; rfl
  obtain ⟨left, files2, hu⟩ := undo_delete_content strcoll fuel m1.s m1.files m1.dir_path
    (data ++ [NUL]) p (by omega) (by rw [hslot]) (by rw [hslot]) (by rw [hslot]; exact hold)
    (by rw [hslot, hfs]; exact hn1)
    (by rw [hfs]; exact hg1) (by rw [hfs]; exact hw1) (by rw [hfs, hdp]; exact hsc)
  have hcmd := undo_command_ok strcoll fuel m1 _ _ hu
  refine ⟨m1, _, hdel, hst, by rw [hfs]; exact hg1, hcmd, rfl, ?_, ?_⟩
  · show FS.get ((m1.s.fs.add p (.reg 0o666 [])).replace p (.reg 0o666 (cstr (data ++ [NUL])))) p = _
    rw [hfs]
    simp only [get_after_restore _ _ _ _ hg1, cstr_append_nul _ hnul, if_true]
  · show read_file ((m1.s.fs.add p (.reg 0o666 [])).replace p
      (.reg 0o666 (cstr (data ++ [NUL])))) e.full_path = _
    rw [hfs]
    refine read_file_reg _ _ p 0o666 data ?_ ?_ (by decide)
    · rw [namei_congr (m.s.fs.remove p) (((m.s.fs.remove p).add p (.reg 0o666 [])).replace p
        (.reg 0o666 (cstr (data ++ [NUL])))) rfl]
      · exact hn1
      · intro q
        rw [searchable_replace _ _ _ hne _ (by simp), searchable_add _ _ _ hg1 (by simp)]
        rw [searchable_add _ _ _ hg1 (by simp)]
        exact searchable_none _ _ hg1
    · simp only [get_after_restore _ _ _ _ hg1, cstr_append_nul _ hnul, if_true]

/-- Replacing the inode of an existing object that is not a directory by another
one that is not a directory keeps path resolution and scannability. -/
theorem replace_nondir_facts (fs : FS) (p : Path) (i j : Inode) (hne : p ≠ [])
    (hg : fs.get p = some i) (hi : ∀ perm, i ≠ .dir perm) (hj : ∀ perm, j ≠ .dir perm)
    (hjl : ∀ t, j ≠ .lnk t) :
    (∀ q, (fs.replace p j).get q = if q = p then some j else fs.get q) ∧
    (∀ s, (fs.replace p j).namei s = fs.namei s) ∧
    (∀ base fuel, fs.scannable base fuel = true → (fs.replace p j).scannable base fuel = true) := by
  have hget : ∀ q, (fs.replace p j).get q = if q = p then some j else fs.get q := by
    intro q; rw [get_replace _ _ _ _ hne, hg]; rfl
  have hs : ∀ q, (fs.replace p j).searchable q = fs.searchable q :=
    searchable_replace _ _ _ hne (searchable_of_get _ _ _ hg hi) hj
  refine ⟨hget, namei_congr fs _ rfl hs, fun base fuel h => ?_⟩
  refine scannable_of_keys fs _ base fuel ?_ rfl hs ?_ h
  · intro o ho
    simp only [FS.replace, List.mem_map] at ho
    obtain ⟨o2, ho2, rfl⟩ := ho
    by_cases hp : o2.1 = p
    · simp only [hp, if_true]
      exact ⟨i, get_some_mem _ _ _ hne hg⟩
    · simp only [hp, if_false]
      exact ⟨o2.2, ho2⟩
  · intro q
    by_cases hq : q = p
    · left
      unfold FS.notLink
      rw [hget, if_pos hq]
      cases j <;> simp_all
    · right
      rw [hget, if_neg hq]

/-- The effect of `fopen(path, "w")`, `fprintf(file, "%s", buf)`, `fclose(file)`
on an existing writable regular file. -/
theorem overwrite_reg (fs : FS) (path : CStr) (p : Path) (perm : Nat) (data buf : List Char)
    (hp : fs.namei path = some p) (hg : fs.get p = some (.reg perm data))
    (hw : canW perm = true) :
    ∃ fs1 fs2, fopen_w fs path = some (fs1, p) ∧ fprintf_s fs1 p buf = fs2 ∧
      (∀ q, fs2.get q = if q = p then some (.reg perm (cstr buf)) else fs.get q) ∧
      (∀ s, fs2.namei s = fs.namei s) ∧
      (∀ base fuel, fs.scannable base fuel = true → fs2.scannable base fuel = true) := by
  have hne : p ≠ [] := by intro e; simp [e, get_nil] at hg
  obtain ⟨g1, n1, s1⟩ := replace_nondir_facts fs p _ (.reg perm []) hne hg (by simp) (by simp)
    (by simp)
  have hg1 : (fs.replace p (.reg perm [])).get p = some (.reg perm []) := by rw [g1]; simp
  obtain ⟨g2, n2, s2⟩ := replace_nondir_facts (fs.replace p (.reg perm [])) p _
    (.reg perm (cstr buf)) hne hg1 (by simp) (by simp) (by simp)
  refine ⟨_, (fs.replace p (.reg perm [])).replace p (.reg perm (cstr buf)),
    fopen_w_reg fs path p perm data hp hg hw, ?_, ?_, ?_, ?_⟩
  · rw [fprintf_s_reg _ p perm [] buf hg1]; rfl
  · intro q; rw [g2, g1]; by_cases h : q = p <;> simp [h]
  · intro s; rw [n2, n1]
  · intro base fuel h; exact s2 _ _ (s1 _ _ h)

/-- C3 (amended): for a readable, writable regular file whose prior content
`v1` holds no NUL and any typed new content, `edit_file` (undo stack not full,
and the slot the record goes to holding no `old_path` that an earlier undo has
freed) followed by `undo_last_action` leaves the file holding exactly `v1`. -/
theorem edit_undo_restores_content (strcoll : CStr → CStr → Int) (fuel : Nat) (s : State)
    (path typed : CStr) (files : List FileInfo) (base : CStr) (p : Path) (perm : Nat)
    (v1 : List Char)
    (hp : s.fs.namei path = some p) (hget : s.fs.get p = some (.reg perm v1))
    (hr : canR perm = true) (hw : canW perm = true) (hnul : NUL ∉ v1)
    (h0 : 0 ≤ s.undo_count) (hfull : s.undo_count < (MAX_UNDO : Int))
    (harr : s.undo_stack.length = MAX_UNDO)
    (hold : (s.slot s.undo_count).old_path ≠ .freed)
    (hscan : s.fs.scannable base fuel = true) :
    ∃ s1 s2 files2, edit_file s path typed = (0, s1) ∧
      s1.fs.get p = some (.reg perm (cstr (wgetnstr 1024 typed))) ∧
      undo_last_action strcoll fuel s1 files base = .ok (0, s2, files2) ∧
      s2.fs.get p = some (.reg perm v1) ∧ s2.undo_count = s.undo_count := by
  obtain ⟨fa, fb, ho, hf, hgb, hnb, hsb⟩ := overwrite_reg s.fs path p perm v1
    (wgetnstr 1024 typed) hp hget hw
  have hrd := read_file_reg _ _ _ _ _ hp hget hr
  obtain ⟨s1, hed, hs⟩ : ∃ s1, edit_file s path typed = (0, s1) ∧
      s1 = ({ s with fs := fb } : State).push
        { s.slot s.undo_count with
          type := .ACTION_EDIT, path := path, content := some (v1 ++ [NUL]),
          dir_contents := none, dir_content_count := 0 } := by
    refine ⟨_, ?_, rfl⟩
    unfold edit_file
    simp only [ho, hf, hrd, hfull, if_true]
    rfl
  have hslot := slot_push ({ s with fs := fb } : State)
    { s.slot s.undo_count with
      type := .ACTION_EDIT, path := path, content := some (v1 ++ [NUL]),
      dir_contents := none, dir_content_count := 0 } h0 hfull harr
  rw [← hs] at hslot
  have hfs : s1.fs = fb := by rw [hs]; rfl
  have hcnt : s1.undo_count = s.undo_count + 1 := by rw [hs]; rfl
  have hgp : fb.get p = some (.reg perm (cstr (wgetnstr 1024 typed))) := by rw [hgb]; simp
  obtain ⟨fc, fd, ho2, hf2, hgd, hnd, hsd⟩ := overwrite_reg fb path p perm _
    (v1 ++ [NUL]) (by rw [hnb]; exact hp) hgp hw
  have hc1 : s1.undo_count ≠ 0 := by rw [hcnt]; omega
  have heff : undo_effect fuel s1.fs (s1.slot (s1.undo_count - 1)) = .ok fd := by
    simp only [undo_effect, hslot, hfs, ho2, hf2]
  obtain ⟨left, hleft⟩ := free_action_ok (s1.slot (s1.undo_count - 1))
    (by rw [hslot]; exact hold)
  obtain ⟨files2, hu⟩ := undo_last_action_run strcoll fuel s1 files base fd left hc1 heff hleft
    (hsd _ _ (hsb _ _ hscan))
  refine ⟨s1, _, files2, hed, by rw [hfs]; exact hgp, hu, ?_, ?_⟩
  · show fd.get p = _
    rw [hgd, cstr_append_nul _ hnul]; simp
  · show s1.undo_count - 1 = _
    rw [hcnt]; omega

theorem walk_congr_off (fs fs2 : FS) (cs : List CStr) (hv : ∀ c ∈ cs, validName c = true)
    (cur : Path) (h : ∀ q, q ≠ cur ++ cs → fs2.get q = fs.get q) :
    fs2.walk cur cs = fs.walk cur cs := by
  induction cs generalizing cur with
  | nil => simp [FS.walk]
  | cons c cs ih =>
    have hc := (validName_iff c).1 (hv c (List.mem_cons_self _ _))
    have hcur : fs2.get cur = fs.get cur := by
      apply h
      intro e
      have := congrArg List.length e
      simp at this
    have hrest := ih (fun d hd => hv d (List.mem_cons_of_mem _ hd)) (cur ++ [c])
      (by simpa using h)
    unfold FS.walk
    rw [hcur]
    simp only [hc.2.2.1, hc.2.2.2, if_false, hrest]

theorem walk_valid_eq (fs : FS) (cs : List CStr) (hv : ∀ c ∈ cs, validName c = true)
    (cur p : Path) (h : fs.walk cur cs = some p) : p = cur ++ cs := by
  induction cs generalizing cur with
  | nil => simp [FS.walk] at h; simp [h]
  | cons c cs ih =>
    have hc := (validName_iff c).1 (hv c (List.mem_cons_self _ _))
    unfold FS.walk at h
    split at h
    · split at h
      · simp only [hc.2.2.1, hc.2.2.2, if_false] at h
        have := ih (fun d hd => hv d (List.mem_cons_of_mem _ hd)) _ h
        simpa using this
      · simp at h
    · simp at h

/-- For a path string without `.` and `..` components, resolution does not
depend on the object the path names. -/
theorem namei_congr_off (fs fs2 : FS) (path : CStr) (p : Path)
    (hv : ∀ c ∈ splitPath [] path, validName c = true)
    (hp : fs.namei path = some p) (hc : fs2.cwd = fs.cwd)
    (h : ∀ q, q ≠ p → fs2.get q = fs.get q) : fs2.namei path = some p := by
  unfold FS.namei FS.resolveFrom at *
  cases path with
  | nil => simp at hp
  | cons c path =>
    simp only at hp ⊢
    rw [hc]
    have := walk_valid_eq fs _ hv _ _ hp
    rw [walk_congr_off fs fs2 _ hv _ (by rw [← this]; exact h)]
    exact hp

theorem chmod_chmod_stat (i : Inode) (a : Nat) :
    ((i.chmod a).chmod i.stat.st_mode).stat = i.stat := by
  cases i <;> simp only [Inode.chmod, Inode.stat, S_IFREG, S_IFDIR, S_IFIFO, S_IFLNK] <;>
    (congr 1; omega)

theorem chmod_nonlink (fs : FS) (path : CStr) (p : Path) (i : Inode) (mode : Nat)
    (hp : fs.namei path = some p) (hg : fs.get p = some i) (hi : ∀ t, i ≠ .lnk t)
    (hne : p ≠ []) : chmod fs path mode = some (fs.replace p (i.chmod mode)) := by
  unfold chmod FS.nameiFollow
  rw [hp]
  simp only [follow_nonlink fs 39 p (by rw [hg]; simpa using hi), hg]
  simp [hne]

theorem chmod_kind (i : Inode) (a : Nat) :
    (∀ t, i ≠ .lnk t) → ∀ t, i.chmod a ≠ .lnk t := by
  cases i <;> simp [Inode.chmod]

theorem canX_mod (perm : Nat) : canX (perm % 4096) = canX perm := by
  unfold canX; congr 1; omega

theorem lstat_eq_some (fs : FS) (path : CStr) (st : Stat) (h : lstat fs path = some st) :
    ∃ p i, fs.namei path = some p ∧ fs.get p = some i ∧ st = i.stat := by
  unfold lstat at h
  cases hn : fs.namei path with
  | none => simp [hn] at h
  | some p =>
    cases hg : fs.get p with
    | none => simp [hn, hg] at h
    | some i =>
      simp [hn, hg] at h
      exact ⟨p, i, rfl, hg, h.symm⟩

/-- What a successful `change_permissions` did. -/
theorem change_permissions_ok (s : State) (path typed : CStr)
    (hok : (change_permissions s path typed).1 = 0) :
    ∃ p i new_mode, s.fs.namei path = some p ∧ s.fs.get p = some i ∧ (∀ t, i ≠ .lnk t) ∧
      p ≠ [] ∧ sscanf_o (wgetnstr 10 typed) = some new_mode ∧ new_mode ≤ 0o777 ∧
      change_permissions s path typed = (0,
        if s.undo_count < (MAX_UNDO : Int) then
          ({ s with fs := s.fs.replace p (i.chmod new_mode) } : State).push
            { s.slot s.undo_count with
              type := .ACTION_CHMOD, path := path, old_mode := i.stat.st_mode,
              content := none, dir_contents := none, dir_content_count := 0 }
        else { s with fs := s.fs.replace p (i.chmod new_mode) }) := by
  unfold change_permissions at hok ⊢
  cases hl : lstat s.fs path with
  | none => simp [hl] at hok
  | some st =>
    obtain ⟨p, i, hp, hg, rfl⟩ := lstat_eq_some _ _ _ hl
    simp only [hl] at hok ⊢
    cases hlk : S_ISLNK i.stat.st_mode with
    | true => simp [hlk] at hok
    | false =>
      have hi : ∀ t, i ≠ .lnk t := by
        intro t e
        have := (S_ISLNK_stat i).2 ⟨t, e⟩
        simp [hlk] at this
      simp only [hlk, Bool.false_eq_true, if_false] at hok ⊢
      cases hsc : sscanf_o (wgetnstr 10 typed) with
      | none => simp [hsc] at hok
      | some new_mode =>
        simp only [hsc] at hok ⊢
        by_cases hgt : new_mode > 0o777
        · simp [hgt] at hok
        · simp only [hgt, if_false] at hok ⊢
          by_cases hne : p = []
          · have : chmod s.fs path new_mode = none := by
              unfold chmod FS.nameiFollow
              rw [hp]
              simp only [follow_nonlink s.fs 39 p (by rw [hg]; simpa using hi), hg]
              simp [hne]
            simp [this] at hok
          · rw [chmod_nonlink _ _ _ _ _ hp hg hi hne]
            refine ⟨p, i, new_mode, hp, hg, hi, hne, rfl, by omega, ?_⟩
            simp only
            split <;> rfl

theorem replace_keys (fs : FS) (p : Path) (i j : Inode) (hne : p ≠ []) (hg : fs.get p = some i) :
    ∀ o ∈ (fs.replace p j).objs, ∃ k, (o.1, k) ∈ fs.objs := by
  intro o ho
  simp only [FS.replace, List.mem_map] at ho
  obtain ⟨o2, ho2, rfl⟩ := ho
  by_cases hp : o2.1 = p
  · simp only [hp, if_true]
    exact ⟨i, get_some_mem _ _ _ hne hg⟩
  · simp only [hp, if_false]
    exact ⟨o2.2, ho2⟩

theorem searchable_chmod_back (i : Inode) (a : Nat) (fs fs2 : FS) (p : Path)
    (h1 : fs.get p = some i) (h2 : fs2.get p = some ((i.chmod a).chmod i.stat.st_mode)) :
    fs2.searchable p = fs.searchable p := by
  unfold FS.searchable
  rw [h1, h2]
  cases i <;> simp only [Inode.chmod, Inode.stat]
  rw [canX_mod]
  unfold canX S_IFDIR
  congr 1
  omega

/-- The chmod round trip on a slot without a freed `old_path`: after a
successful `change_permissions` (which refuses symbolic links and modes above
0777) with the undo stack not full, `undo_last_action` returns 0 and leaves the
path with exactly the mode it had before; the path is an entry's `full_path`,
that is, it has no `.` or `..` component. -/
theorem chmod_undo_restores_mode (strcoll : CStr → CStr → Int) (fuel : Nat) (s : State)
    (path typed : CStr) (files : List FileInfo) (base : CStr)
    (hcanon : ∀ c ∈ splitPath [] path, validName c = true)
    (hok : (change_permissions s path typed).1 = 0)
    (h0 : 0 ≤ s.undo_count) (hfull : s.undo_count < (MAX_UNDO : Int))
    (harr : s.undo_stack.length = MAX_UNDO)
    (hold : (s.slot s.undo_count).old_path ≠ .freed)
    (hscan : s.fs.scannable base fuel = true) :
    ∃ st new_mode s2 files2, lstat s.fs path = some st ∧ S_ISLNK st.st_mode = false ∧
      sscanf_o (wgetnstr 10 typed) = some new_mode ∧ new_mode ≤ 0o777 ∧
      (lstat (change_permissions s path typed).2.fs path).map (fun t => t.st_mode % 4096)
        = some new_mode ∧
      undo_last_action strcoll fuel (change_permissions s path typed).2 files base
        = .ok (0, s2, files2) ∧
      lstat s2.fs path = some st ∧ s2.undo_count = s.undo_count := by
  obtain ⟨p, i, new_mode, hp, hg, hi, hne, hsc, hle, hcp⟩ := change_permissions_ok s path typed hok
  rw [hcp]
  simp only [hfull, if_true]
  have hslot := slot_push ({ s with fs := s.fs.replace p (i.chmod new_mode) } : State)
    { s.slot s.undo_count with
      type := .ACTION_CHMOD, path := path, old_mode := i.stat.st_mode,
      content := none, dir_contents := none, dir_content_count := 0 } h0 hfull harr
  generalize hs1 : ({ s with fs := s.fs.replace p (i.chmod new_mode) } : State).push
    { s.slot s.undo_count with
      type := .ACTION_CHMOD, path := path, old_mode := i.stat.st_mode,
      content := none, dir_contents := none, dir_content_count := 0 } = s1 at hslot ⊢
  have hfs : s1.fs = s.fs.replace p (i.chmod new_mode) := by rw [← hs1]; rfl
  have hcnt : s1.undo_count = s.undo_count + 1 := by rw [← hs1]; rfl
  have hg1 : ∀ q, (s.fs.replace p (i.chmod new_mode)).get q
      = if q = p then some (i.chmod new_mode) else s.fs.get q := by
    intro q; rw [get_replace _ _ _ _ hne, hg]; rfl
  have hn1 : (s.fs.replace p (i.chmod new_mode)).namei path = some p :=
    namei_congr_off s.fs _ path p hcanon hp rfl (fun q hq => by rw [hg1, if_neg hq])
  have hch := chmod_nonlink (s.fs.replace p (i.chmod new_mode)) path p (i.chmod new_mode)
    i.stat.st_mode hn1 (by rw [hg1]; simp) (chmod_kind i new_mode hi) hne
  generalize hfs2 : (s.fs.replace p (i.chmod new_mode)).replace p
    ((i.chmod new_mode).chmod i.stat.st_mode) = fs2 at hch
  have hg2 : ∀ q, fs2.get q
      = if q = p then some ((i.chmod new_mode).chmod i.stat.st_mode) else s.fs.get q := by
    intro q; rw [← hfs2, get_replace _ _ _ _ hne, hg1, hg1]
    by_cases hq : q = p <;> simp [hq]
  have hn2 : fs2.namei path = some p :=
    namei_congr_off s.fs _ path p hcanon hp (by rw [← hfs2]; rfl)
      (fun q hq => by rw [hg2, if_neg hq])
  have hse : ∀ q, fs2.searchable q = s.fs.searchable q := by
    intro q
    by_cases hq : q = p
    · subst hq
      exact searchable_chmod_back i new_mode s.fs fs2 q hg (by rw [hg2]; simp)
    · unfold FS.searchable; rw [hg2, if_neg hq]
  have hsc2 : fs2.scannable base fuel = true := by
    refine scannable_of_keys s.fs fs2 base fuel ?_ (by rw [← hfs2]; rfl) hse ?_ hscan
    · intro o ho
      rw [← hfs2] at ho
      obtain ⟨k, hk⟩ := replace_keys _ p (i.chmod new_mode) _ hne (by rw [hg1]; simp) o ho
      exact replace_keys s.fs p i _ hne hg (o.1, k) hk
    · intro q
      by_cases hq : q = p
      · left
        unfold FS.notLink
        rw [hg2, if_pos hq]
        have := chmod_kind _ i.stat.st_mode (chmod_kind i new_mode hi)
        cases h : (i.chmod new_mode).chmod i.stat.st_mode <;> simp_all
      · right; rw [hg2, if_neg hq]
  have hc1 : s1.undo_count ≠ 0 := by rw [hcnt]; omega
  have heff : undo_effect fuel s1.fs (s1.slot (s1.undo_count - 1)) = .ok fs2 := by
    simp only [undo_effect, hslot, hfs, hch]
  obtain ⟨left, hleft⟩ := free_action_ok (s1.slot (s1.undo_count - 1))
    (by rw [hslot]; exact hold)
  obtain ⟨files2, hu⟩ := undo_last_action_run strcoll fuel s1 files base fs2 left hc1 heff hleft
    hsc2
  refine ⟨i.stat, new_mode, _, files2, ?_, ?_, hsc, hle, ?_, hu, ?_, ?_⟩
  · simp only [lstat, hp, hg, Option.map_some']
  · cases h : S_ISLNK i.stat.st_mode
    · rfl
    · obtain ⟨t, ht⟩ := (S_ISLNK_stat i).1 h
      exact absurd ht (hi t)
  · simp only [lstat, hfs, hn1, hg1, if_true, Option.map_some', Option.some.injEq]
    cases i <;> simp only [Inode.chmod, Inode.stat, S_IFREG, S_IFDIR, S_IFIFO] <;>
      first | omega | exact absurd rfl (hi _)
  · show lstat fs2 path = _
    simp only [lstat, hn2, hg2, if_true, Option.map_some', chmod_chmod_stat]
  · show s1.undo_count - 1 = _
    rw [hcnt]; omega

theorem wf_nodup (fs : FS) (h : fs.wf = true) : (fs.objs.map Prod.fst).Nodup := by
  simp only [FS.wf, Bool.and_eq_true, decide_eq_true_eq] at h
  exact h.1

theorem lookupObj_of_mem (l : List (Path × Inode)) (hn : (l.map Prod.fst).Nodup) (p : Path)
    (i : Inode) (h : (p, i) ∈ l) : lookupObj l p = some i := by
  induction l with
  | nil => simp at h
  | cons o l ih =>
    simp only [List.map_cons, List.nodup_cons] at hn
    unfold lookupObj
    rcases List.mem_cons.1 h with h | h
    · subst h; simp
    · have : o.1 ≠ p := by
        intro e
        apply hn.1
        rw [e]
        exact List.mem_map.2 ⟨(p, i), h, rfl⟩
      simp only [this, if_false]
      exact ih hn.2 h

theorem wf_mem (fs : FS) (h : fs.wf = true) (p : Path) (i : Inode) (hm : (p, i) ∈ fs.objs) :
    p ≠ [] ∧ fs.get p = some i ∧
      (p.dropLast = [] ∨ ∃ perm, fs.get p.dropLast = some (.dir perm)) := by
  have hn := wf_nodup fs h
  simp only [FS.wf, Bool.and_eq_true, decide_eq_true_eq, List.all_eq_true, Bool.or_eq_true,
    bne_iff_ne, ne_eq, beq_iff_eq] at h
  obtain ⟨hne, hpar⟩ := h.2 _ hm
  refine ⟨hne, ?_, ?_⟩
  · simp only [FS.get, hne, if_false]
    exact lookupObj_of_mem _ hn _ _ hm
  · rcases hpar with hpar | hpar
    · exact Or.inl hpar
    · right
      cases hg : fs.get p.dropLast with
      | none => simp [hg] at hpar
      | some j =>
        cases j <;> simp [hg, Inode.isDir] at hpar
        exact ⟨_, rfl⟩

theorem wf_first_step (fs : FS) (h : fs.wf = true) (d : Path) (n : CStr) (rest : List CStr) :
    ∀ i, (d ++ n :: rest, i) ∈ fs.objs →
      ∃ j, (d ++ [n], j) ∈ fs.objs ∧ (rest = [] → j = i) ∧ (rest ≠ [] → j.isDir = true) := by
  induction rest using List.reverseRecOn with
  | nil => intro i hi; exact ⟨i, hi, fun _ => rfl, fun e => absurd rfl e⟩
  | append_singleton rest m ih =>
    intro i hi
    obtain ⟨_, _, hpar⟩ := wf_mem fs h _ _ hi
    have hdl : (d ++ n :: (rest ++ [m])).dropLast = d ++ n :: rest := by
      rw [show d ++ n :: (rest ++ [m]) = (d ++ n :: rest) ++ [m] by simp]
      exact List.dropLast_concat
    rw [hdl] at hpar
    rcases hpar with hpar | ⟨perm, hpar⟩
    · simp at hpar
    · have hmem := get_some_mem fs _ _ (by simp) hpar
      obtain ⟨j, hj, h1, h2⟩ := ih _ hmem
      refine ⟨j, hj, fun e => by simp at e, fun _ => ?_⟩
      by_cases hr : rest = []
      · rw [h1 hr]; rfl
      · exact h2 hr

theorem children_nodup (fs : FS) (h : fs.wf = true) (d : Path) : (fs.children d).Nodup := by
  have hn := wf_nodup fs h
  have : fs.children d = (fs.objs.map Prod.fst).filterMap (childName d) := by
    unfold FS.children
    rw [List.filterMap_map]
    rfl
  rw [this]
  refine List.Nodup.filterMap ?_ hn
  intro a a2 b hb hb2
  have h1 := (childName_eq_some d a b).1 (by simpa using hb)
  have h2 := (childName_eq_some d a2 b).1 (by simpa using hb2)
  rw [h1, h2]

/-- Membership in the depth-first listing: exactly the paths of the table that
extend `d`. -/
theorem mem_subtree (fs : FS) (h : fs.wf = true) :
    ∀ fuel d q, (∀ o ∈ fs.objs, o.1.length < fuel + d.length) →
      (q ∈ fs.subtree fuel d ↔ ∃ n rest i, q = d ++ n :: rest ∧ (q, i) ∈ fs.objs) := by
  intro fuel
  induction fuel with
  | zero =>
    intro d q hf
    constructor
    · intro hq; simp [FS.subtree] at hq
    · rintro ⟨n, rest, i, rfl, hi⟩
      have := hf _ hi
      simp at this
  | succ fuel ih =>
    intro d q hf
    unfold FS.subtree
    simp only [List.mem_flatMap, List.mem_cons]
    constructor
    · rintro ⟨n, hn, hq | hq⟩
      · obtain ⟨i, hi⟩ := (mem_children _ _ _).1 hn
        exact ⟨n, [], i, hq, hq ▸ hi⟩
      · split at hq
        · have hf2 : ∀ o ∈ fs.objs, o.1.length < fuel + (d ++ [n]).length := by
            intro o ho; have := hf o ho; simp; omega
          obtain ⟨n2, rest, i, rfl, hi⟩ := (ih (d ++ [n]) q hf2).1 hq
          exact ⟨n, n2 :: rest, i, by simp, hi⟩
        · simp at hq
    · rintro ⟨n, rest, i, rfl, hi⟩
      obtain ⟨j, hj, h1, h2⟩ := wf_first_step fs h d n rest i hi
      refine ⟨n, (mem_children _ _ _).2 ⟨j, hj⟩, ?_⟩
      cases rest with
      | nil => left; rfl
      | cons n2 rest =>
        right
        have hjd := h2 (by simp)
        obtain ⟨_, hgj, _⟩ := wf_mem fs h _ _ hj
        rw [hgj]
        cases j <;> simp [Inode.isDir] at hjd
        simp only
        have hf2 : ∀ o ∈ fs.objs, o.1.length < fuel + (d ++ [n]).length := by
          intro o ho; have := hf o ho; simp; omega
        exact (ih (d ++ [n]) _ hf2).2 ⟨n2, rest, i, by simp, hi⟩

theorem subtree_shape (fs : FS) : ∀ fuel d q, q ∈ fs.subtree fuel d →
    ∃ n rest, q = d ++ n :: rest := by
  intro fuel
  induction fuel with
  | zero => intro d q hq; simp [FS.subtree] at hq
  | succ fuel ih =>
    intro d q hq
    unfold FS.subtree at hq
    simp only [List.mem_flatMap, List.mem_cons] at hq
    obtain ⟨n, _, hq | hq⟩ := hq
    · exact ⟨n, [], hq⟩
    · split at hq
      · obtain ⟨n2, rest, rfl⟩ := ih _ _ hq
        exact ⟨n, n2 :: rest, by simp⟩
      · simp at hq

theorem block_shape (fs : FS) (fuel : Nat) (d : Path) (n : CStr) (q : Path)
    (hq : q ∈ (d ++ [n]) :: (match fs.get (d ++ [n]) with
        | some (.dir _) => fs.subtree fuel (d ++ [n])
        | _ => [])) : ∃ rest, q = d ++ n :: rest := by
  rcases List.mem_cons.1 hq with hq | hq
  · exact ⟨[], hq⟩
  · split at hq
    · obtain ⟨n2, rest, rfl⟩ := subtree_shape fs _ _ _ hq
      exact ⟨n2 :: rest, by simp⟩
    · simp at hq

theorem subtree_nodup (fs : FS) (h : fs.wf = true) : ∀ fuel d, (fs.subtree fuel d).Nodup := by
  intro fuel
  induction fuel with
  | zero => intro d; simp [FS.subtree]
  | succ fuel ih =>
    intro d
    unfold FS.subtree
    rw [List.nodup_flatMap]
    refine ⟨fun n _ => ?_, ?_⟩
    · rw [List.nodup_cons]
      constructor
      · intro hq
        split at hq
        · obtain ⟨n2, rest, e⟩ := subtree_shape fs _ _ _ hq
          have := congrArg List.length e
          simp at this
        · simp at hq
      · split
        · exact ih _
        · exact List.nodup_nil
    · refine (children_nodup fs h d).imp ?_
      intro a b hab
      simp only [Function.onFun]
      rw [List.disjoint_left]
      intro q hqa hqb
      obtain ⟨r1, e1⟩ := block_shape fs fuel d a q hqa
      obtain ⟨r2, e2⟩ := block_shape fs fuel d b q hqb
      rw [e1] at e2
      have := List.append_cancel_left e2
      simp only [List.cons.injEq] at this
      exact hab this.1

theorem isPrefixOf_iff (d q : Path) : d.isPrefixOf q = true ↔ ∃ rest, q = d ++ rest := by
  rw [List.isPrefixOf_iff_prefix]
  constructor
  · rintro ⟨t, rfl⟩; exact ⟨t, rfl⟩
  · rintro ⟨t, rfl⟩; exact ⟨t, rfl⟩

theorem mem_descendants (fs : FS) (b : Path) (o : Path × Inode) :
    o ∈ fs.descendants b ↔ o ∈ fs.objs ∧ ∃ n rest, o.1 = b ++ n :: rest := by
  unfold FS.descendants
  simp only [List.mem_filter, Bool.and_eq_true, bne_iff_ne, ne_eq, isPrefixOf_iff]
  constructor
  · rintro ⟨ho, ⟨rest, hr⟩, hne⟩
    refine ⟨ho, ?_⟩
    cases rest with
    | nil => simp at hr; exact absurd hr hne
    | cons n rest => exact ⟨n, rest, hr⟩
  · rintro ⟨ho, n, rest, hr⟩
    refine ⟨ho, ⟨n :: rest, hr⟩, ?_⟩
    rw [hr]
    intro e
    have := congrArg List.length e
    simp at this

/-- The depth-first listing is a rearrangement of the paths of the objects
below `d`. -/
theorem subtree_perm_descendants (fs : FS) (h : fs.wf = true) (fuel : Nat) (d : Path)
    (hf : ∀ o ∈ fs.objs, o.1.length < fuel + d.length) :
    (fs.subtree fuel d).Perm ((fs.descendants d).map Prod.fst) := by
  rw [List.perm_ext_iff_of_nodup (subtree_nodup fs h fuel d)]
  · intro q
    rw [mem_subtree fs h fuel d q hf]
    simp only [List.mem_map, mem_descendants]
    constructor
    · rintro ⟨n, rest, i, hq, hi⟩
      exact ⟨(q, i), ⟨hi, n, rest, hq⟩, rfl⟩
    · rintro ⟨o, ⟨ho, n, rest, hq⟩, rfl⟩
      exact ⟨n, rest, o.2, hq, ho⟩
  · unfold FS.descendants
    exact ((wf_nodup fs h).sublist (List.Sublist.map _ (List.filter_sublist _)))

theorem match_type_no_flags (s : State) (st : Stat) (h1 : s.show_links = false)
    (h2 : s.show_dirs = false) (h3 : s.show_files = false) : match_type s st = true := by
  simp [match_type, h1, h2, h3]

/-- The loop of `dirwalk` over names that all resolve, with no filter: it
appends, for each name, its entry and then the entries of its subtree. -/
theorem dirwalk_loop_subtree (s : State)
    (recur : CStr → List FileInfo → Except Abort (Int × List FileInfo)) (path base : CStr)
    (b d : Path) (fuel : Nat)
    (h1 : s.show_links = false) (h2 : s.show_dirs = false) (h3 : s.show_files = false)
    (names : List CStr)
    (hn : ∀ n ∈ names, is_dot n = false ∧ join_path MAX_PATH path n = path ++ '/' :: n ∧
      ∃ i, s.fs.get (d ++ [n]) = some i ∧ lstat s.fs (path ++ '/' :: n) = some i.stat ∧
        s.fs.entryAt base b (d ++ [n]) = entryFor base (path ++ '/' :: n) i)
    (hrec : ∀ n ∈ names, ∀ perm, s.fs.get (d ++ [n]) = some (.dir perm) → ∀ fl,
      fl.length + (s.fs.subtree fuel (d ++ [n])).length ≤ MAX_FILES →
      recur (path ++ '/' :: n) fl
        = .ok (0, fl ++ (s.fs.subtree fuel (d ++ [n])).map (s.fs.entryAt base b))) :
    ∀ files,
      files.length + (names.flatMap (fun n =>
        (d ++ [n]) :: (match s.fs.get (d ++ [n]) with
          | some (.dir _) => s.fs.subtree fuel (d ++ [n])
          | _ => []))).length ≤ MAX_FILES →
      dirwalk_loop s recur path base names files
        = .ok (0, files ++ (names.flatMap (fun n =>
          (d ++ [n]) :: (match s.fs.get (d ++ [n]) with
            | some (.dir _) => s.fs.subtree fuel (d ++ [n])
            | _ => []))).map (s.fs.entryAt base b)) := by
  induction names with
  | nil => intro files _; simp [dirwalk_loop]
  | cons n names ih =>
    have ih2 := ih (fun m hm => hn m (List.mem_cons_of_mem _ hm))
      (fun m hm => hrec m (List.mem_cons_of_mem _ hm))
    obtain ⟨hdot, hj, i, hg, hl, he⟩ := hn n (List.mem_cons_self _ _)
    intro files hlen
    simp only [List.flatMap_cons, List.length_append, List.length_cons] at hlen
    unfold dirwalk_loop
    simp only [hdot, Bool.false_eq_true, if_false, hj, hl,
      match_type_no_flags s _ h1 h2 h3, Bool.true_and, if_true]
    have hlt : ¬ files.length ≥ MAX_FILES := by omega
    simp only [hlt, decide_False, Bool.false_eq_true, if_false]
    simp only [List.flatMap_cons, List.map_append, List.map_cons, he]
    have hent : entryFor base (path ++ '/' :: n) i =
      ⟨(clean_path (path ++ '/' :: n) base).2, (clean_path (path ++ '/' :: n) base).1,
        i.stat.st_size, i.stat.st_mode⟩ := rfl
    rw [← hent]
    by_cases hd : S_ISDIR i.stat.st_mode = true
    · obtain ⟨perm, rfl⟩ := (S_ISDIR_stat i).1 hd
      simp only [hd, if_true]
      simp only [hg] at hlen ⊢
      rw [hrec n (List.mem_cons_self _ _) perm hg _
        (by simp only [List.length_append, List.length_cons, List.length_nil]; omega)]
      simp only
      rw [ih2 _ (by simp only [List.length_append, List.length_cons, List.length_nil,
        List.length_map]; omega)]
      simp only [List.append_assoc, List.cons_append, List.nil_append, List.singleton_append]
    · have hnd : ∀ perm, i ≠ .dir perm := fun perm e => hd ((S_ISDIR_stat i).2 ⟨perm, e⟩)
      simp only [hd, Bool.false_eq_true, if_false]
      have hm : (match s.fs.get (d ++ [n]) with
          | some (.dir _) => s.fs.subtree fuel (d ++ [n])
          | _ => []) = [] := by
        rw [hg]; cases i <;> simp_all
      rw [hm] at hlen ⊢
      simp only [List.length_nil] at hlen
      rw [ih2 _ (by simp only [List.length_append, List.length_cons, List.length_nil]; omega)]
      simp only [List.append_assoc, List.cons_append, List.nil_append, List.singleton_append,
        List.map_nil]

theorem render_concat (base : CStr) (rel : Path) (n : CStr) :
    render base (rel ++ [n]) = render base rel ++ '/' :: n := by
  induction rel generalizing base with
  | nil => simp [render]
  | cons c rel ih => simp [render, ih]

theorem opendir_dir (fs : FS) (path : CStr) (d : Path) (perm : Nat)
    (hp : fs.namei path = some d) (hg : fs.get d = some (.dir perm)) (hr : canR perm = true) :
    opendir fs path = some (['.'] :: ['.', '.'] :: fs.children d) := by
  unfold opendir FS.nameiFollow
  rw [hp]
  simp only [follow_nonlink fs 39 d (by simp [hg]), hg, hr, if_true]

theorem dirwalk_eq_subtree (s : State) (base : CStr) (b : Path) (F : Nat)
    (h1 : s.show_links = false) (h2 : s.show_dirs = false) (h3 : s.show_files = false)
    (hwf : s.fs.wf = true) (hb : s.fs.scanBound base F = true)
    (hall : ∀ q perm, b.isPrefixOf q = true → s.fs.get q = some (.dir perm) →
      canR perm = true ∧ canX perm = true) :
    ∀ fuel rel d files, d = b ++ rel → s.fs.namei (render base rel) = some d →
      (∃ perm, s.fs.get d = some (.dir perm)) →
      (render base rel).length ≤ base.length + pathLen d →
      F ≤ fuel + d.length → 1 ≤ fuel →
      files.length + (s.fs.subtree fuel d).length ≤ MAX_FILES →
      dirwalk s fuel (render base rel) files base
        = .ok (0, files ++ (s.fs.subtree fuel d).map (s.fs.entryAt base b)) := by
  intro fuel
  induction fuel with
  | zero => intro _ _ _ _ _ _ _ _ h; omega
  | succ fuel ih =>
    intro rel d files hd hn ⟨perm, hg⟩ hlen hF _ hcount
    have hpre : b.isPrefixOf d = true := (isPrefixOf_iff b d).2 ⟨rel, hd⟩
    obtain ⟨hr, hx⟩ := hall d perm hpre hg
    have hsearch : s.fs.searchable d = true := by simp [FS.searchable, hg, hx]
    unfold dirwalk
    rw [opendir_dir _ _ _ _ hn hg hr]
    simp only
    unfold dirwalk_loop
    simp only [is_dot, beq_self_eq_true, Bool.true_or, if_true]
    unfold dirwalk_loop
    simp only [is_dot, beq_self_eq_true, Bool.or_true, if_true]
    unfold FS.subtree at hcount ⊢
    refine dirwalk_loop_subtree s _ (render base rel) base b d fuel h1 h2 h3 (s.fs.children d)
      ?_ ?_ files hcount
    · intro n hnc
      obtain ⟨i, hi⟩ := (mem_children _ _ _).1 hnc
      obtain ⟨_, hgi, _⟩ := wf_mem s.fs hwf _ _ hi
      obtain ⟨hv, hshort, hdepth⟩ := scanBound_mem _ _ _ hb _ _ hi
      have hvn : validName n = true := hv n (by simp)
      refine ⟨is_dot_of_valid n hvn, ?_, i, hgi, ?_, ?_⟩
      · unfold join_path
        apply truncate_of_lt
        rw [pathLen_append] at hshort
        simp only [List.length_append, List.length_cons]
        omega
      · unfold lstat
        rw [namei_join _ _ _ _ hn hvn, hsearch]
        simp only [if_true, hgi, Option.map_some']
      · unfold FS.entryAt
        rw [hgi, hd, List.append_assoc, List.drop_left, render_concat]
        rfl
    · intro n hnc perm2 hg2 fl hfl
      obtain ⟨i, hi⟩ := (mem_children _ _ _).1 hnc
      obtain ⟨hv, hshort, hdepth⟩ := scanBound_mem _ _ _ hb _ _ hi
      have hvn : validName n = true := hv n (by simp)
      have := ih (rel ++ [n]) (d ++ [n]) fl (by rw [hd, List.append_assoc])
        (by rw [render_concat, namei_join _ _ _ _ hn hvn, hsearch]; rfl) ⟨perm2, hg2⟩
        (by rw [render_concat, pathLen_append]
            simp only [List.length_append, List.length_cons]; omega)
        (by simp only [List.length_append, List.length_cons, List.length_nil]; omega)
        (by simp only [List.length_append, List.length_cons, List.length_nil] at hdepth; omega)
        hfl
      rw [render_concat] at this
      exact this

theorem scanBound_depth (fs : FS) (base : CStr) (fuel : Nat) (h : fs.scanBound base fuel = true) :
    1 ≤ fuel ∧ ∀ o ∈ fs.objs, o.1.length < fuel := by
  simp only [FS.scanBound, Bool.and_eq_true, decide_eq_true_eq, List.all_eq_true] at h
  exact ⟨h.1, fun o ho => (h.2 o ho).2⟩

/-- With no filter, enough room and every directory readable, a scan returns 0
and its entries are a rearrangement of the entries of the objects below the
scan root. -/
theorem dirwalk_perm_descendants (s : State) (fuel : Nat) (base : CStr) (b : Path)
    (h1 : s.show_links = false) (h2 : s.show_dirs = false) (h3 : s.show_files = false)
    (hwf : s.fs.wf = true) (hbound : s.fs.scanBound base fuel = true)
    (hbase : s.fs.namei base = some b) (hdir : ∃ perm, s.fs.get b = some (.dir perm))
    (hopen : ∀ o ∈ s.fs.objs, b.isPrefixOf o.1 = true → o.2.openable = true)
    (hcount : (s.fs.descendants b).length ≤ MAX_FILES) :
    ∃ files, dirwalk s fuel base [] base = .ok (0, files) ∧
      files.Perm ((s.fs.descendants b).map (entryOf base b)) := by
  obtain ⟨hf1, hdepth⟩ := scanBound_depth _ _ _ hbound
  have hperm := subtree_perm_descendants s.fs hwf fuel b (fun o ho => by
    have := hdepth o ho; omega)
  have hlen : (s.fs.subtree fuel b).length = (s.fs.descendants b).length := by
    rw [hperm.length_eq, List.length_map]
  have hopen2 : ∀ q perm, b.isPrefixOf q = true → s.fs.get q = some (.dir perm) →
      canR perm = true ∧ canX perm = true := by
    intro q perm hq hg
    by_cases hq0 : q = []
    · subst hq0
      rw [get_nil] at hg
      simp only [Option.some.injEq, Inode.dir.injEq] at hg
      subst hg
      exact ⟨by decide, by decide⟩
    · have := hopen _ (get_some_mem _ _ _ hq0 hg) hq
      simpa [Inode.openable] using this
  have := dirwalk_eq_subtree s base b fuel h1 h2 h3 hwf hbound hopen2 fuel [] b [] (by simp)
    (by simpa [render] using hbase) hdir (by simp [render]) (by omega) hf1
    (by simp only [List.length_nil]; omega)
  simp only [render, List.nil_append] at this
  refine ⟨_, this, ?_⟩
  refine (hperm.map _).trans ?_
  rw [List.map_map]
  apply List.Perm.of_eq
  apply List.map_congr_left
  intro o ho
  obtain ⟨hm, _⟩ := (mem_descendants _ _ _).1 ho
  obtain ⟨_, hg, _⟩ := wf_mem s.fs hwf o.1 o.2 hm
  simp [FS.entryAt, entryOf, hg]

theorem lookupObj_perm (l l2 : List (Path × Inode)) (hn : (l.map Prod.fst).Nodup)
    (hp : l2.Perm l) (p : Path) : lookupObj l2 p = lookupObj l p := by
  have hn2 : (l2.map Prod.fst).Nodup := (hp.map _).nodup_iff.2 hn
  cases h : lookupObj l p with
  | none =>
    cases h2 : lookupObj l2 p with
    | none => rfl
    | some i =>
      have := lookupObj_of_mem l hn p i (hp.mem_iff.1 (lookupObj_some_mem _ _ _ h2))
      rw [h] at this; simp at this
  | some i =>
    exact lookupObj_of_mem l2 hn2 p i (hp.mem_iff.2 (lookupObj_some_mem _ _ _ h))

theorem get_perm (fs : FS) (objs2 : List (Path × Inode)) (hn : (fs.objs.map Prod.fst).Nodup)
    (hp : objs2.Perm fs.objs) (p : Path) :
    ({ fs with objs := objs2 } : FS).get p = fs.get p := by
  unfold FS.get
  simp only [lookupObj_perm _ _ hn hp]

theorem splitPath_collapse (s : CStr) : ∀ cur, splitPath cur (collapse_slashes s) = splitPath cur s := by
  induction s using collapse_slashes.induct with
  | case1 => intro cur; rfl
  | case2 c => intro cur; rfl
  | case3 c d rest h ih =>
    intro cur
    obtain ⟨rfl, rfl⟩ := h
    rw [collapse_slashes, if_pos ⟨rfl, rfl⟩, ih]
    by_cases hc : cur = [] <;> simp [splitPath, hc]
  | case4 c d rest h ih =>
    intro cur
    rw [collapse_slashes, if_neg h]
    by_cases hc : c = '/'
    · by_cases h0 : cur = [] <;> simp [splitPath, hc, h0, ih]
    · simp only [splitPath, hc, if_false, ih]

theorem splitPath_render (base : CStr) (rel : Path) (hv : ∀ c ∈ rel, validName c = true) :
    splitPath [] (render base rel) = splitPath [] base ++ rel := by
  induction rel generalizing base with
  | nil => simp [render]
  | cons c rel ih =>
    rw [render, ih _ (fun x hx => hv x (List.mem_cons_of_mem _ hx)),
      splitPath_join _ _ (hv c (List.mem_cons_self _ _))]
    simp

theorem render_head (base : CStr) (rel : Path) (c : Char) (h : base.head? = some c) :
    (render base rel).head? = some c := by
  induction rel generalizing base with
  | nil => simpa [render] using h
  | cons n rel ih =>
    rw [render]
    apply ih
    cases base with
    | nil => simp at h
    | cons x base => simpa using h

theorem clean_path_full (base : CStr) (path : CStr) (h : path.head? = some '/')
    (hlen : path.length < MAX_PATH) : (clean_path path base).2 = collapse_slashes path := by
  unfold clean_path
  cases path with
  | nil => simp at h
  | cons c path =>
    simp only [List.head?_cons, Option.some.injEq] at h
    subst h
    simp only [List.get?_cons_zero, Option.some.injEq]
    rw [if_neg (fun e => absurd e.1 (by decide)), truncate_of_lt _ hlen]

theorem render_length (base : CStr) (rel : Path) :
    (render base rel).length = base.length + pathLen rel := by
  induction rel generalizing base with
  | nil => simp [render, pathLen]
  | cons c rel ih =>
    rw [render, ih]
    simp [pathLen]
    omega

theorem pathLen_append_list (a c : Path) : pathLen (a ++ c) = pathLen a + pathLen c := by
  simp [pathLen]

/-- The component path spelled by the `full_path` of a descendant's entry is
the descendant's path, when `base` is the canonical absolute name of `b`. -/
theorem entryOf_key (fs : FS) (base : CStr) (b : Path) (fuel : Nat)
    (hbound : fs.scanBound base fuel = true) (habs : base.head? = some '/')
    (hcanon : splitPath [] base = b) (o : Path × Inode) (ho : o ∈ fs.descendants b) :
    splitPath [] (entryOf base b o).full_path = o.1 := by
  obtain ⟨hm, n, rest, hr⟩ := (mem_descendants _ _ _).1 ho
  obtain ⟨hv, hshort, _⟩ := scanBound_mem _ _ _ hbound o.1 o.2 hm
  have hdrop : o.1.drop b.length = n :: rest := by rw [hr, List.drop_left]
  have hvr : ∀ c ∈ n :: rest, validName c = true := by
    intro c hc; apply hv; rw [hr]; exact List.mem_append_right _ hc
  have hlen : (render base (n :: rest)).length < MAX_PATH := by
    rw [render_length]
    rw [hr, pathLen_append_list] at hshort
    omega
  unfold entryOf entryFor
  simp only [hdrop]
  rw [clean_path_full _ _ (render_head _ _ _ habs) hlen, splitPath_collapse,
    splitPath_render _ _ hvr, hcanon, hr]

/-- C9: with an empty type filter, a tree of at most `MAX_FILES` descendants
whose directories can all be read and searched and whose paths fit `MAX_PATH`
is scanned with result 0 into exactly one entry per descendant: the entries are
a rearrangement of the descendants' entries, their `full_path`s spell the
descendants' paths, which are pairwise different, and enumerating the
directories in another order gives a rearrangement of the same entries. -/
theorem dirwalk_lists_every_descendant_once (s : State) (fuel : Nat) (base : CStr) (b : Path)
    (h1 : s.show_links = false) (h2 : s.show_dirs = false) (h3 : s.show_files = false)
    (hwf : s.fs.wf = true) (hbound : s.fs.scanBound base fuel = true)
    (hbase : s.fs.namei base = some b) (hdir : ∃ perm, s.fs.get b = some (.dir perm))
    (hopen : ∀ o ∈ s.fs.objs, b.isPrefixOf o.1 = true → o.2.openable = true)
    (hcount : (s.fs.descendants b).length ≤ MAX_FILES)
    (habs : base.head? = some '/') (hcanon : splitPath [] base = b) :
    ∃ files, dirwalk s fuel base [] base = .ok (0, files) ∧
      files.Perm ((s.fs.descendants b).map (entryOf base b)) ∧
      (files.map (fun e => splitPath [] e.full_path)).Perm ((s.fs.descendants b).map Prod.fst) ∧
      ((s.fs.descendants b).map Prod.fst).Nodup ∧
      ∀ objs2 : List (Path × Inode), objs2.Perm s.fs.objs →
        ∃ files2, dirwalk { s with fs := { s.fs with objs := objs2 } } fuel base [] base
          = .ok (0, files2) ∧ files2.Perm files := by
  obtain ⟨files, hw, hp⟩ := dirwalk_perm_descendants s fuel base b h1 h2 h3 hwf hbound hbase
    hdir hopen hcount
  have hnd := wf_nodup s.fs hwf
  refine ⟨files, hw, hp, ?_, ?_, ?_⟩
  · refine (hp.map _).trans ?_
    rw [List.map_map]
    apply List.Perm.of_eq
    apply List.map_congr_left
    intro o ho
    exact entryOf_key s.fs base b fuel hbound habs hcanon o ho
  · unfold FS.descendants
    exact hnd.sublist (List.Sublist.map _ (List.filter_sublist _))
  · intro objs2 hperm
    have hget : ∀ p, ({ s.fs with objs := objs2 } : FS).get p = s.fs.get p :=
      get_perm s.fs objs2 hnd hperm
    have hsrch : ∀ q, ({ s.fs with objs := objs2 } : FS).searchable q = s.fs.searchable q := by
      intro q; unfold FS.searchable; rw [hget]
    have hwf2 : ({ s.fs with objs := objs2 } : FS).wf = true := by
      have hnd2 : (objs2.map Prod.fst).Nodup := (hperm.map _).nodup_iff.2 hnd
      simp only [FS.wf, Bool.and_eq_true, decide_eq_true_eq, List.all_eq_true] at hwf ⊢
      refine ⟨hnd2, fun o ho => ?_⟩
      have := hwf.2 o (hperm.mem_iff.1 ho)
      rw [hget]
      exact this
    have hb2 : ({ s.fs with objs := objs2 } : FS).scanBound base fuel = true := by
      simp only [FS.scanBound, Bool.and_eq_true, decide_eq_true_eq, List.all_eq_true]
        at hbound ⊢
      exact ⟨hbound.1, fun o ho => hbound.2 o (hperm.mem_iff.1 ho)⟩
    have hdesc : (({ s.fs with objs := objs2 } : FS).descendants b).Perm (s.fs.descendants b) := by
      unfold FS.descendants
      exact hperm.filter _
    obtain ⟨files2, hw2, hp2⟩ := dirwalk_perm_descendants
      { s with fs := { s.fs with objs := objs2 } } fuel base b h1 h2 h3 hwf2 hb2
      ((namei_congr s.fs { s.fs with objs := objs2 } rfl hsrch base).trans hbase)
      (by obtain ⟨perm, hg⟩ := hdir; exact ⟨perm, by rw [hget]; exact hg⟩)
      (fun o ho hq => hopen o (hperm.mem_iff.1 ho) hq)
      (by rw [hdesc.length_eq]; exact hcount)
    exact ⟨files2, hw2, hp2.trans ((hdesc.map _).trans hp.symm)⟩

/-- C9, witness: the demo tree `/r` scanned with no flags. -/
theorem dirwalk_lists_every_descendant_once_witness :
    ∃ files, dirwalk (mainDemo "hello".toList 0).s 4 "/r".toList [] "/r".toList = .ok (0, files) ∧
      files.Perm (((mainDemo "hello".toList 0).s.fs.descendants ["r".toList]).map
        (entryOf "/r".toList ["r".toList])) ∧
      (files.map (fun e => splitPath [] e.full_path)).Perm
        (((mainDemo "hello".toList 0).s.fs.descendants ["r".toList]).map Prod.fst) ∧
      (((mainDemo "hello".toList 0).s.fs.descendants ["r".toList]).map Prod.fst).Nodup ∧
      ∀ objs2 : List (Path × Inode), objs2.Perm (mainDemo "hello".toList 0).s.fs.objs →
        ∃ files2, dirwalk { (mainDemo "hello".toList 0).s with
            fs := { (mainDemo "hello".toList 0).s.fs with objs := objs2 } } 4 "/r".toList []
            "/r".toList = .ok (0, files2) ∧ files2.Perm files :=
  dirwalk_lists_every_descendant_once (mainDemo "hello".toList 0).s 4 "/r".toList ["r".toList]
    rfl rfl rfl (by decide) (by decide) (by decide) ⟨0o755, by decide⟩ (by decide) (by decide)
    (by decide) (by decide)

theorem digit_mem (n : Nat) : digit n ∈ "0123456789".toList := by
  unfold digit
  have h : n % 10 < "0123456789".toList.length := by
    have : "0123456789".toList.length = 10 := by decide
    rw [this]; exact Nat.mod_lt _ (by decide)
  rw [List.getD_eq_getElem _ _ h]
  exact List.getElem_mem _

theorem digit_ne_slash (n : Nat) : digit n ≠ '/' := by
  intro e
  have := digit_mem n
  rw [e] at this
  revert this
  decide

theorem bigName_valid (k : Nat) : validName (bigName k) = true := by
  rw [validName_iff]
  refine ⟨by simp [bigName], ?_, by simp [bigName], by simp [bigName]⟩
  intro h
  simp only [bigName, List.mem_cons, List.mem_singleton, List.not_mem_nil, or_false] at h
  rcases h with h | h | h | h | h <;> exact digit_ne_slash _ h.symm

/-- The loop of `dirwalk` over names none of which is a directory, with no
filter: the result is -1 exactly when the entries do not all fit, and the count
stops at `MAX_FILES`. -/
theorem dirwalk_loop_flat (s : State)
    (recur : CStr → List FileInfo → Except Abort (Int × List FileInfo)) (path base : CStr)
    (h1 : s.show_links = false) (h2 : s.show_dirs = false) (h3 : s.show_files = false)
    (names : List CStr)
    (hn : ∀ n ∈ names, is_dot n = false ∧
      ∃ st, lstat s.fs (join_path MAX_PATH path n) = some st ∧ S_ISDIR st.st_mode = false) :
    ∀ files : List FileInfo, files.length ≤ MAX_FILES →
      ∃ out, dirwalk_loop s recur path base names files
          = .ok (if files.length + names.length ≤ MAX_FILES then 0 else -1, out) ∧
        out.length = min (files.length + names.length) MAX_FILES := by
  induction names with
  | nil =>
    intro files hf
    exact ⟨files, by simp [dirwalk_loop, hf], by simp [hf]⟩
  | cons n names ih =>
    have ih2 := ih (fun m hm => hn m (List.mem_cons_of_mem _ hm))
    obtain ⟨hdot, st, hl, hd⟩ := hn n (List.mem_cons_self _ _)
    intro files hf
    unfold dirwalk_loop
    simp only [hdot, Bool.false_eq_true, if_false, hl, match_type_no_flags s _ h1 h2 h3,
      Bool.true_and, if_true, hd]
    by_cases hfull : files.length ≥ MAX_FILES
    · have he : files.length = MAX_FILES := by omega
      refine ⟨files, ?_, ?_⟩
      · simp only [hfull, decide_True, if_true, List.length_cons]
        rw [if_neg (by omega)]
      · simp only [List.length_cons]; omega
    · simp only [hfull, decide_False, Bool.false_eq_true, if_false]
      obtain ⟨out, ho, hlen⟩ := ih2 (files ++ [⟨(clean_path (join_path MAX_PATH path n) base).2,
        (clean_path (join_path MAX_PATH path n) base).1, st.st_size, st.st_mode⟩])
        (by simp only [List.length_append, List.length_cons, List.length_nil]; omega)
      refine ⟨out, ?_, ?_⟩
      · rw [ho]
        simp only [List.length_append, List.length_cons, List.length_nil]
        have e : files.length + (0 + 1) + names.length = files.length + (names.length + 1) := by
          omega
        rw [e]
      · rw [hlen]
        simp only [List.length_append, List.length_cons, List.length_nil]
        omega

theorem lookupObj_const (l : List (Path × Inode)) (v : Inode) (p : Path)
    (hv : ∀ o ∈ l, o.2 = v) (hp : ∃ o ∈ l, o.1 = p) : lookupObj l p = some v := by
  induction l with
  | nil =>
    obtain ⟨x, hx, _⟩ := hp
    cases hx
  | cons o l ih =>
    unfold lookupObj
    by_cases h : o.1 = p
    · simp [h, hv o (List.mem_cons_self _ _)]
    · simp only [h, if_false]
      apply ih (fun x hx => hv x (List.mem_cons_of_mem _ hx))
      obtain ⟨x, hx, hxp⟩ := hp
      rcases List.mem_cons.1 hx with rfl | hx
      · exact absurd hxp h
      · exact ⟨x, hx, hxp⟩

theorem fsBig_get_r (n : Nat) : (fsBig n).get [['r']] = some (.dir 0o755) := by
  simp [FS.get, fsBig, lookupObj]

theorem fsBig_get_d (n : Nat) : (fsBig n).get [['r'], ['d']] = some (.dir 0o755) := by
  simp [FS.get, fsBig, lookupObj]

theorem fsBig_get_file (n k : Nat) (hk : k < n) :
    (fsBig n).get [['r'], ['d'], bigName k] = some (.reg 0o644 []) := by
  simp only [FS.get, fsBig, lookupObj]
  simp only [List.cons_ne_nil, if_false]
  rw [if_neg (by simp), if_neg (by simp)]
  apply lookupObj_const
  · intro o ho
    simp only [List.mem_map] at ho
    obtain ⟨j, _, rfl⟩ := ho
    rfl
  · exact ⟨_, List.mem_map.2 ⟨k, List.mem_range.2 hk, rfl⟩, rfl⟩

theorem fsBig_children_r (n : Nat) : (fsBig n).children [['r']] = [['d']] := by
  unfold FS.children fsBig
  simp only [List.filterMap_cons]
  have h1 : childName [['r']] [['r']] = none := by decide
  have h2 : childName [['r']] [['r'], ['d']] = some ['d'] := by decide
  simp only [h1, h2]
  congr 1
  rw [List.filterMap_eq_nil_iff]
  intro o ho
  simp only [List.mem_map] at ho
  obtain ⟨j, _, rfl⟩ := ho
  simp [childName]

theorem fsBig_children_d (n : Nat) :
    (fsBig n).children [['r'], ['d']] = (List.range n).map bigName := by
  unfold FS.children fsBig
  simp only [List.filterMap_cons]
  have h1 : childName [['r'], ['d']] [['r']] = none := by decide
  have h2 : childName [['r'], ['d']] [['r'], ['d']] = none := by decide
  simp only [h1, h2]
  rw [List.filterMap_map]
  rw [List.filterMap_eq_map_iff_forall_eq_some.2]
  intro k _
  simp [childName]

theorem fsBig_namei_r (n : Nat) : (fsBig n).namei ['/', 'r'] = some [['r']] := by
  rfl

theorem fsBig_namei_d (n : Nat) :
    (fsBig n).namei ['/', 'r', '/', 'd'] = some [['r'], ['d']] := by
  rfl

theorem fsBig_descendants (n : Nat) : ((fsBig n).descendants [['r']]).length = n + 1 := by
  unfold FS.descendants fsBig
  simp only [List.filter_cons]
  rw [if_neg (by decide), if_pos (by decide)]
  rw [List.filter_eq_self.2]
  · simp
  · intro o ho
    simp only [List.mem_map] at ho
    obtain ⟨j, _, rfl⟩ := ho
    rfl

theorem fsBig_lstat_file (n k : Nat) (hk : k < n) :
    join_path MAX_PATH ['/', 'r', '/', 'd'] (bigName k) = ['/', 'r', '/', 'd'] ++ '/' :: bigName k ∧
    lstat (fsBig n) (['/', 'r', '/', 'd'] ++ '/' :: bigName k) = some (Inode.reg 0o644 []).stat := by
  constructor
  · unfold join_path
    apply truncate_of_lt
    simp [bigName, MAX_PATH]
  · unfold lstat
    rw [namei_join _ _ _ _ (fsBig_namei_d n) (bigName_valid k)]
    have : (fsBig n).searchable [['r'], ['d']] = true := by
      unfold FS.searchable
      rw [fsBig_get_d]
      decide
    rw [this]
    simp only [if_true]
    rw [show [['r'], ['d']] ++ [bigName k] = [['r'], ['d'], bigName k] from rfl,
      fsBig_get_file n k hk]
    rfl

/-- A scan of `/r`, whose only entry is a directory `d` holding `n` regular
files with `n` at least `MAX_FILES`: the overflow happens inside `d`, the
recursive call's -1 is dropped, and the top-level call returns 0 with
`MAX_FILES` entries. -/
theorem dirwalk_big (n : Nat) (hn : MAX_FILES ≤ n) (a b c d : Bool)
    (h1 : b = false) (h2 : c = false) (h3 : d = false) :
    ∃ out, dirwalk (State.init (fsBig n) a b c d) 3 ['/', 'r'] [] ['/', 'r'] = .ok (0, out) ∧
      out.length = MAX_FILES := by
  subst h1 h2 h3
  have hflat := dirwalk_loop_flat (State.init (fsBig n) a false false false)
    (fun p fl => dirwalk (State.init (fsBig n) a false false false) 1 p fl ['/', 'r'])
    ['/', 'r', '/', 'd'] ['/', 'r'] rfl rfl rfl ((List.range n).map bigName)
    (by
      intro m hm
      simp only [List.mem_map, List.mem_range] at hm
      obtain ⟨k, hk, rfl⟩ := hm
      obtain ⟨hj, hl⟩ := fsBig_lstat_file n k hk
      exact ⟨is_dot_of_valid _ (bigName_valid k), (Inode.reg 0o644 []).stat,
        by rw [hj]; exact hl, by decide⟩)
    [entryFor ['/', 'r'] ['/', 'r', '/', 'd'] (.dir 0o755)] (by simp [MAX_FILES])
  obtain ⟨out, ho, hlen⟩ := hflat
  refine ⟨out, ?_, ?_⟩
  · have hsub : dirwalk (State.init (fsBig n) a false false false) 2 ['/', 'r', '/', 'd']
        [entryFor ['/', 'r'] ['/', 'r', '/', 'd'] (.dir 0o755)] ['/', 'r']
        = .ok (if 1 + n ≤ MAX_FILES then 0 else -1, out) := by
      unfold dirwalk
      have hop := opendir_dir (fsBig n) ['/', 'r', '/', 'd'] _ 0o755 (fsBig_namei_d n) (fsBig_get_d n)
        (by decide)
      simp only [State.init] at hop ⊢
      rw [hop, fsBig_children_d]
      simp only
      unfold dirwalk_loop
      simp only [is_dot, beq_self_eq_true, Bool.true_or, if_true]
      unfold dirwalk_loop
      simp only [is_dot, beq_self_eq_true, Bool.or_true, if_true]
      simp only [State.init, List.length_map, List.length_range, List.length_singleton] at ho
      exact ho
    unfold dirwalk
    have hop := opendir_dir (fsBig n) ['/', 'r'] _ 0o755 (fsBig_namei_r n) (fsBig_get_r n)
      (by decide)
    simp only [State.init] at hop hsub ⊢
    rw [hop, fsBig_children_r]
    simp only
    unfold dirwalk_loop
    simp only [is_dot, beq_self_eq_true, Bool.true_or, if_true]
    unfold dirwalk_loop
    simp only [is_dot, beq_self_eq_true, Bool.or_true, if_true]
    unfold dirwalk_loop
    have hdot : is_dot ['d'] = false := by decide
    have hj : join_path MAX_PATH ['/', 'r'] ['d'] = ['/', 'r', '/', 'd'] := by decide
    have hl : lstat (fsBig n) ['/', 'r', '/', 'd'] = some (Inode.dir 0o755).stat := by
      simp only [lstat, fsBig_namei_d, fsBig_get_d, Option.map_some']
    simp only [hdot, Bool.false_eq_true, if_false, hj, hl]
    have hm : match_type ⟨fsBig n, a, false, false, false,
        List.replicate MAX_UNDO UndoAction.zero, 0⟩ (Inode.dir 0o755).stat = true := by
      simp [match_type]
    have hd : S_ISDIR (Inode.dir 0o755).stat.st_mode = true := by decide
    simp only [hm, hd, Bool.true_and, if_true, List.length_nil, List.nil_append]
    rw [if_neg (by simp [MAX_FILES])]
    have he : (⟨(clean_path ['/', 'r', '/', 'd'] ['/', 'r']).2,
        (clean_path ['/', 'r', '/', 'd'] ['/', 'r']).1,
        (Inode.dir 0o755).stat.st_size, (Inode.dir 0o755).stat.st_mode⟩ : FileInfo)
          = entryFor ['/', 'r'] ['/', 'r', '/', 'd'] (.dir 0o755) := rfl
    rw [he, hsub]
    simp only [dirwalk_loop]
  · rw [hlen]
    simp only [List.length_map, List.length_range, List.length_singleton]
    omega

theorem dirwalk_loop_count (s : State)
    (recur : CStr → List FileInfo → Except Abort (Int × List FileInfo)) (path base : CStr)
    (hrec : ∀ p fl r, fl.length ≤ MAX_FILES → recur p fl = .ok r → r.2.length ≤ MAX_FILES)
    (names : List CStr) :
    ∀ files r, files.length ≤ MAX_FILES → dirwalk_loop s recur path base names files = .ok r →
      r.2.length ≤ MAX_FILES := by
  induction names with
  | nil =>
    intro files r hf h
    simp only [dirwalk_loop, Except.ok.injEq] at h
    subst h
    exact hf
  | cons n names ih =>
    intro files r hf h
    unfold dirwalk_loop at h
    split at h
    · exact ih _ _ hf h
    · simp only at h
      split at h
      · exact ih _ _ hf h
      · rename_i st _
        split at h
        · simp only [Except.ok.injEq] at h
          subst h
          exact hf
        · rename_i hcond
          have hf1 : (if match_type s st = true then
              files ++ [⟨(clean_path (join_path MAX_PATH path n) base).2,
                (clean_path (join_path MAX_PATH path n) base).1, st.st_size, st.st_mode⟩]
              else files).length ≤ MAX_FILES := by
            by_cases hm : match_type s st = true
            · simp only [hm, Bool.true_and, decide_eq_true_eq] at hcond
              simp only [hm, if_true, List.length_append, List.length_cons, List.length_nil]
              omega
            · simp only [hm, if_false]
              exact hf
          split at h
          · split at h
            · simp at h
            · rename_i r1 hr1
              exact ih _ _ (hrec _ _ _ hf1 hr1) h
          · exact ih _ _ hf1 h

/-- The entry count never exceeds `MAX_FILES`. -/
theorem dirwalk_count (s : State) (base : CStr) :
    ∀ fuel path files r, files.length ≤ MAX_FILES → dirwalk s fuel path files base = .ok r →
      r.2.length ≤ MAX_FILES := by
  intro fuel
  induction fuel with
  | zero => intro path files r _ h; simp [dirwalk] at h
  | succ fuel ih =>
    intro path files r hf h
    unfold dirwalk at h
    split at h
    · simp only [Except.ok.injEq] at h
      subst h
      exact hf
    · exact dirwalk_loop_count s _ path base (fun p fl r hfl hr => ih p fl r hfl hr) _ _ _ hf h

/-- C10, the failing input: the scan root `/r` holds one directory `d` with 20000
regular files, so 20001 entries pass the empty filter; the top-level call
returns 0, not -1, with `MAX_FILES` entries.  The other half of the claim
holds: no scan ends with more than `MAX_FILES` entries. -/
theorem dirwalk_overflow_below_root_returns_zero :
    ((fsBig 20000).descendants [['r']]).length = 20001 ∧
    (∃ out, dirwalk (State.init (fsBig 20000) false false false false) 3 ['/', 'r'] []
      ['/', 'r'] = .ok (0, out) ∧ out.length = MAX_FILES) ∧
    ∀ (s : State) (fuel : Nat) (base : CStr) (r : Int × List FileInfo),
      dirwalk s fuel base [] base = .ok r → r.2.length ≤ MAX_FILES :=
  ⟨fsBig_descendants 20000,
    dirwalk_big 20000 (by decide) false false false false rfl rfl rfl,
    fun s fuel base r h => dirwalk_count s base fuel base [] r (by simp) h⟩

theorem delete_dir_demo (lay : Layout) (k : Nat) :
    ∃ m1, delete_command lay (k + 1) (mainDemo "hello".toList 1) true = .ok m1 ∧
      m1.s.fs = ⟨[([['r']], .dir 0o755), ([['r'], "a.txt".toList], .reg 0o644 "hello".toList)], []⟩ ∧
      m1.s.undo_count = 1 ∧
      m1.s.slot 0 = ⟨.ACTION_DELETE, "/r/d".toList, .null, 0, none,
        some [⟨some (lay.peek 0), none, 0⟩], 1⟩ :=
  ⟨_, rfl, rfl, rfl, rfl⟩

/-- What `fopen(path, "w")` can change: nothing but the opened path, which
afterwards holds an empty regular file and before held nothing or a regular
file. -/
theorem fopen_w_get (fs fs3 : FS) (path : CStr) (file : Path)
    (h : fopen_w fs path = some (fs3, file)) (q : Path) :
    fs3.get q = fs.get q ∨
      ((∃ perm, fs3.get q = some (.reg perm [])) ∧
        (fs.get q = none ∨ ∃ perm data, fs.get q = some (.reg perm data))) := by
  unfold fopen_w at h
  split at h
  · rename_i p hp
    split at h
    · rename_i perm data hg
      split at h
      · simp only [Option.some.injEq, Prod.mk.injEq] at h
        obtain ⟨rfl, rfl⟩ := h
        have hne : p ≠ [] := by intro e; simp [e, get_nil] at hg
        rw [get_replace _ _ _ _ hne, hg]
        by_cases hq : q = p
        · right
          subst hq
          exact ⟨⟨perm, by simp⟩, Or.inr ⟨perm, data, hg⟩⟩
        · left; simp [hq]
      · simp at h
    · simp at h
    · rename_i hg
      split at h
      · rename_i hc
        simp only [Option.some.injEq, Prod.mk.injEq] at h
        obtain ⟨rfl, rfl⟩ := h
        rw [get_add _ _ _ _ hg]
        by_cases hq : q = p
        · right
          subst hq
          exact ⟨⟨0o666, by simp⟩, Or.inl hg⟩
        · left; simp [hq]
      · simp at h
  · simp at h

/-- C2, the failing input: the directory `d` holding `d/x.txt` = "42" is deleted
(second entry of the demo tree) and the deletion undone.  Whatever the memory
layout and the fuel, a run that returns has recreated `d` but not `d/x.txt`
with its content: the snapshot was copied from the array of pointers as if it
were the array of structs, so the one record restored names a file by the
bytes found at a `DirContent` and carries no content.  With the layout
`layZero` the run returns and `d/x.txt` does not exist. -/
theorem delete_directory_undo_loses_files :
    (mainDemo "hello".toList 1).s.fs.get [['r'], ['d'], "x.txt".toList]
      = some (.reg 0o644 "42".toList) ∧
    (∀ (lay : Layout) (fuel : Nat),
      match (delete_command lay fuel (mainDemo "hello".toList 1) true).bind
          (fun m1 => undo_command strcoll_C fuel m1 true) with
      | .ok m2 => m2.s.fs.get [['r'], ['d']] = some (.dir 0o755) ∧
          ∀ perm, m2.s.fs.get [['r'], ['d'], "x.txt".toList] ≠ some (.reg perm "42".toList)
      | .error _ => True) ∧
    ((delete_command layZero 4 (mainDemo "hello".toList 1) true).bind
        (fun m1 => undo_command strcoll_C 4 m1 true)).map
      (fun m2 => (m2.status, m2.s.fs.get [['r'], ['d']],
        m2.s.fs.get [['r'], ['d'], "x.txt".toList]))
      = .ok ("Action undone", some (.dir 0o755), none) := by
  refine ⟨by decide, ?_, by decide⟩
  intro lay fuel
  cases fuel with
  | zero =>
    have : delete_command lay 0 (mainDemo "hello".toList 1) true = .error .outOfFuel := rfl
    rw [this]
    trivial
  | succ k =>
    obtain ⟨m1, hdel, hfs, hcnt, hslot⟩ := delete_dir_demo lay k
    rw [hdel]
    simp only [Except.bind, undo_command, if_true, undo_last_action, hcnt]
    have hz : ((1 : Int) == 0) = false := by decide
    simp only [hz, Bool.false_eq_true, if_false, sub_self, hslot, undo_effect, hfs, free_action]
    have hmk : mkdir ⟨[([['r']], .dir 0o755), ([['r'], "a.txt".toList], .reg 0o644 "hello".toList)],
        []⟩ "/r/d".toList 0o755
        = some ⟨[([['r']], .dir 0o755), ([['r'], "a.txt".toList], .reg 0o644 "hello".toList),
          ([['r'], ['d']], .dir 0o755)], []⟩ := by decide
    simp only [hmk, restore_directory_contents, Int.toNat_one, List.take_succ_cons, List.take_zero,
      List.foldl_cons, List.foldl_nil, restore_step]
    have h1 : ((1 : Int) > 0) = True := by simp
    simp only [h1, if_true, ne_eq, not_true_eq_false, if_false]
    have hd2 : FS.get ⟨[([['r']], .dir 0o755), ([['r'], "a.txt".toList], .reg 0o644 "hello".toList),
        ([['r'], ['d']], .dir 0o755)], []⟩ [['r'], ['d']] = some (.dir 0o755) := by decide
    have hx2 : FS.get ⟨[([['r']], .dir 0o755), ([['r'], "a.txt".toList], .reg 0o644 "hello".toList),
        ([['r'], ['d']], .dir 0o755)], []⟩ [['r'], ['d'], "x.txt".toList] = none := by decide
    cases hfo : fopen_w ⟨[([['r']], .dir 0o755), ([['r'], "a.txt".toList], .reg 0o644 "hello".toList),
          ([['r'], ['d']], .dir 0o755)], []⟩ (lay.peek 0) with
    | none =>
      simp only
      split
      · rename_i m2 hm2
        generalize dirwalk _ _ _ _ _ = w at hm2
        cases w with
        | error e => simp at hm2
        | ok r =>
          simp only [beq_self_eq_true, if_true, Except.ok.injEq] at hm2
          subst hm2
          simp only [hd2, hx2]
          exact ⟨trivial, fun perm h => by cases h⟩
      · trivial
    | some r =>
      obtain ⟨fs3, file⟩ := r
      simp only
      split
      · rename_i m2 hm2
        generalize dirwalk _ _ _ _ _ = w at hm2
        cases w with
        | error e => simp at hm2
        | ok r =>
          simp only [beq_self_eq_true, if_true, Except.ok.injEq] at hm2
          subst hm2
          simp only
          have hd := fopen_w_get _ fs3 _ file hfo [['r'], ['d']]
          have hx := fopen_w_get _ fs3 _ file hfo [['r'], ['d'], "x.txt".toList]
          rw [hd2] at hd
          rw [hx2] at hx
          refine ⟨?_, ?_⟩
          · rcases hd with hd | ⟨_, hd | ⟨perm, data, hd⟩⟩
            · exact hd
            · cases hd
            · cases hd
          · intro perm
            rcases hx with hx | ⟨⟨p2, hx⟩, _⟩
            · rw [hx]; simp
            · rw [hx]; simp
      · trivial

theorem lookupObj_none_of_not_mem (l : List (Path × Inode)) (p : Path)
    (h : ∀ o ∈ l, o.1 ≠ p) : lookupObj l p = none := by
  induction l with
  | nil => rfl
  | cons o l ih =>
    unfold lookupObj
    rw [if_neg (h o (List.mem_cons_self _ _))]
    exact ih (fun x hx => h x (List.mem_cons_of_mem _ hx))

theorem lookupObj_none_not_mem (l : List (Path × Inode)) (p : Path)
    (h : lookupObj l p = none) : ∀ o ∈ l, o.1 ≠ p := by
  induction l with
  | nil => intro o ho; cases ho
  | cons x l ih =>
    intro o ho
    unfold lookupObj at h
    by_cases hx : x.1 = p
    · simp [hx] at h
    · simp only [hx, if_false] at h
      rcases List.mem_cons.1 ho with rfl | ho
      · exact hx
      · exact ih h o ho

theorem get_none_not_mem (fs : FS) (p : Path) (h : fs.get p = none) :
    ∀ o ∈ fs.objs, o.1 ≠ p := by
  have hne : p ≠ [] := by intro e; simp [e, get_nil] at h
  simp only [FS.get, hne, if_false] at h
  exact lookupObj_none_not_mem _ _ h

/-- Reading the table with appended objects at a path the appended objects do
not use. -/
theorem plus_get_old (fs : FS) (E : List (Path × Inode)) (q : Path) (h : ∀ o ∈ E, o.1 ≠ q) :
    (fs.plus E).get q = fs.get q := by
  unfold FS.get FS.plus
  by_cases hq : q = []
  · simp [hq]
  · simp only [hq, if_false, lookupObj_append, lookupObj_none_of_not_mem E q h]
    cases lookupObj fs.objs q <;> rfl

theorem plus_get_new (fs : FS) (E : List (Path × Inode)) (p : Path) (i : Inode)
    (hf : fs.get p = none) (hn : (E.map Prod.fst).Nodup) (hm : (p, i) ∈ E) :
    (fs.plus E).get p = some i := by
  have hne : p ≠ [] := by intro e; simp [e, get_nil] at hf
  have h0 : lookupObj fs.objs p = none := by simpa [FS.get, hne] using hf
  simp only [FS.get, FS.plus, hne, if_false, lookupObj_append, h0, lookupObj_of_mem E hn p i hm]
  rfl

theorem plus_add (fs : FS) (E : List (Path × Inode)) (p : Path) (i : Inode) :
    (fs.plus E).add p i = fs.plus (E ++ [(p, i)]) := by
  simp [FS.plus, FS.add]

theorem plus_remove (fs : FS) (E : List (Path × Inode)) (p : Path) (hf : fs.get p = none) :
    (fs.plus E).remove p = fs.plus (E.filter (fun o => o.1 != p)) := by
  unfold FS.plus FS.remove
  simp only [List.filter_append]
  congr 2
  rw [List.filter_eq_self]
  intro o ho
  simpa using get_none_not_mem fs p hf o ho

theorem plus_nil (fs : FS) : fs.plus [] = fs := by
  simp [FS.plus]

/-- Creating a file or directory under a name that is free, in a writable and
searchable directory, succeeds. -/
theorem create_object_fresh (s : State) (base name : CStr) (key : ObjKey) (b : Path)
    (hbase : s.fs.namei base = some b) (hsb : s.fs.searchable b = true)
    (hv : validName name = true) (hlen : name.length ≤ 256)
    (hshort : base.length + 1 + name.length < MAX_PATH)
    (hfresh : s.fs.get (b ++ [name]) = none) (hw : s.fs.parentWritable (b ++ [name]) = true)
    (hkey : key ≠ .l) :
    create_object s base name key [] = (0,
      if s.undo_count < (MAX_UNDO : Int) then
        ({ s with fs := s.fs.add (b ++ [name]) (createdInode key) } : State).push
          (createRecord (s.slot s.undo_count) (base ++ '/' :: name))
      else { s with fs := s.fs.add (b ++ [name]) (createdInode key) }) := by
  have hw256 : wgetnstr 256 name = name := List.take_of_length_le hlen
  have hj : join_path MAX_PATH base name = base ++ '/' :: name := by
    unfold join_path
    apply truncate_of_lt
    simp only [List.length_append, List.length_cons]; omega
  have hn : s.fs.namei (base ++ '/' :: name) = some (b ++ [name]) := by
    rw [namei_join _ _ _ _ hbase hv, hsb]; rfl
  have hacc : access s.fs (base ++ '/' :: name) = false := by
    have hfo : s.fs.follow 40 (b ++ [name]) = some (b ++ [name]) :=
      follow_nonlink s.fs 39 (b ++ [name]) (by intro t; rw [hfresh]; simp)
    unfold access FS.nameiFollow
    rw [hn]
    simp only [hfo, hfresh]
    rfl
  have hne : b ++ [name] ≠ [] := by simp
  have hcr : ∀ i, create s.fs (base ++ '/' :: name) i = some (s.fs.add (b ++ [name]) i) := by
    intro i
    unfold create
    rw [hn]
    simp only [hfresh]
    simp [hw]
  unfold create_object
  simp only [hw256, hj, hacc, Bool.false_eq_true, if_false]
  cases key with
  | l => exact absurd rfl hkey
  | f =>
    simp only [open_excl, hcr]
    split <;> rfl
  | d =>
    simp only [mkdir, hcr]
    split <;> rfl

theorem remove_empty_directory (fuel : Nat) (fs : FS) (path : CStr) (p : Path) (perm : Nat)
    (hn : fs.namei path = some p) (hg : fs.get p = some (.dir perm)) (hr : canR perm = true)
    (hc : fs.children p = []) (hne : p ≠ []) (hw : fs.parentWritable p = true) :
    remove_directory (fuel + 1) fs path = .ok (0, fs.remove p) := by
  unfold remove_directory
  rw [opendir_dir fs path p perm hn hg hr, hc]
  have hrm : rmdir fs path = some (fs.remove p) := by
    unfold rmdir
    rw [hn]
    simp only [hg]
    simp [hne, hw, hc]
  simp [remove_loop, is_dot, hrm]

/-- Undoing a Create record whose object is still there: a regular file, or a
readable directory that is empty. -/
theorem undo_create_step (strcoll : CStr → CStr → Int) (fuel : Nat) (s : State)
    (files : List FileInfo) (base : CStr) (p : Path) (i : Inode)
    (hc : s.undo_count ≠ 0)
    (hty : (s.slot (s.undo_count - 1)).type = .ACTION_CREATE)
    (hn : s.fs.namei (s.slot (s.undo_count - 1)).path = some p)
    (hg : s.fs.get p = some i)
    (hi : (∃ perm data, i = .reg perm data) ∨
      (∃ perm, i = .dir perm ∧ canR perm = true ∧ s.fs.children p = []))
    (hne : p ≠ []) (hw : s.fs.parentWritable p = true) (hf : 1 ≤ fuel)
    (hop : (s.slot (s.undo_count - 1)).old_path ≠ .freed)
    (hscan : (s.fs.remove p).scannable base fuel = true) :
    ∃ left files2, undo_last_action strcoll fuel s files base = .ok (0,
      { s with fs := s.fs.remove p,
               undo_stack := s.undo_stack.set (s.undo_count - 1).toNat left,
               undo_count := s.undo_count - 1 }, files2) := by
  obtain ⟨k, rfl⟩ : ∃ k, fuel = k + 1 := ⟨fuel - 1, by omega⟩
  have hnl : ∀ t, s.fs.get p ≠ some (.lnk t) := by
    intro t e
    rw [hg] at e
    rcases hi with ⟨perm, data, rfl⟩ | ⟨perm, rfl, _, _⟩ <;> cases e
  have hacc : access s.fs (s.slot (s.undo_count - 1)).path = true := by
    have hfo : s.fs.follow 40 p = some p := follow_nonlink s.fs 39 p hnl
    unfold access FS.nameiFollow
    rw [hn]
    simp only [hfo, hg]
    rfl
  have hls : lstat s.fs (s.slot (s.undo_count - 1)).path = some i.stat := by
    simp only [lstat, hn, hg, Option.map_some']
  have heff : undo_effect (k + 1) s.fs (s.slot (s.undo_count - 1)) = .ok (s.fs.remove p) := by
    unfold undo_effect
    simp only [hty, hacc, if_true, hls]
    rcases hi with ⟨perm, data, rfl⟩ | ⟨perm, rfl, hr, hch⟩
    · have hd : S_ISDIR (Inode.reg perm data).stat.st_mode = false := by
        cases h : S_ISDIR (Inode.reg perm data).stat.st_mode
        · rfl
        · obtain ⟨q, hq⟩ := (S_ISDIR_stat _).1 h
          cases hq
      simp only [hd, Bool.false_eq_true, if_false,
        unlink_nondir s.fs _ p _ hn hg (by simp) hne hw]
    · have hd : S_ISDIR (Inode.dir perm).stat.st_mode = true := (S_ISDIR_stat _).2 ⟨perm, rfl⟩
      simp only [hd, if_true, remove_empty_directory k s.fs _ p perm hn hg hr hch hne hw]
  obtain ⟨left, hleft⟩ := free_action_ok _ hop
  obtain ⟨files2, h⟩ := undo_last_action_run strcoll (k + 1) s files base _ left hc heff hleft
    hscan
  exact ⟨left, files2, h⟩

/-- A walk over plain names only looks at the directories above its result. -/
theorem walk_congr_len (fs fs2 : FS) (cs : List CStr) (hv : ∀ c ∈ cs, validName c = true)
    (cur : Path) (h : ∀ q : Path, q.length < cur.length + cs.length → fs2.get q = fs.get q) :
    fs2.walk cur cs = fs.walk cur cs := by
  induction cs generalizing cur with
  | nil => simp [FS.walk]
  | cons c cs ih =>
    have hc := (validName_iff c).1 (hv c (List.mem_cons_self _ _))
    have hcur : fs2.get cur = fs.get cur := by
      apply h
      simp
    have hrest := ih (fun d hd => hv d (List.mem_cons_of_mem _ hd)) (cur ++ [c])
      (by
        intro q hq
        apply h
        simp only [List.length_append, List.length_cons, List.length_nil] at hq ⊢
        omega)
    unfold FS.walk
    rw [hcur]
    simp only [hc.2.2.1, hc.2.2.2, if_false, hrest]

theorem namei_congr_len (fs fs2 : FS) (path : CStr) (p : Path)
    (hv : ∀ c ∈ splitPath [] path, validName c = true)
    (hp : fs.namei path = some p) (hc : fs2.cwd = fs.cwd)
    (h : ∀ q : Path, q.length ≤ p.length → fs2.get q = fs.get q) : fs2.namei path = some p := by
  unfold FS.namei FS.resolveFrom at *
  cases path with
  | nil => simp at hp
  | cons c path =>
    simp only at hp ⊢
    rw [hc]
    have := walk_valid_eq fs _ hv _ _ hp
    rw [walk_congr_len fs fs2 _ hv _ (by
      intro q hq
      apply h
      rw [this]
      simp only [List.length_append]
      omega)]
    exact hp

theorem plus_get_short (fs : FS) (T : List (Path × Inode)) (b q : Path)
    (hT : ∀ o ∈ T, o.1.length = b.length + 1) (hq : q.length ≤ b.length) :
    (fs.plus T).get q = fs.get q := by
  apply plus_get_old
  intro o ho e
  have := hT o ho
  rw [e] at this
  omega

theorem plus_namei (fs : FS) (T : List (Path × Inode)) (base : CStr) (b : Path)
    (hv : ∀ c ∈ splitPath [] base, validName c = true) (hb : fs.namei base = some b)
    (hT : ∀ o ∈ T, o.1.length = b.length + 1) : (fs.plus T).namei base = some b :=
  namei_congr_len fs (fs.plus T) base b hv hb rfl (fun q hq => plus_get_short fs T b q hT hq)

theorem plus_plus (fs : FS) (T U : List (Path × Inode)) : (fs.plus T).plus U = fs.plus (T ++ U) := by
  simp [FS.plus]

/-- A name that is free in a well-formed table has nothing below it, also after
objects are added next to it. -/
theorem plus_children_new (fs : FS) (T : List (Path × Inode)) (p : Path)
    (hwf : fs.wf = true) (hf : fs.get p = none)
    (hT : ∀ o ∈ T, o.1.length = p.length) : (fs.plus T).children p = [] := by
  rw [List.eq_nil_iff_forall_not_mem]
  intro n hn
  rw [mem_children] at hn
  obtain ⟨i, hi⟩ := hn
  have hi2 : (p ++ [n], i) ∈ fs.objs ++ T := hi
  rcases List.mem_append.1 hi2 with h | h
  · have hp : p ≠ [] := by intro e; simp [e, get_nil] at hf
    obtain ⟨_, _, hpar⟩ := wf_mem fs hwf _ _ h
    simp only [List.dropLast_concat] at hpar
    rcases hpar with e | ⟨perm, e⟩
    · exact hp e
    · rw [hf] at e; cases e
  · have := hT _ h
    simp at this

theorem plus_scannable (fs : FS) (T : List (Path × Inode)) (base : CStr) (b : Path) (fuel : Nat)
    (perm : Nat) (hv : ∀ c ∈ splitPath [] base, validName c = true)
    (hb : fs.namei base = some b) (hd : fs.get b = some (.dir perm))
    (hs : fs.scanBound base fuel = true)
    (hT : ∀ o ∈ T, o.1.length = b.length + 1)
    (hB : ∀ o ∈ T, o.1.all validName = true ∧ base.length + pathLen o.1 < MAX_PATH ∧
      o.1.length < fuel) :
    (fs.plus T).scannable base fuel = true := by
  unfold FS.scannable
  rw [plus_namei fs T base b hv hb hT]
  have hg : (fs.plus T).get b = some (.dir perm) := by
    rw [plus_get_short fs T b b hT (le_refl _)]; exact hd
  have hnl : (fs.plus T).notLink b = true := by
    unfold FS.notLink
    rw [hg]
  simp only [hnl, Bool.and_true]
  unfold FS.scanBound at hs ⊢
  simp only [Bool.and_eq_true, decide_eq_true_eq, List.all_eq_true] at hs ⊢
  refine ⟨hs.1, ?_⟩
  intro o ho
  have ho2 : o ∈ fs.objs ++ T := ho
  rcases List.mem_append.1 ho2 with h | h
  · exact hs.2 o h
  · have := hB o h
    exact ⟨⟨by simpa [List.all_eq_true] using this.1, this.2.1⟩, this.2.2⟩

/-- A run of creations of files and directories under fresh, distinct names:
all succeed, the objects are added in order, and the records go into the free
slots as long as there are any. -/
theorem create_all_run (base : CStr) (b : Path) (perm : Nat)
    (hv : ∀ c ∈ splitPath [] base, validName c = true)
    (hX : canX perm = true) (hW : canW perm = true) :
    ∀ (ins : List (CStr × ObjKey)) (s : State) (c : Nat),
      s.fs.namei base = some b → s.fs.get b = some (.dir perm) →
      s.undo_count = (c : Int) → c ≤ MAX_UNDO → s.undo_stack.length = MAX_UNDO →
      (∀ i ∈ ins, i.2 ≠ .l ∧ validName i.1 = true ∧ i.1.length ≤ 256 ∧
        base.length + 1 + i.1.length < MAX_PATH ∧ s.fs.get (b ++ [i.1]) = none) →
      (ins.map Prod.fst).Nodup →
      ∃ s2, create_all s base ins = (List.replicate ins.length 0, s2) ∧
        s2.fs = s.fs.plus (ins.map (createdObj b)) ∧
        s2.undo_count = ((min (c + ins.length) MAX_UNDO : Nat) : Int) ∧
        s2.undo_stack.length = MAX_UNDO ∧
        (∀ j, j < c → s2.undo_stack[j]? = s.undo_stack[j]?) ∧
        (∀ k x, ins[k]? = some x → c + k < MAX_UNDO →
          ∃ a, s2.undo_stack[c + k]? = some a ∧ a.type = .ACTION_CREATE ∧
            a.path = base ++ '/' :: x.1) := by
  intro ins
  induction ins with
  | nil =>
    intro s c _ _ hc hcl hlen _ _
    refine ⟨s, rfl, (plus_nil _).symm, ?_, hlen, fun _ _ => rfl, ?_⟩
    · rw [hc]; simp [hcl]
    · intro k x hx; simp at hx
  | cons i rest ih =>
    intro s c hb hd hc hcl hlen hins hnd
    obtain ⟨hkey, hval, hl256, hshort, hfresh⟩ := hins i (List.mem_cons_self _ _)
    have hsb : s.fs.searchable b = true := by
      unfold FS.searchable; rw [hd]; exact hX
    have hpw : s.fs.parentWritable (b ++ [i.1]) = true := by
      unfold FS.parentWritable
      rw [List.dropLast_concat, hd]; exact hW
    have hstep := create_object_fresh s base i.1 i.2 b hb hsb hval hl256 hshort hfresh hpw hkey
    have hadd : s.fs.add (b ++ [i.1]) (createdInode i.2) = s.fs.plus [createdObj b i] := by
      have := plus_add s.fs [] (b ++ [i.1]) (createdInode i.2)
      rw [plus_nil] at this
      exact this
    have hT1 : ∀ o ∈ [createdObj b i], o.1.length = b.length + 1 := by
      intro o ho
      rw [List.mem_singleton] at ho
      subst ho
      simp [createdObj]
    have hnd2 : i.1 ∉ rest.map Prod.fst ∧ (rest.map Prod.fst).Nodup :=
      List.nodup_cons.1 hnd
    -- the state after the first creation
    obtain ⟨s1, c1, hs1, hfs1, hc1, hc1l, hlen1, hold1, hnew1⟩ :
        ∃ (s1 : State) (c1 : Nat), create_object s base i.1 i.2 [] = (0, s1) ∧
          s1.fs = s.fs.plus [createdObj b i] ∧ s1.undo_count = (c1 : Int) ∧
          c1 = min (c + 1) MAX_UNDO ∧ s1.undo_stack.length = MAX_UNDO ∧
          (∀ j, j < c → s1.undo_stack[j]? = s.undo_stack[j]?) ∧
          (c < MAX_UNDO → ∃ a, s1.undo_stack[c]? = some a ∧ a.type = .ACTION_CREATE ∧
            a.path = base ++ '/' :: i.1) := by
      rw [hstep]
      by_cases hlt : c < MAX_UNDO
      · have hlt2 : s.undo_count < (MAX_UNDO : Int) := by rw [hc]; exact_mod_cast hlt
        rw [if_pos hlt2]
        refine ⟨_, c + 1, rfl, ?_, ?_, ?_, ?_, ?_, ?_⟩
        · rw [fs_push]; exact hadd
        · rw [undo_count_push]; simp [hc]
        · simp only [MAX_UNDO] at hlt ⊢; omega
        · simp [State.push, hlen]
        · intro j hj
          simp only [State.push, hc, Int.toNat_ofNat]
          rw [List.getElem?_set_ne (by omega)]
        · intro _
          refine ⟨createRecord (s.slot s.undo_count) (base ++ '/' :: i.1), ?_, rfl, rfl⟩
          simp only [State.push, hc, Int.toNat_ofNat]
          rw [List.getElem?_set_self (by rw [hlen]; exact hlt)]
      · have hlt2 : ¬ s.undo_count < (MAX_UNDO : Int) := by rw [hc]; exact_mod_cast hlt
        rw [if_neg hlt2]
        refine ⟨_, c, rfl, hadd, hc, ?_, hlen, fun _ _ => rfl, fun h => absurd h hlt⟩
        simp only [MAX_UNDO] at hlt hcl ⊢; omega
    have hb1 : s1.fs.namei base = some b := by
      rw [hfs1]; exact plus_namei s.fs _ base b hv hb hT1
    have hd1 : s1.fs.get b = some (.dir perm) := by
      rw [hfs1, plus_get_short s.fs _ b b hT1 (le_refl _)]; exact hd
    have hins1 : ∀ x ∈ rest, x.2 ≠ .l ∧ validName x.1 = true ∧ x.1.length ≤ 256 ∧
        base.length + 1 + x.1.length < MAX_PATH ∧ s1.fs.get (b ++ [x.1]) = none := by
      intro x hx
      obtain ⟨h1, h2, h3, h4, h5⟩ := hins x (List.mem_cons_of_mem _ hx)
      refine ⟨h1, h2, h3, h4, ?_⟩
      rw [hfs1, plus_get_old]
      · exact h5
      · intro o ho e
        rw [List.mem_singleton] at ho
        subst ho
        simp only [createdObj, List.append_cancel_left_eq, List.cons.injEq, and_true] at e
        exact hnd2.1 (List.mem_map.2 ⟨x, hx, e.symm⟩)
    have hc1le : c1 ≤ MAX_UNDO := by rw [hc1l]; exact Nat.min_le_right _ _
    obtain ⟨s2, hrun, hfs2, hc2, hlen2, hold2, hnew2⟩ :=
      ih s1 c1 hb1 hd1 hc1 hc1le hlen1 hins1 hnd2.2
    refine ⟨s2, ?_, ?_, ?_, hlen2, ?_, ?_⟩
    · simp only [create_all, hs1, hrun, List.length_cons, List.replicate_succ]
    · rw [hfs2, hfs1, plus_plus]; rfl
    · rw [hc2, hc1l]
      simp only [MAX_UNDO, List.length_cons] at hcl ⊢
      congr 1
      omega
    · intro j hj
      have hj1 : j < c1 := by
        rw [hc1l]; simp only [MAX_UNDO] at hcl ⊢; omega
      rw [hold2 j hj1, hold1 j hj]
    · intro k x hx hk
      cases k with
      | zero =>
        simp only [List.getElem?_cons_zero, Option.some.injEq] at hx
        subst hx
        have hlt : c < MAX_UNDO := by omega
        obtain ⟨a, ha, hty, hpa⟩ := hnew1 hlt
        refine ⟨a, ?_, hty, hpa⟩
        have hcc : c < c1 := by rw [hc1l]; simp only [MAX_UNDO] at hlt ⊢; omega
        rw [Nat.add_zero, hold2 c hcc, ha]
      | succ k =>
        simp only [List.getElem?_cons_succ] at hx
        have hc1e : c1 = c + 1 := by
          rw [hc1l]; simp only [MAX_UNDO] at hk ⊢; omega
        have := hnew2 k x hx (by omega)
        rw [hc1e] at this
        have e : c + (k + 1) = c + 1 + k := by omega
        rw [e]
        exact this

theorem filter_key_of_nodup (A R : List (Path × Inode)) (a : Path × Inode)
    (hn : ((A ++ a :: R).map Prod.fst).Nodup) :
    (A ++ a :: R).filter (fun o => o.1 != a.1) = A ++ R := by
  rw [List.map_append, List.map_cons] at hn
  have h1 := List.nodup_append.1 hn
  have h2 := List.nodup_cons.1 h1.2.1
  have hA : A.filter (fun o => o.1 != a.1) = A := by
    rw [List.filter_eq_self]
    intro o ho
    have hd := h1.2.2
    simp only [bne_iff_ne, ne_eq]
    intro e
    exact hd (List.mem_map.2 ⟨o, ho, rfl⟩) (by rw [e]; exact List.mem_cons_self _ _)
  have hR : R.filter (fun o => o.1 != a.1) = R := by
    rw [List.filter_eq_self]
    intro o ho
    simp only [bne_iff_ne, ne_eq]
    intro e
    exact h2.1 (by rw [← e]; exact List.mem_map.2 ⟨o, ho, rfl⟩)
  rw [List.filter_append, List.filter_cons, hA, hR]
  simp

/-- Undoing a stack that holds only Create records of files and directories
that are still as they were made: every undo succeeds and removes its object,
newest first, until the stack is empty. -/
theorem undo_all_run (strcoll : CStr → CStr → Int) (fuel : Nat) (base : CStr) (b : Path)
    (perm : Nat) (fs0 : FS)
    (hv : ∀ c ∈ splitPath [] base, validName c = true)
    (hX : canX perm = true) (hW : canW perm = true) (hwf : fs0.wf = true)
    (hb : fs0.namei base = some b) (hd : fs0.get b = some (.dir perm))
    (hs : fs0.scanBound base fuel = true) :
    ∀ (cs : List (CStr × ObjKey)) (R : List (Path × Inode)) (s : State) (files : List FileInfo),
      s.fs = fs0.plus (cs.map (createdObj b) ++ R) →
      s.undo_count = (cs.length : Int) →
      (∀ (k : Nat) (x : CStr × ObjKey), cs[k]? = some x → ∃ a : UndoAction,
        s.undo_stack[k]? = some a ∧ a.type = .ACTION_CREATE ∧ a.path = base ++ '/' :: x.1 ∧
          a.old_path ≠ .freed) →
      (∀ i ∈ cs, i.2 ≠ .l ∧ validName i.1 = true) →
      (∀ o ∈ cs.map (createdObj b) ++ R, o.1.length = b.length + 1 ∧ fs0.get o.1 = none ∧
        o.1.all validName = true ∧ base.length + pathLen o.1 < MAX_PATH ∧ o.1.length < fuel) →
      ((cs.map (createdObj b) ++ R).map Prod.fst).Nodup →
      ∃ s2 files2, undo_all strcoll fuel base cs.length s files
          = .ok (List.replicate cs.length 0, s2, files2) ∧
        s2.fs = fs0.plus R ∧ s2.undo_count = 0 := by
  intro cs
  induction cs using List.reverseRecOn with
  | nil =>
    intro R s files hfs hc _ _ _ _
    refine ⟨s, files, ?_, ?_, ?_⟩
    · simp only [List.length_nil, undo_all, List.replicate_zero]
    · simpa using hfs
    · simpa using hc
  | append_singleton cs x ih =>
    intro R s files hfs hc hslots hins hobjs hnd
    have hfuel : 1 ≤ fuel := by
      unfold FS.scanBound at hs
      simp only [Bool.and_eq_true, decide_eq_true_eq] at hs
      exact hs.1
    have hE : (cs ++ [x]).map (createdObj b) ++ R
        = cs.map (createdObj b) ++ createdObj b x :: R := by simp
    rw [hE] at hfs hobjs hnd
    have hTlen : ∀ o ∈ cs.map (createdObj b) ++ createdObj b x :: R,
        o.1.length = b.length + 1 := fun o ho => (hobjs o ho).1
    have hxmem : createdObj b x ∈ cs.map (createdObj b) ++ createdObj b x :: R :=
      List.mem_append_right _ (List.mem_cons_self _ _)
    obtain ⟨hxkey, hxval⟩ := hins x (List.mem_append_right _ (List.mem_singleton_self _))
    have hxfresh : fs0.get (b ++ [x.1]) = none := (hobjs _ hxmem).2.1
    -- facts about the current table
    have hbs : s.fs.namei base = some b := by
      rw [hfs]; exact plus_namei fs0 _ base b hv hb hTlen
    have hds : s.fs.get b = some (.dir perm) := by
      rw [hfs, plus_get_short fs0 _ b b hTlen (le_refl _)]; exact hd
    have hsb : s.fs.searchable b = true := by
      unfold FS.searchable; rw [hds]; exact hX
    have hlenx : (cs ++ [x]).length = cs.length + 1 := by simp
    -- the record on top of the stack
    obtain ⟨a, ha, hty, hpath, hunfreed⟩ := hslots cs.length x
      (by rw [List.getElem?_append_right (le_refl _)]; simp)
    have hslot : s.slot (s.undo_count - 1) = a := by
      unfold State.slot
      rw [hc, hlenx]
      have : ((cs.length + 1 : Nat) : Int) - 1 = ((cs.length : Nat) : Int) := by
        push_cast; ring
      rw [this, Int.toNat_ofNat cs.length, List.getD_eq_getElem?_getD, ha]
      rfl
    have hcount : s.undo_count ≠ 0 := by
      rw [hc, hlenx]; exact_mod_cast Nat.succ_ne_zero cs.length
    have hn : s.fs.namei (s.slot (s.undo_count - 1)).path = some (b ++ [x.1]) := by
      rw [hslot, hpath, namei_join s.fs base x.1 b hbs hxval, hsb]
      rfl
    have hg : s.fs.get (b ++ [x.1]) = some (createdInode x.2) := by
      rw [hfs]
      exact plus_get_new fs0 _ _ _ hxfresh hnd hxmem
    have hi : (∃ perm data, createdInode x.2 = .reg perm data) ∨
        (∃ perm, createdInode x.2 = .dir perm ∧ canR perm = true ∧
          s.fs.children (b ++ [x.1]) = []) := by
      cases hk : x.2 with
      | f => exact Or.inl ⟨_, _, rfl⟩
      | d =>
        refine Or.inr ⟨0o755, rfl, by decide, ?_⟩
        rw [hfs]
        apply plus_children_new fs0 _ _ hwf hxfresh
        intro o ho
        rw [hTlen o ho]
        simp
      | l => exact absurd hk hxkey
    have hpw : s.fs.parentWritable (b ++ [x.1]) = true := by
      unfold FS.parentWritable
      rw [List.dropLast_concat, hds]; exact hW
    have hrem : s.fs.remove (b ++ [x.1]) = fs0.plus (cs.map (createdObj b) ++ R) := by
      rw [hfs, plus_remove fs0 _ _ hxfresh]
      have := filter_key_of_nodup (cs.map (createdObj b)) R (createdObj b x) hnd
      simp only [createdObj] at this ⊢
      rw [this]
    have hobjs2 : ∀ o ∈ cs.map (createdObj b) ++ R, o.1.length = b.length + 1 ∧
        fs0.get o.1 = none ∧ o.1.all validName = true ∧
        base.length + pathLen o.1 < MAX_PATH ∧ o.1.length < fuel := by
      intro o ho
      apply hobjs
      rcases List.mem_append.1 ho with h | h
      · exact List.mem_append_left _ h
      · exact List.mem_append_right _ (List.mem_cons_of_mem _ h)
    have hscan : (s.fs.remove (b ++ [x.1])).scannable base fuel = true := by
      rw [hrem]
      exact plus_scannable fs0 _ base b fuel perm hv hb hd hs (fun o ho => (hobjs2 o ho).1)
        (fun o ho => (hobjs2 o ho).2.2)
    obtain ⟨left, files1, hundo⟩ := undo_create_step strcoll fuel s files base (b ++ [x.1])
      (createdInode x.2) hcount (by rw [hslot]; exact hty) hn hg hi (by simp) hpw hfuel
      (by rw [hslot]; exact hunfreed) hscan
    have hidx : (s.undo_count - 1).toNat = cs.length := by
      rw [hc, hlenx]
      have : ((cs.length + 1 : Nat) : Int) - 1 = ((cs.length : Nat) : Int) := by
        push_cast; ring
      rw [this, Int.toNat_ofNat cs.length]
    have hnd2 : ((cs.map (createdObj b) ++ R).map Prod.fst).Nodup := by
      rw [List.map_append, List.map_cons] at hnd
      rw [List.map_append]
      have h1 := List.nodup_append.1 hnd
      refine List.nodup_append.2 ⟨h1.1, (List.nodup_cons.1 h1.2.1).2, ?_⟩
      intro q hq1 hq2
      exact h1.2.2 hq1 (List.mem_cons_of_mem _ hq2)
    obtain ⟨s2, files2, hrest, hfs2, hc2⟩ := ih R
      { s with fs := s.fs.remove (b ++ [x.1]),
               undo_stack := s.undo_stack.set (s.undo_count - 1).toNat left,
               undo_count := s.undo_count - 1 } files1
      hrem (by
        show s.undo_count - 1 = (cs.length : Int)
        rw [hc, hlenx]; push_cast; ring)
      (by
        intro k y hy
        have hk : k < cs.length := (List.getElem?_eq_some_iff.1 hy).1
        obtain ⟨a2, ha2, h2⟩ := hslots k y (by rw [List.getElem?_append_left hk]; exact hy)
        refine ⟨a2, ?_, h2⟩
        show (s.undo_stack.set (s.undo_count - 1).toNat left)[k]? = some a2
        rw [hidx, List.getElem?_set_ne (by omega)]
        exact ha2)
      (fun i hi => hins i (List.mem_append_left _ hi)) hobjs2 hnd2
    refine ⟨s2, files2, ?_, hfs2, hc2⟩
    rw [hlenx]
    simp only [undo_all, hundo, hrest, List.replicate_succ]

theorem createdObj_keys (b : Path) (l : List (CStr × ObjKey)) :
    (l.map (createdObj b)).map Prod.fst = (l.map Prod.fst).map (fun n => b ++ [n]) := by
  simp only [List.map_map]
  rfl

theorem createdObj_nodup (b : Path) (l : List (CStr × ObjKey)) (h : (l.map Prod.fst).Nodup) :
    ((l.map (createdObj b)).map Prod.fst).Nodup := by
  rw [createdObj_keys]
  apply List.Nodup.map _ h
  intro x y e
  simpa using e

theorem valid_of_namei_dir (fs : FS) (base : CStr) (fuel : Nat) (b : Path) (perm : Nat)
    (hd : fs.get b = some (.dir perm)) (hs : fs.scanBound base fuel = true) :
    b.all validName = true := by
  by_cases hb : b = []
  · subst hb; rfl
  · have hm := get_some_mem fs b _ hb hd
    rw [List.all_eq_true]
    exact (scanBound_mem fs base fuel hs _ _ hm).1

theorem mem_of_get_some {α : Type} (l : List α) (i : Nat) (a : α) (h : l[i]? = some a) :
    a ∈ l := by
  obtain ⟨hi, rfl⟩ := List.getElem?_eq_some_iff.1 h
  exact List.getElem_mem hi

theorem slot_unfreed (s : State) (i : Int) (h : ∀ a ∈ s.undo_stack, a.old_path ≠ .freed) :
    (s.slot i).old_path ≠ .freed := by
  unfold State.slot
  rw [List.getD_eq_getElem?_getD]
  cases hg : s.undo_stack[i.toNat]? with
  | none =>
    simp only [Option.getD_none]
    intro e
    cases e
  | some a =>
    simp only [Option.getD_some]
    exact h a (mem_of_get_some _ _ _ hg)

/-- A push that leaves `old_path` as it finds it puts no freed pointer on a
stack that holds none. -/
theorem push_unfreed (s : State) (a : UndoAction) (ha : a.old_path ≠ .freed)
    (h : ∀ x ∈ s.undo_stack, x.old_path ≠ .freed) :
    ∀ x ∈ (s.push a).undo_stack, x.old_path ≠ .freed := by
  intro x hx
  rcases List.mem_or_eq_of_mem_set hx with h1 | h1
  · exact h x h1
  · rw [h1]; exact ha

theorem create_object_unfreed (s : State) (base typed : CStr) (ch : ObjKey) (target : CStr)
    (h : ∀ x ∈ s.undo_stack, x.old_path ≠ .freed) :
    ∀ x ∈ (create_object s base typed ch target).2.undo_stack, x.old_path ≠ .freed := by
  unfold create_object
  simp only
  split
  · exact h
  · split
    · exact h
    · split
      · exact push_unfreed _ _ (slot_unfreed s _ h) h
      · exact h

theorem create_all_unfreed (base : CStr) : ∀ (ins : List (CStr × ObjKey)) (s : State),
    (∀ x ∈ s.undo_stack, x.old_path ≠ .freed) →
    ∀ x ∈ (create_all s base ins).2.undo_stack, x.old_path ≠ .freed := by
  intro ins
  induction ins with
  | nil => intro s h; exact h
  | cons i rest ih =>
    intro s h
    simp only [create_all]
    exact ih _ (create_object_unfreed s base i.1 i.2 [] h)

/-- Creating `MAX_UNDO + 1` files and directories from an empty stack and then
undoing `MAX_UNDO` times: the records of the first `MAX_UNDO` creations are the
ones on the stack, so those objects are removed and the last one made stays. -/
theorem create_undo_run (strcoll : CStr → CStr → Int) (fuel : Nat) (s0 : State)
    (base : CStr) (b : Path) (perm : Nat) (ins : List (CStr × ObjKey)) (files : List FileInfo)
    (h0 : s0.undo_count = 0) (hlen : s0.undo_stack.length = MAX_UNDO)
    (hfr : ∀ a ∈ s0.undo_stack, a.old_path ≠ .freed)
    (hn : ins.length = MAX_UNDO + 1)
    (hv : ∀ c ∈ splitPath [] base, validName c = true)
    (hb : s0.fs.namei base = some b) (hd : s0.fs.get b = some (.dir perm))
    (hX : canX perm = true) (hW : canW perm = true)
    (hwf : s0.fs.wf = true) (hs : s0.fs.scanBound base fuel = true)
    (hdepth : b.length + 1 < fuel)
    (hins : ∀ i ∈ ins, i.2 ≠ .l ∧ validName i.1 = true ∧ i.1.length < 256 ∧
      base.length + pathLen (b ++ [i.1]) < MAX_PATH ∧ s0.fs.get (b ++ [i.1]) = none)
    (hnd : (ins.map Prod.fst).Nodup) :
    ∃ s1 s2 files2,
      create_all s0 base ins = (List.replicate (MAX_UNDO + 1) 0, s1) ∧
      undo_all strcoll fuel base MAX_UNDO s1 files
        = .ok (List.replicate MAX_UNDO 0, s2, files2) ∧
      s2.fs.objs = s0.fs.objs ++ (ins.drop MAX_UNDO).map (createdObj b) ∧
      s2.undo_count = 0 ∧
      (∀ i ∈ ins.take MAX_UNDO, lstat s2.fs (base ++ '/' :: i.1) = none) ∧
      (∀ i ∈ ins.drop MAX_UNDO,
        lstat s2.fs (base ++ '/' :: i.1) = some (createdInode i.2).stat) ∧
      undo_last_action strcoll fuel s2 files2 base = .ok (-1, s2, files2) := by
  have hbv := valid_of_namei_dir s0.fs base fuel b perm hd hs
  have hfr1 := create_all_unfreed base ins s0 hfr
  -- the creations
  obtain ⟨s1, hrun1, hfs1, hc1, hlen1, _, hslots1⟩ :=
    create_all_run base b perm hv hX hW ins s0 0 hb hd (by rw [h0]; rfl) (Nat.zero_le _) hlen
      (by
        intro i hi
        obtain ⟨h1, h2, h3, h4, h5⟩ := hins i hi
        refine ⟨h1, h2, le_of_lt h3, ?_, h5⟩
        rw [pathLen_append] at h4
        omega)
      hnd
  have hsplit : ins.take MAX_UNDO ++ ins.drop MAX_UNDO = ins := List.take_append_drop _ _
  have hmap : (ins.take MAX_UNDO).map (createdObj b) ++ (ins.drop MAX_UNDO).map (createdObj b)
      = ins.map (createdObj b) := by
    rw [← List.map_append, hsplit]
  have htl : (ins.take MAX_UNDO).length = MAX_UNDO := by
    rw [List.length_take, hn]; simp [MAX_UNDO]
  have hobj : ∀ o ∈ ins.map (createdObj b), o.1.length = b.length + 1 ∧ s0.fs.get o.1 = none ∧
      o.1.all validName = true ∧ base.length + pathLen o.1 < MAX_PATH ∧ o.1.length < fuel := by
    intro o ho
    obtain ⟨i, hi, rfl⟩ := List.mem_map.1 ho
    obtain ⟨_, h2, _, h4, h5⟩ := hins i hi
    refine ⟨by simp [createdObj], h5, ?_, h4, ?_⟩
    · simp only [createdObj, List.all_append, hbv, List.all_cons, h2, List.all_nil, Bool.and_self]
    · simp only [createdObj, List.length_append, List.length_cons, List.length_nil]
      omega
  have hndo : ((ins.map (createdObj b)).map Prod.fst).Nodup := createdObj_nodup b ins hnd
  -- the undos
  rw [hrun1] at hfr1
  obtain ⟨s2, files2, hrun2, hfs2, hcnt2⟩ := undo_all_run strcoll fuel base b perm s0.fs hv hX
    hW hwf hb hd hs
    (ins.take MAX_UNDO) ((ins.drop MAX_UNDO).map (createdObj b)) s1 files
    (by rw [hmap]; exact hfs1)
    (by rw [hc1, htl, hn]; simp [MAX_UNDO])
    (by
      intro k x hx
      have hk : k < MAX_UNDO := by
        have := (List.getElem?_eq_some_iff.1 hx).1
        rw [htl] at this
        exact this
      have hx2 : ins[k]? = some x := by
        rw [List.getElem?_take_of_lt hk] at hx
        exact hx
      have := hslots1 k x hx2 (by omega)
      rw [Nat.zero_add] at this
      obtain ⟨a, ha, hty, hpa⟩ := this
      exact ⟨a, ha, hty, hpa, hfr1 a (mem_of_get_some _ _ _ ha)⟩)
    (fun i hi => ⟨(hins i (List.mem_of_mem_take hi)).1, (hins i (List.mem_of_mem_take hi)).2.1⟩)
    (by rw [hmap]; exact hobj)
    (by rw [hmap]; exact hndo)
  rw [htl] at hrun2
  have hRlen : ∀ o ∈ (ins.drop MAX_UNDO).map (createdObj b), o.1.length = b.length + 1 :=
    fun o ho => (hobj o (List.map_subset _ (List.drop_subset _ _) ho)).1
  have hb2 : (s0.fs.plus ((ins.drop MAX_UNDO).map (createdObj b))).namei base = some b :=
    plus_namei s0.fs _ base b hv hb hRlen
  have hsb2 : (s0.fs.plus ((ins.drop MAX_UNDO).map (createdObj b))).searchable b = true := by
    unfold FS.searchable
    rw [plus_get_short s0.fs _ b b hRlen (le_refl _), hd]
    exact hX
  have hnj : ∀ i ∈ ins, (s0.fs.plus ((ins.drop MAX_UNDO).map (createdObj b))).namei
      (base ++ '/' :: i.1) = some (b ++ [i.1]) := by
    intro i hi
    rw [namei_join _ base i.1 b hb2 (hins i hi).2.1, hsb2]
    rfl
  have hnd3 : (ins.take MAX_UNDO).map Prod.fst ++ (ins.drop MAX_UNDO).map Prod.fst
      = ins.map Prod.fst := by
    rw [← List.map_append, hsplit]
  refine ⟨s1, s2, files2, ?_, hrun2, by rw [hfs2]; rfl, hcnt2, ?_, ?_, ?_⟩
  · rw [hrun1, hn]
  · rw [hfs2]
    intro i hi
    have him := List.mem_of_mem_take hi
    have hg : (s0.fs.plus ((ins.drop MAX_UNDO).map (createdObj b))).get (b ++ [i.1]) = none := by
      rw [plus_get_old]
      · exact (hins i him).2.2.2.2
      · intro o ho e
        obtain ⟨j, hj, rfl⟩ := List.mem_map.1 ho
        simp only [createdObj, List.append_cancel_left_eq, List.cons.injEq, and_true] at e
        rw [← hnd3] at hnd
        exact (List.nodup_append.1 hnd).2.2 (List.mem_map.2 ⟨i, hi, rfl⟩)
          (List.mem_map.2 ⟨j, hj, e⟩)
    simp only [lstat, hnj i him, hg, Option.map_none']
  · rw [hfs2]
    intro i hi
    have him := List.mem_of_mem_drop hi
    have hg : (s0.fs.plus ((ins.drop MAX_UNDO).map (createdObj b))).get (b ++ [i.1])
        = some (createdInode i.2) := by
      apply plus_get_new s0.fs _ _ _ (hins i him).2.2.2.2
      · apply createdObj_nodup
        rw [← hnd3] at hnd
        exact (List.nodup_append.1 hnd).2.1
      · exact List.mem_map.2 ⟨i, hi, rfl⟩
    simp only [lstat, hnj i him, hg, Option.map_some']
  · unfold undo_last_action
    simp [hcnt2]

set_option maxRecDepth 100000 in
theorem createDemo_nodup : (createDemo.map Prod.fst).Nodup := by
  decide

set_option maxRecDepth 100000 in
theorem createDemo_first : (bigName 0, ObjKey.f) ∈ createDemo.take MAX_UNDO := by
  decide

set_option maxRecDepth 100000 in
theorem createDemo_last : (bigName 100, ObjKey.f) ∈ createDemo.drop MAX_UNDO := by
  decide

set_option maxRecDepth 100000 in
theorem createDemo_inputs : ∀ i ∈ createDemo, i.2 ≠ .l ∧ validName i.1 = true ∧
    i.1.length < 256 ∧ ['/', 'r'].length + pathLen ([['r']] ++ [i.1]) < MAX_PATH ∧
    stateDemo.fs.get ([['r']] ++ [i.1]) = none := by
  decide

theorem createDemo_length : createDemo.length = MAX_UNDO + 1 := by
  simp [createDemo]

/-- The run of `create_undo_run` on `createDemo` below `/r`. -/
theorem createDemo_run : ∃ s1 s2 files2,
    create_all stateDemo ['/', 'r'] createDemo = (List.replicate (MAX_UNDO + 1) 0, s1) ∧
    undo_all strcoll_C 4 ['/', 'r'] MAX_UNDO s1 []
      = .ok (List.replicate MAX_UNDO 0, s2, files2) ∧
    lstat s2.fs (['/', 'r'] ++ '/' :: bigName 0) = none ∧
    lstat s2.fs (['/', 'r'] ++ '/' :: bigName 100) = some (createdInode ObjKey.f).stat := by
  obtain ⟨s1, s2, files2, h1, h2, _, _, h5, h6, _⟩ :=
    create_undo_run strcoll_C 4 stateDemo ['/', 'r'] [['r']] 0o755 createDemo []
      (by decide) (by decide) (by decide) createDemo_length (by decide) (by decide) (by decide) (by decide)
      (by decide) (by decide) (by decide) (by decide) createDemo_inputs createDemo_nodup
  exact ⟨s1, s2, files2, h1, h2, h5 _ createDemo_first, h6 _ createDemo_last⟩

/-- C12: with size-sort enabled and different sizes `compare_files` returns -1
when `a` is larger and 1 when `b` is larger, so the larger entry comes first
(the result is negative exactly when `a.size > b.size`); with size-sort disabled
or equal sizes the result is the collation of the display paths; hence for
entries of equal size the result does not depend on the size-sort flag. -/
theorem compare_files_orders_by_size_then_path (strcoll : CStr → CStr → Int)
    (fa fb : FileInfo) :
    (fa.size ≠ fb.size →
      (fa.size > fb.size → compare_files strcoll true fa fb = -1) ∧
      (fa.size < fb.size → compare_files strcoll true fa fb = 1) ∧
      (compare_files strcoll true fa fb < 0 ↔ fa.size > fb.size)) ∧
    (fa.size = fb.size →
      compare_files strcoll true fa fb = strcoll fa.display_path fb.display_path) ∧
    compare_files strcoll false fa fb = strcoll fa.display_path fb.display_path ∧
    (fa.size = fb.size →
      compare_files strcoll true fa fb = compare_files strcoll false fa fb) := by
  refine ⟨?_, ?_, ?_, ?_⟩
  · intro hne
    have hne2 : (fb.size != fa.size) = true := by
      simp only [bne_iff_ne, ne_eq]; exact fun e => hne e.symm
    have hlt : fa.size < fb.size ∨ fb.size < fa.size := lt_or_gt_of_ne hne
    unfold compare_files
    simp only [Bool.true_and, hne2, if_true]
    rcases hlt with h | h
    · have h2 : fb.size > fa.size := h
      rw [if_pos h2]
      exact ⟨fun h3 => by omega, fun _ => rfl, fun h3 => by omega, fun h3 => by omega⟩
    · have h2 : ¬ fb.size > fa.size := not_lt.2 (le_of_lt h)
      rw [if_neg h2]
      exact ⟨fun _ => rfl, fun h3 => by omega, fun _ => h, fun _ => by omega⟩
  · intro he
    unfold compare_files
    simp [he]
  · unfold compare_files
    simp
  · intro he
    unfold compare_files
    simp [he]

/-- C13: at the two thresholds `format_size` still uses the smaller unit: 1024
bytes are shown as "1024 B" and 1048576 bytes as "1024.0 KB", while one byte
more gives "1.0 KB" and "1.0 MB". -/
theorem format_size_threshold_uses_smaller_unit :
    format_size 1024 = "1024 B".toList ∧ format_size 1048576 = "1024.0 KB".toList ∧
    format_size 1025 = "1.0 KB".toList ∧ format_size 1048577 = "1.0 MB".toList := by
  decide

/-- C14: a scan of the file system root `/` that holds the file `a` gives the
entry the display path `/a`, equal to its full path: `clean_path` takes the
verbatim branch and the display path is not prefixed with `.`. -/
theorem scan_of_root_gives_absolute_display_path :
    dirwalk (State.init fsRoot false false false false) 2 ['/'] [] ['/']
      = .ok (0, [⟨"/a".toList, "/a".toList, 0, 0o100644⟩]) ∧
    clean_path (join_path MAX_PATH ['/'] ['a']) ['/'] = ("/a".toList, "/a".toList) := by
  decide

/-- C15: the snapshot of `/r` (holding `a.txt` and the directory `d` with
`d/x.txt`) ends with count 3, but slot 1 holds the node of `d/x.txt`, which has
overwritten the marker of `d`, and slot 2 is left unset. -/
theorem snapshot_of_nested_directory_loses_marker :
    (fsDemo "hello".toList).descendants [['r']] =
      [([['r'], "a.txt".toList], .reg 0o644 "hello".toList), ([['r'], ['d']], .dir 0o755),
       ([['r'], ['d'], "x.txt".toList], .reg 0o644 "42".toList)] ∧
    (save_directory_contents (fsDemo "hello".toList) 3 "/r".toList
      (List.replicate MAX_DIR_CONTENTS none) 0).map (fun r => (r.1, r.2.2, r.2.1.take 3))
    = .ok (0, 3, [some ⟨some "/r/a.txt".toList, some ("hello".toList ++ [NUL]), 0⟩,
        some ⟨some "/r/d/x.txt".toList, some ("42".toList ++ [NUL]), 0⟩, none]) := by
  decide

/-- C19: copying from `/r/missing`, which does not exist, to the existing file
`/r/a.txt` holding "hello" returns -1 and leaves `a.txt` empty; copying to the
free name `/r/new` returns -1 and leaves an empty file `new` behind.  The undo
stack is the same after every call. -/
theorem copy_from_missing_source_truncates_destination :
    (copy_file (mainDemo "hello".toList 0).s "/r/missing".toList "/r/a.txt".toList).1 = -1 ∧
    (mainDemo "hello".toList 0).s.fs.get ["r".toList, "a.txt".toList]
      = some (.reg 0o644 "hello".toList) ∧
    (copy_file (mainDemo "hello".toList 0).s "/r/missing".toList "/r/a.txt".toList).2.fs.get
      ["r".toList, "a.txt".toList] = some (.reg 0o644 []) ∧
    (copy_file (mainDemo "hello".toList 0).s "/r/missing".toList "/r/new".toList).1 = -1 ∧
    (mainDemo "hello".toList 0).s.fs.get ["r".toList, "new".toList] = none ∧
    (copy_file (mainDemo "hello".toList 0).s "/r/missing".toList "/r/new".toList).2.fs.get
      ["r".toList, "new".toList] = some (.reg 0o666 []) ∧
    (∀ (s : State) (src dst : CStr), (copy_file s src dst).2.undo_stack = s.undo_stack ∧
      (copy_file s src dst).2.undo_count = s.undo_count) := by
  refine ⟨by decide, by decide, by decide, by decide, by decide, by decide, ?_⟩
  intro s src dst
  unfold copy_file
  cases fopen_r s.fs src <;> cases fopen_w s.fs dst <;> exact ⟨rfl, rfl⟩

/-- C20: deleting the directory `/r/d`, which holds `x.txt`, succeeds and takes
only the entry of `d` out of the collection: the entry of `/r/d/x.txt` stays
although nothing is at that path any more, and a rescan lists only `a.txt`. -/
theorem delete_directory_leaves_stale_entries :
    (mainDemo "hello".toList 1).files.map (fun f => f.full_path)
      = ["/r/a.txt".toList, "/r/d".toList, "/r/d/x.txt".toList] ∧
    (delete_command layZero 4 (mainDemo "hello".toList 1) true).map
      (fun m1 => (m1.status, m1.files.map (fun f => f.full_path),
        lstat m1.s.fs "/r/d/x.txt".toList,
        (dirwalk m1.s 4 "/r".toList [] "/r".toList).map
          (fun r => (qsort (compare_files strcoll_C m1.s.sort_by_size) r.2).map
            (fun f => f.full_path))))
    = .ok ("Directory deleted", ["/r/a.txt".toList, "/r/d/x.txt".toList], none,
        .ok ["/r/a.txt".toList]) := by
  decide

theorem push_slot_self (s : State) (a : UndoAction) (h0 : 0 ≤ s.undo_count)
    (h1 : s.undo_count < (MAX_UNDO : Int)) (hlen : s.undo_stack.length = MAX_UNDO) :
    (s.push a).slot s.undo_count = a := by
  have := slot_push s a h0 h1 hlen
  rw [undo_count_push, add_sub_cancel_right] at this
  exact this

/-- The record the delete command pushes, read off `delete_object`. -/
theorem delete_command_pushed (lay : Layout) (fuel : Nat) (m m1 : Main) (e : FileInfo)
    (hsel : 0 ≤ m.selected) (he : m.files.get? m.selected.toNat = some e)
    (hc0 : 0 ≤ m.s.undo_count) (hlen : m.s.undo_stack.length = MAX_UNDO)
    (hrun : delete_command lay fuel m true = .ok m1)
    (hpush : m1.s.undo_count = m.s.undo_count + 1) :
    ∃ content slots count fs1 dc,
      delete_object fuel m.s.fs e = .ok (true, content, slots, count, fs1) ∧
      (if count > 0 then (memcpy_contents lay slots count).map some else .ok none) = .ok dc ∧
      m1.s.slot m.s.undo_count = { m.s.slot m.s.undo_count with
        type := .ACTION_DELETE, path := e.full_path, content := content,
        dir_contents := dc, dir_content_count := count } := by
  unfold delete_command at hrun
  have hlt : m.selected < (m.files.length : Int) := by
    have := (List.get?_eq_some.1 he).1
    omega
  simp only [hsel, hlt, and_self, if_true, he] at hrun
  cases hd : delete_object fuel m.s.fs e with
  | error err => simp [hd] at hrun
  | ok r =>
    obtain ⟨success, content, slots, count, fs1⟩ := r
    simp only [hd] at hrun
    cases success with
    | false =>
      simp only [Bool.false_eq_true, if_false] at hrun
      cases hf : free_contents slots count with
      | error err => simp [hf, Except.map] at hrun
      | ok u =>
        simp only [hf, Except.map, Except.ok.injEq] at hrun
        subst hrun
        simp at hpush
    | true =>
      simp only [if_true] at hrun
      by_cases hfull : m.s.undo_count < (MAX_UNDO : Int)
      · simp only [hfull, if_true] at hrun
        cases hcp : (if count > 0 then (memcpy_contents lay slots count).map some
            else (.ok none : Except Abort (Option (List DirContent)))) with
        | error err => simp [hcp] at hrun
        | ok dc =>
          simp only [hcp, Except.ok.injEq] at hrun
          subst hrun
          refine ⟨content, slots, count, fs1, dc, rfl, hcp, ?_⟩
          exact push_slot_self { m.s with fs := fs1 } _ hc0 hfull hlen
      · simp only [hfull, if_false] at hrun
        cases hf : free_contents slots count with
        | error err => simp [hf, Except.map] at hrun
        | ok u =>
          simp only [hf, Except.map, Except.ok.injEq] at hrun
          subst hrun
          simp at hpush

theorem delete_object_shape (fuel : Nat) (fs : FS) (e : FileInfo) (content : Option (List Char))
    (slots : List (Option DirContent)) (count : Nat) (fs1 : FS)
    (h : delete_object fuel fs e = .ok (true, content, slots, count, fs1)) :
    (S_ISREG e.mode = true → content = read_file fs e.full_path ∧ count = 0) ∧
    (S_ISDIR e.mode = true → content = none) ∧
    (S_ISREG e.mode = false → S_ISDIR e.mode = false → content = none ∧ count = 0) := by
  unfold delete_object at h
  by_cases hr : S_ISREG e.mode = true
  · have hd : S_ISDIR e.mode = false := by
      unfold S_ISREG at hr; unfold S_ISDIR
      simp only [beq_iff_eq] at hr
      simp [hr]
    simp only [hr, if_true] at h
    cases hu : unlink fs e.full_path with
    | none => simp [hu] at h
    | some fs2 =>
      simp only [hu, Except.ok.injEq, Prod.mk.injEq, true_and] at h
      refine ⟨fun _ => ⟨h.1.symm, h.2.2.1.symm⟩, fun h2 => ?_, fun h2 => ?_⟩
      · rw [hd] at h2; cases h2
      · rw [hr] at h2; cases h2
  · have hr2 : S_ISREG e.mode = false := by simpa using hr
    simp only [hr2, Bool.false_eq_true, if_false] at h
    by_cases hd : S_ISDIR e.mode = true
    · simp only [hd, if_true] at h
      cases hs : save_directory_contents fs fuel e.full_path
          (List.replicate MAX_DIR_CONTENTS none) 0 with
      | error err => simp [hs] at h
      | ok r =>
        obtain ⟨c, sl, cnt⟩ := r
        simp only [hs] at h
        cases hrm : remove_directory fuel fs e.full_path with
        | error err => simp [hrm] at h
        | ok r2 =>
          simp only [hrm, Except.ok.injEq, Prod.mk.injEq] at h
          refine ⟨fun h2 => ?_, fun _ => h.2.1.symm, fun _ h2 => ?_⟩
          · rw [hr2] at h2; cases h2
          · rw [hd] at h2; cases h2
    · have hd2 : S_ISDIR e.mode = false := by simpa using hd
      simp only [hd2, Bool.false_eq_true, if_false] at h
      cases hu : unlink fs e.full_path with
      | none => simp [hu] at h
      | some fs2 =>
        simp only [hu, Except.ok.injEq, Prod.mk.injEq, true_and] at h
        refine ⟨fun h2 => ?_, fun h2 => ?_, fun _ _ => ⟨h.1.symm, h.2.2.1.symm⟩⟩
        · rw [hr2] at h2; cases h2
        · rw [hd2] at h2; cases h2

/-- C17 (amended): every Delete record pushed by the delete command never holds
both content and snapshot.  For a regular file it holds the content when the
file could be opened for reading (what `read_file` returned) and no snapshot;
for a directory it holds no content, and a snapshot exactly when the captured
count is positive; for a symbolic link or any other object it holds neither. -/
theorem delete_record_holds_content_or_snapshot (lay : Layout) (fuel : Nat) (m m1 : Main)
    (e : FileInfo)
    (hsel : 0 ≤ m.selected) (he : m.files.get? m.selected.toNat = some e)
    (hc0 : 0 ≤ m.s.undo_count) (hlen : m.s.undo_stack.length = MAX_UNDO)
    (hrun : delete_command lay fuel m true = .ok m1)
    (hpush : m1.s.undo_count = m.s.undo_count + 1) :
    (m1.s.slot m.s.undo_count).type = .ACTION_DELETE ∧
    (m1.s.slot m.s.undo_count).path = e.full_path ∧
    ((m1.s.slot m.s.undo_count).content = none ∨
      (m1.s.slot m.s.undo_count).dir_contents = none) ∧
    (S_ISREG e.mode = true →
      (m1.s.slot m.s.undo_count).content = read_file m.s.fs e.full_path ∧
      (m1.s.slot m.s.undo_count).dir_contents = none) ∧
    (S_ISDIR e.mode = true →
      (m1.s.slot m.s.undo_count).content = none ∧
      ((m1.s.slot m.s.undo_count).dir_contents.isSome = true ↔
        (m1.s.slot m.s.undo_count).dir_content_count > 0)) ∧
    (S_ISREG e.mode = false → S_ISDIR e.mode = false →
      (m1.s.slot m.s.undo_count).content = none ∧
      (m1.s.slot m.s.undo_count).dir_contents = none) := by
  obtain ⟨content, slots, count, fs1, dc, hobj, hdc, hslot⟩ :=
    delete_command_pushed lay fuel m m1 e hsel he hc0 hlen hrun hpush
  obtain ⟨hreg, hdir, hoth⟩ := delete_object_shape fuel m.s.fs e content slots count fs1 hobj
  have hdc0 : count = 0 → dc = none := by
    intro h0
    subst h0
    simp only [gt_iff_lt, lt_self_iff_false, if_false, Except.ok.injEq] at hdc
    exact hdc.symm
  have hdc1 : dc.isSome = true ↔ ((count : Nat) : Int) > 0 := by
    by_cases h0 : count > 0
    · simp only [h0, if_true] at hdc
      cases hm : memcpy_contents lay slots count with
      | error err => simp [hm, Except.map] at hdc
      | ok l =>
        simp only [hm, Except.map, Except.ok.injEq] at hdc
        subst hdc
        simp only [Option.isSome_some, true_iff]
        exact_mod_cast h0
    · have h1 : count = 0 := by omega
      rw [hdc0 h1, h1]
      simp
  rw [hslot]
  refine ⟨rfl, rfl, ?_, ?_, ?_, ?_⟩
  · by_cases hr : S_ISREG e.mode = true
    · exact Or.inr (hdc0 (hreg hr).2)
    · by_cases hd : S_ISDIR e.mode = true
      · exact Or.inl (hdir hd)
      · exact Or.inl (hoth (by simpa using hr) (by simpa using hd)).1
  · intro hr
    exact ⟨(hreg hr).1, hdc0 (hreg hr).2⟩
  · intro hd
    exact ⟨hdir hd, hdc1⟩
  · intro hr hd
    exact ⟨(hoth hr hd).1, hdc0 (hoth hr hd).2⟩

/-- C17, witness: deleting `a.txt` holding "hello" pushes a record with the
content and without a snapshot. -/
theorem delete_record_holds_content_or_snapshot_witness :
    (((delete_command layZero 4 (mainDemo "hello".toList 0) true).toOption.getD
        (mainDemo "hello".toList 0)).s.slot 0).type = .ACTION_DELETE ∧
    (((delete_command layZero 4 (mainDemo "hello".toList 0) true).toOption.getD
        (mainDemo "hello".toList 0)).s.slot 0).content = some ("hello".toList ++ [NUL]) ∧
    (((delete_command layZero 4 (mainDemo "hello".toList 0) true).toOption.getD
        (mainDemo "hello".toList 0)).s.slot 0).dir_contents = none :=
  have h := delete_record_holds_content_or_snapshot layZero 4 (mainDemo "hello".toList 0)
    ((delete_command layZero 4 (mainDemo "hello".toList 0) true).toOption.getD
      (mainDemo "hello".toList 0))
    (entryDemo "/a.txt" 5 0o100644) (by decide) (by decide) (by decide) (by decide)
    (by decide) (by decide)
  ⟨h.1, (h.2.2.2.1 (by decide)).1.trans (by decide), (h.2.2.2.1 (by decide)).2⟩

/-- C17, counterexample: deleting the empty directory `/r/d` pushes a Delete
record that holds neither content nor snapshot. -/
theorem delete_empty_directory_record_has_no_snapshot :
    S_ISDIR 0o040755 = true ∧
    (delete_command layZero 3 mainEmptyDir true).map
      (fun m1 => (m1.status, m1.s.undo_count, m1.s.slot 0))
    = .ok ("Directory deleted", 1,
        ⟨.ACTION_DELETE, "/r/d".toList, .null, 0, none, none, 0⟩) := by
  decide

/-- C18 (amended): when the top undo record is a Rename or Move and renaming
`path` back to `old_path` fails, `undo_last_action` still returns 0, the same
as for a reversal that worked; the file system is left as it was and the record
is removed, so `undo_count` decreases by exactly one (the slot keeps the
pointer `old_path`, now freed). -/
theorem undo_failed_rename_returns_zero (strcoll : CStr → CStr → Int) (fuel : Nat) (s : State)
    (files : List FileInfo) (base : CStr) (op : CStr)
    (hc : s.undo_count ≠ 0)
    (hty : (s.slot (s.undo_count - 1)).type = .ACTION_RENAME ∨
      (s.slot (s.undo_count - 1)).type = .ACTION_MOVE)
    (hop : (s.slot (s.undo_count - 1)).old_path = .live op)
    (hfail : rename s.fs (s.slot (s.undo_count - 1)).path op = none)
    (hscan : s.fs.scannable base fuel = true) :
    ∃ files2, undo_last_action strcoll fuel s files base
      = .ok (0, { s with
          undo_stack := s.undo_stack.set (s.undo_count - 1).toNat
            { s.slot (s.undo_count - 1) with old_path := .freed },
          undo_count := s.undo_count - 1 }, files2) := by
  have heff : undo_effect fuel s.fs (s.slot (s.undo_count - 1)) = .ok s.fs := by
    unfold undo_effect
    rcases hty with h | h <;> simp only [h, hop, hfail]
  have hfree : free_action (s.slot (s.undo_count - 1))
      = .ok { s.slot (s.undo_count - 1) with old_path := .freed } := by
    unfold free_action
    rw [hop]
  exact undo_last_action_run strcoll fuel s files base s.fs _ hc heff hfree hscan

/-- C18, witness: `a.txt` was renamed to `b.txt`, then `b.txt` was removed;
undo returns 0 and pops the record. -/
theorem undo_failed_rename_returns_zero_witness :
    ∃ files2, undo_last_action strcoll_C 4 stateRenamed [] "/r".toList
      = .ok (0, { stateRenamed with
          undo_stack := stateRenamed.undo_stack.set (stateRenamed.undo_count - 1).toNat
            { stateRenamed.slot (stateRenamed.undo_count - 1) with old_path := .freed },
          undo_count := stateRenamed.undo_count - 1 }, files2) :=
  undo_failed_rename_returns_zero strcoll_C 4 stateRenamed [] "/r".toList "/r/a.txt".toList
    (by decide) (by decide) (by decide) (by decide) (by decide)

/-- C18, counterexample: the top record is the Rename of `/r/a.txt` to
`/r/b.txt`, and `/r/b.txt` no longer exists, so renaming back fails; the
result of `undo_last_action` is 0 all the same, and the count goes from 1 to 0. -/
theorem undo_failed_rename_is_not_reported :
    stateRenamed.undo_count = 1 ∧
    (stateRenamed.slot 0).type = .ACTION_RENAME ∧
    (stateRenamed.slot 0).path = "/r/b.txt".toList ∧
    (stateRenamed.slot 0).old_path = .live "/r/a.txt".toList ∧
    rename stateRenamed.fs "/r/b.txt".toList "/r/a.txt".toList = none ∧
    (undo_last_action strcoll_C 4 stateRenamed [] "/r".toList).map
      (fun r => (r.1, r.2.1.undo_count, r.2.1.fs)) = .ok (0, 0, stateRenamed.fs) := by
  decide

/-- The loop of `save_directory_contents` over names none of which is a
directory: the count grows by one per name until it reaches
`MAX_DIR_CONTENTS`. -/
theorem save_loop_flat (fs : FS)
    (recur : CStr → List (Option DirContent) → Nat →
      Except Abort (Int × List (Option DirContent) × Nat)) (path : CStr)
    (names : List CStr)
    (hn : ∀ n ∈ names, is_dot n = false ∧
      ∃ st, lstat fs (join_path MAX_PATH path n) = some st ∧ S_ISDIR st.st_mode = false) :
    ∀ (contents : List (Option DirContent)) (count : Nat), count ≤ MAX_DIR_CONTENTS →
      ∃ out, save_loop fs recur path names contents count
          = .ok (0, out, min (count + names.length) MAX_DIR_CONTENTS) ∧
        out.length = contents.length := by
  induction names with
  | nil =>
    intro contents count hc
    refine ⟨contents, ?_, rfl⟩
    simp only [save_loop, List.length_nil, Nat.add_zero, Nat.min_eq_left hc]
  | cons n rest ih =>
    intro contents count hc
    obtain ⟨hdot, st, hl, hd⟩ := hn n (List.mem_cons_self _ _)
    have ih2 := ih (fun x hx => hn x (List.mem_cons_of_mem _ hx))
    unfold save_loop
    by_cases hlt : count < MAX_DIR_CONTENTS
    · simp only [hlt, not_true_eq_false, if_false, hdot, Bool.false_eq_true, hl, hd]
      have hm : min (count + (n :: rest).length) MAX_DIR_CONTENTS
          = min (count + 1 + rest.length) MAX_DIR_CONTENTS := by
        simp only [List.length_cons]; congr 1; omega
      rw [hm]
      split
      · obtain ⟨out, ho, hlen⟩ := ih2 ((contents.set count (some
          ⟨some (join_path MAX_PATH path n), none, 0⟩)).set count (some
            { (⟨some (join_path MAX_PATH path n), none, 0⟩ : DirContent) with
              content := read_file fs (join_path MAX_PATH path n) })) (count + 1) hlt
        exact ⟨out, ho, by rw [hlen]; simp⟩
      · obtain ⟨out, ho, hlen⟩ := ih2 (contents.set count (some
          ⟨some (join_path MAX_PATH path n), none, 0⟩)) (count + 1) hlt
        exact ⟨out, ho, by rw [hlen]; simp⟩
    · simp only [hlt, not_false_eq_true, if_true]
      refine ⟨contents, ?_, rfl⟩
      have : min (count + (n :: rest).length) MAX_DIR_CONTENTS = count := by
        simp only [List.length_cons]; omega
      rw [this]

/-- The snapshot of `/r` of `fsBig n`, whose directory `d` holds at least
`MAX_DIR_CONTENTS` files: the count ends one above the capacity. -/
theorem save_big (n : Nat) (hn : MAX_DIR_CONTENTS ≤ n) :
    ∃ out, save_directory_contents (fsBig n) 3 ['/', 'r']
        (List.replicate MAX_DIR_CONTENTS none) 0 = .ok (0, out, MAX_DIR_CONTENTS + 1) := by
  have hflat := save_loop_flat (fsBig n)
    (fun p c k => save_directory_contents (fsBig n) 1 p c k)
    ['/', 'r', '/', 'd'] ((List.range n).map bigName)
    (by
      intro m hm
      simp only [List.mem_map, List.mem_range] at hm
      obtain ⟨k, hk, rfl⟩ := hm
      obtain ⟨hj, hl⟩ := fsBig_lstat_file n k hk
      exact ⟨is_dot_of_valid _ (bigName_valid k), (Inode.reg 0o644 []).stat,
        by rw [hj]; exact hl, by decide⟩)
    ((List.replicate MAX_DIR_CONTENTS none).set 0
      (some ⟨some ['/', 'r', '/', 'd'], none, 1⟩)) 0 (Nat.zero_le _)
  obtain ⟨out, ho, _⟩ := hflat
  refine ⟨out, ?_⟩
  have hmin : min (0 + ((List.range n).map bigName).length) MAX_DIR_CONTENTS
      = MAX_DIR_CONTENTS := by
    simp only [List.length_map, List.length_range]; omega
  rw [hmin] at ho
  have hsub : save_directory_contents (fsBig n) 2 ['/', 'r', '/', 'd']
      ((List.replicate MAX_DIR_CONTENTS none).set 0
        (some ⟨some ['/', 'r', '/', 'd'], none, 1⟩)) 0 = .ok (0, out, MAX_DIR_CONTENTS) := by
    unfold save_directory_contents
    have hop := opendir_dir (fsBig n) ['/', 'r', '/', 'd'] _ 0o755 (fsBig_namei_d n)
      (fsBig_get_d n) (by decide)
    rw [hop, fsBig_children_d]
    simp only
    unfold save_loop
    have h0 : (0 : Nat) < MAX_DIR_CONTENTS := by decide
    simp only [h0, not_true_eq_false, if_false, is_dot, beq_self_eq_true, Bool.true_or, if_true]
    unfold save_loop
    simp only [h0, not_true_eq_false, if_false, is_dot, beq_self_eq_true, Bool.or_true, if_true]
    exact ho
  unfold save_directory_contents
  have hop := opendir_dir (fsBig n) ['/', 'r'] _ 0o755 (fsBig_namei_r n) (fsBig_get_r n)
    (by decide)
  rw [hop, fsBig_children_r]
  simp only
  have h0 : (0 : Nat) < MAX_DIR_CONTENTS := by decide
  unfold save_loop
  simp only [h0, not_true_eq_false, if_false, is_dot, beq_self_eq_true, Bool.true_or, if_true]
  unfold save_loop
  simp only [h0, not_true_eq_false, if_false, is_dot, beq_self_eq_true, Bool.or_true, if_true]
  unfold save_loop
  have hdot : is_dot ['d'] = false := by decide
  have hj : join_path MAX_PATH ['/', 'r'] ['d'] = ['/', 'r', '/', 'd'] := by decide
  have hl : lstat (fsBig n) ['/', 'r', '/', 'd'] = some (Inode.dir 0o755).stat := by
    simp only [lstat, fsBig_namei_d, fsBig_get_d, Option.map_some']
  have hd : S_ISDIR (Inode.dir 0o755).stat.st_mode = true := by decide
  have hr : S_ISREG (Inode.dir 0o755).stat.st_mode = false := by decide
  simp only [h0, not_true_eq_false, if_false, hdot, Bool.false_eq_true, hj, hl, hd, hr, if_true]
  rw [hsub]
  simp only [save_loop]

/-- C16: the snapshot of `/r`, whose only entry is the directory `d` holding
1000 regular files, ends with the count 1001, above `MAX_DIR_CONTENTS`: the
loop inside `d` stops at 1000 and the caller still adds one for `d`.  With
that count the `memcpy` of the delete command and the loops that free the
snapshot read past the 1000 slots of the array. -/
theorem snapshot_count_exceeds_capacity (lay : Layout) :
    ∃ out, save_directory_contents (fsBig 1000) 3 "/r".toList
        (List.replicate MAX_DIR_CONTENTS none) 0 = .ok (0, out, 1001) ∧
      memcpy_contents lay out 1001 = .error .undefinedBehaviour ∧
      free_contents out 1001 = .error .undefinedBehaviour := by
  obtain ⟨out, ho⟩ := save_big 1000 (by decide)
  refine ⟨out, ho, ?_, ?_⟩
  · unfold memcpy_contents
    rw [if_pos (by decide)]
  · unfold free_contents
    rw [if_neg]
    intro h
    rw [List.all_eq_true] at h
    have := h 1000 (List.mem_range.2 (by decide))
    simp [MAX_DIR_CONTENTS] at this

theorem match_type_noFilter (s : State) (st : Stat) : match_type s.noFilter st = true :=
  match_type_no_flags s.noFilter st rfl rfl rfl

/-- One step of the loop of `dirwalk` at an entry that `lstat` finds, below the
limit. -/
theorem dirwalk_loop_step (s : State)
    (recur : CStr → List FileInfo → Except Abort (Int × List FileInfo)) (path base : CStr)
    (n : CStr) (rest : List CStr) (files : List FileInfo) (st : Stat)
    (hdot : is_dot n = false) (hl : lstat s.fs (join_path MAX_PATH path n) = some st)
    (hlim : files.length < MAX_FILES) :
    dirwalk_loop s recur path base (n :: rest) files =
      if S_ISDIR st.st_mode then
        match recur (join_path MAX_PATH path n)
          (if match_type s st then files ++ [visitEntry base (join_path MAX_PATH path n, st)]
            else files) with
        | .error e => .error e
        | .ok r => dirwalk_loop s recur path base rest r.2
      else dirwalk_loop s recur path base rest
        (if match_type s st then files ++ [visitEntry base (join_path MAX_PATH path n, st)]
          else files) := by
  rw [dirwalk_loop]
  have hge : decide (files.length ≥ MAX_FILES) = false := by
    simp only [ge_iff_le, decide_eq_false_iff_not, not_le]; exact hlim
  simp only [hdot, Bool.false_eq_true, if_false, hl, hge, Bool.and_false]
  rfl

theorem visit_loop_step (fs : FS) (vrec : CStr → List (CStr × Stat)) (path : CStr)
    (n : CStr) (rest : List CStr) (st : Stat)
    (hdot : is_dot n = false) (hl : lstat fs (join_path MAX_PATH path n) = some st) :
    visit_loop fs vrec path (n :: rest) =
      (join_path MAX_PATH path n, st) ::
        ((if S_ISDIR st.st_mode then vrec (join_path MAX_PATH path n) else []) ++
          visit_loop fs vrec path rest) := by
  rw [visit_loop]
  simp only [hdot, Bool.false_eq_true, if_false, hl]

/-- The loop of `dirwalk` against `visit_loop`: when the unfiltered loop
returns and all visited entries fit, it has appended the entries of all visited
paths, and the loop under the flags of `s` appends those that pass
`match_type`. -/
theorem dirwalk_loop_visit (s : State)
    (recur0 recur : CStr → List FileInfo → Except Abort (Int × List FileInfo))
    (vrec : CStr → List (CStr × Stat)) (path base : CStr)
    (hrec : ∀ p fl0 r0, recur0 p fl0 = .ok r0 → ∀ fl : List FileInfo,
      fl.length ≤ fl0.length → fl0.length + (vrec p).length ≤ MAX_FILES →
      r0.2 = fl0 ++ (vrec p).map (visitEntry base) ∧
      ∃ c, recur p fl = .ok (c, fl ++
        ((vrec p).filter (fun v => match_type s v.2)).map (visitEntry base)))
    (names : List CStr) :
    ∀ (files0 files : List FileInfo) (r0 : Int × List FileInfo),
      dirwalk_loop s.noFilter recur0 path base names files0 = .ok r0 →
      files.length ≤ files0.length →
      files0.length + (visit_loop s.fs vrec path names).length ≤ MAX_FILES →
      r0 = (0, files0 ++ (visit_loop s.fs vrec path names).map (visitEntry base)) ∧
      dirwalk_loop s recur path base names files = .ok (0, files ++
        ((visit_loop s.fs vrec path names).filter (fun v => match_type s v.2)).map
          (visitEntry base)) := by
  induction names with
  | nil =>
    intro files0 files r0 h0 _ _
    simp only [dirwalk_loop, Except.ok.injEq] at h0
    simp [dirwalk_loop, visit_loop, ← h0]
  | cons n rest ih =>
    intro files0 files r0 h0 hlen hlim
    by_cases hdot : is_dot n = true
    · rw [dirwalk_loop] at h0 ⊢
      rw [visit_loop] at hlim ⊢
      simp only [hdot, if_true] at h0 hlim ⊢
      exact ih files0 files r0 h0 hlen hlim
    · have hdot2 : is_dot n = false := by simpa using hdot
      cases hl : lstat s.fs (join_path MAX_PATH path n) with
      | none =>
        have hl0 : lstat s.noFilter.fs (join_path MAX_PATH path n) = none := hl
        rw [dirwalk_loop] at h0 ⊢
        rw [visit_loop] at hlim ⊢
        simp only [hdot2, Bool.false_eq_true, if_false, hl, hl0] at h0 hlim ⊢
        exact ih files0 files r0 h0 hlen hlim
      | some st =>
        have hl0 : lstat s.noFilter.fs (join_path MAX_PATH path n) = some st := hl
        rw [visit_loop_step s.fs vrec path n rest st hdot2 hl] at hlim ⊢
        simp only [List.length_cons, List.length_append] at hlim
        rw [dirwalk_loop_step s.noFilter recur0 path base n rest files0 st hdot2 hl0
          (by omega)] at h0
        rw [dirwalk_loop_step s recur path base n rest files st hdot2 hl (by omega)]
        simp only [match_type_noFilter, if_true] at h0
        -- the list the loop under `s` carries after this entry
        have hF : (if match_type s st = true
              then files ++ [visitEntry base (join_path MAX_PATH path n, st)] else files).length
            ≤ (files0 ++ [visitEntry base (join_path MAX_PATH path n, st)]).length := by
          split <;> simp only [List.length_append, List.length_singleton] <;> omega
        have hhead : ∀ tl : List (CStr × Stat),
            files ++ (((join_path MAX_PATH path n, st) :: tl).filter
              (fun v => match_type s v.2)).map (visitEntry base)
            = (if match_type s st = true
                then files ++ [visitEntry base (join_path MAX_PATH path n, st)] else files) ++
              (tl.filter (fun v => match_type s v.2)).map (visitEntry base) := by
          intro tl
          rw [List.filter_cons]
          by_cases hm : match_type s st = true
          · simp only [hm, if_true, List.map_cons, List.append_assoc, List.singleton_append]
          · simp only [hm, Bool.false_eq_true, if_false]
        rw [hhead]
        by_cases hd : S_ISDIR st.st_mode = true
        · simp only [hd, if_true] at h0 hlim ⊢
          cases hr0 : recur0 (join_path MAX_PATH path n)
              (files0 ++ [visitEntry base (join_path MAX_PATH path n, st)]) with
          | error e => rw [hr0] at h0; cases h0
          | ok rr =>
            rw [hr0] at h0
            simp only at h0
            obtain ⟨hrr, c, hrs⟩ := hrec _ _ rr hr0 _ hF
              (by simp only [List.length_append, List.length_singleton]; omega)
            rw [hrs]
            simp only
            have := ih rr.2
              ((if match_type s st = true
                  then files ++ [visitEntry base (join_path MAX_PATH path n, st)] else files) ++
                ((vrec (join_path MAX_PATH path n)).filter
                  (fun v => match_type s v.2)).map (visitEntry base)) r0 h0
              (by
                rw [hrr]
                simp only [List.length_append, List.length_map, List.length_singleton] at hF ⊢
                have := List.length_filter_le (fun v : CStr × Stat => match_type s v.2)
                  (vrec (join_path MAX_PATH path n))
                omega)
              (by
                rw [hrr]
                simp only [List.length_append, List.length_map, List.length_singleton]
                omega)
            refine ⟨?_, ?_⟩
            · rw [this.1, hrr]
              simp only [List.map_cons, List.map_append, List.append_assoc,
                List.singleton_append, List.cons_append, List.nil_append]
            · rw [this.2]
              simp only [List.filter_append, List.map_append, List.append_assoc]
        · have hd2 : S_ISDIR st.st_mode = false := by simpa using hd
          simp only [hd2, Bool.false_eq_true, if_false, List.nil_append, List.length_nil,
            Nat.zero_add] at h0 hlim ⊢
          have := ih _ _ r0 h0 hF
            (by simp only [List.length_append, List.length_singleton]; omega)
          refine ⟨?_, this.2⟩
          rw [this.1]
          simp only [List.map_cons, List.append_assoc, List.singleton_append]

/-- A scan against `visit`: when the scan with the flags cleared returns and
all visited entries fit, it has appended the entries of all visited paths, and
the scan under the flags of `s` returns the same code and appends those that
pass `match_type`. -/
theorem dirwalk_visit (s : State) (base : CStr) :
    ∀ (fuel : Nat) (path : CStr) (files0 : List FileInfo) (r0 : Int × List FileInfo),
      dirwalk s.noFilter fuel path files0 base = .ok r0 →
      ∀ files : List FileInfo, files.length ≤ files0.length →
      files0.length + (s.fs.visit fuel path).length ≤ MAX_FILES →
      r0.2 = files0 ++ (s.fs.visit fuel path).map (visitEntry base) ∧
      dirwalk s fuel path files base = .ok (r0.1, files ++
        ((s.fs.visit fuel path).filter (fun v => match_type s v.2)).map (visitEntry base)) := by
  intro fuel
  induction fuel with
  | zero =>
    intro path files0 r0 h0
    simp [dirwalk] at h0
  | succ fuel ih =>
    intro path files0 r0 h0 files hlen hlim
    rw [dirwalk] at h0 ⊢
    rw [FS.visit] at hlim ⊢
    have hfs : s.noFilter.fs = s.fs := rfl
    rw [hfs] at h0
    cases hop : opendir s.fs path with
    | none =>
      simp only [hop, Except.ok.injEq] at h0 ⊢
      subst h0
      simp
    | some names =>
      simp only [hop] at h0 hlim ⊢
      have := dirwalk_loop_visit s (fun p fl => dirwalk s.noFilter fuel p fl base)
        (fun p fl => dirwalk s fuel p fl base) (fun p => s.fs.visit fuel p) path base
        (by
          intro p fl0 rr hrr fl h1 h2
          have := ih p fl0 rr hrr fl h1 h2
          exact ⟨this.1, rr.1, this.2⟩)
        names files0 files r0 h0 hlen hlim
      rw [this.2, this.1]
      exact ⟨rfl, rfl⟩

theorem filter_visitEntry (s : State) (base : CStr) (l : List (CStr × Stat)) :
    (l.map (visitEntry base)).filter (fun e => match_type s ⟨e.mode, e.size⟩)
      = (l.filter (fun v => match_type s v.2)).map (visitEntry base) := by
  rw [List.filter_map]
  rfl

/-- The function `match_type` computes the inclusion rule of the specification:
under every setting of the flags it accepts a mode exactly when the filter is
empty or the type of the mode is one of the requested types. -/
theorem match_type_eq_filterIncludes (s : State) (st : Stat) :
    match_type s st
      = filterIncludes (requestedTypes s.show_links s.show_dirs s.show_files) st.st_mode := by
  unfold match_type filterIncludes requestedTypes EntryType.ofMode S_ISLNK S_ISDIR S_ISREG
  generalize st.st_mode / 4096 % 16 = k
  cases s.show_links <;> cases s.show_dirs <;> cases s.show_files <;>
    by_cases h1 : k = 10 <;> by_cases h2 : k = 4 <;> by_cases h3 : k = 8 <;>
    simp_all

/-- C11: take any setting of the three filter flags and a tree within the entry
limit (the scan reaches at most `MAX_FILES` entries).  When the scan with all
flags clear returns `r0`, its entries are the entries of all paths the scan
reaches, whatever their type, and the scan under the flags returns the same
code with exactly those entries of `r0`, in the same order, that the
specification includes: the filter is empty or the type of the entry (symbolic
link, directory, regular file) is one of the types the flags request.  So an
entry below a directory that fails the filter is still produced when it
passes. -/
theorem dirwalk_filter_selects_from_unfiltered_scan (s : State) (fuel : Nat) (base : CStr)
    (r0 : Int × List FileInfo)
    (h0 : dirwalk s.noFilter fuel base [] base = .ok r0)
    (hlim : (s.fs.visit fuel base).length ≤ MAX_FILES) :
    r0.2 = (s.fs.visit fuel base).map (visitEntry base) ∧
    dirwalk s fuel base [] base
      = .ok (r0.1, r0.2.filter (fun e =>
          filterIncludes (requestedTypes s.show_links s.show_dirs s.show_files) e.mode)) := by
  have h := dirwalk_visit s base fuel base [] r0 h0 [] (le_refl _)
    (by simp only [List.length_nil, Nat.zero_add]; exact hlim)
  simp only [List.nil_append] at h
  refine ⟨h.1, ?_⟩
  rw [h.2, h.1, List.filter_map]
  congr 3
  apply List.filter_congr
  intro v _
  exact match_type_eq_filterIncludes s v.2

/-- C11, witness: the tree `/r` holds the file `a` and the directory `d` with
the link `l`, the FIFO `p` and the file `x`.  With the links flag alone the
scan gives `d/l`; with the dirs flag alone it gives `d`; with the files flag
alone it gives `a` and `d/x`, below the directory that is filtered out; with
links and files it gives `a`, `d/l` and `d/x`; the FIFO is produced only by the
scan with no flag, which gives all five entries. -/
theorem dirwalk_filter_selects_from_unfiltered_scan_witness :
    dirwalk (State.init fsMixed false false false false) 4 "/r".toList [] "/r".toList
      = .ok (0, [entryDemo "/a" 1 0o100644, entryDemo "/d" 4096 0o040755,
                 entryDemo "/d/l" 4 0o120777, entryDemo "/d/p" 0 0o010644,
                 entryDemo "/d/x" 2 0o100644]) ∧
    dirwalk (State.init fsMixed false true false false) 4 "/r".toList [] "/r".toList
      = .ok (0, [entryDemo "/d/l" 4 0o120777]) ∧
    dirwalk (State.init fsMixed false false true false) 4 "/r".toList [] "/r".toList
      = .ok (0, [entryDemo "/d" 4096 0o040755]) ∧
    dirwalk (State.init fsMixed false false false true) 4 "/r".toList [] "/r".toList
      = .ok (0, [entryDemo "/a" 1 0o100644, entryDemo "/d/x" 2 0o100644]) ∧
    dirwalk (State.init fsMixed false true false true) 4 "/r".toList [] "/r".toList
      = .ok (0, [entryDemo "/a" 1 0o100644, entryDemo "/d/l" 4 0o120777,
                 entryDemo "/d/x" 2 0o100644]) :=
  ⟨(dirwalk_filter_selects_from_unfiltered_scan
      (State.init fsMixed false false false false) 4 "/r".toList (0, scanMixed)
      (by decide) (by decide)).2.trans (by decide),
   (dirwalk_filter_selects_from_unfiltered_scan
      (State.init fsMixed false true false false) 4 "/r".toList (0, scanMixed)
      (by decide) (by decide)).2.trans (by decide),
   (dirwalk_filter_selects_from_unfiltered_scan
      (State.init fsMixed false false true false) 4 "/r".toList (0, scanMixed)
      (by decide) (by decide)).2.trans (by decide),
   (dirwalk_filter_selects_from_unfiltered_scan
      (State.init fsMixed false false false true) 4 "/r".toList (0, scanMixed)
      (by decide) (by decide)).2.trans (by decide),
   (dirwalk_filter_selects_from_unfiltered_scan
      (State.init fsMixed false true false true) 4 "/r".toList (0, scanMixed)
      (by decide) (by decide)).2.trans (by decide)⟩

theorem collapse_head (d : Char) (rest : CStr) :
    (collapse_slashes (d :: rest)).head? = some d := by
  induction rest generalizing d with
  | nil => simp [collapse_slashes]
  | cons e rest ih =>
    rw [collapse_slashes]
    split
    · rename_i h
      rw [ih e, h.1, h.2]
    · rfl

theorem collapse_cons_of_not (c d : Char) (rest : CStr) (h : ¬ (c = '/' ∧ d = '/')) :
    collapse_slashes (c :: d :: rest) = c :: collapse_slashes (d :: rest) := by
  rw [collapse_slashes, if_neg h]

theorem collapse_cons_slash (rest : CStr) :
    collapse_slashes ('/' :: '/' :: rest) = collapse_slashes ('/' :: rest) := by
  rw [collapse_slashes, if_pos ⟨rfl, rfl⟩]

theorem collapse_cons_ne (c : Char) (t : CStr) (h : c ≠ '/') :
    collapse_slashes (c :: t) = c :: collapse_slashes t := by
  cases t with
  | nil => simp [collapse_slashes]
  | cons d rest => exact collapse_cons_of_not c d rest (fun h2 => h h2.1)

theorem collapse_slash_run (t : CStr) :
    collapse_slashes ('/' :: t)
      = '/' :: collapse_slashes (t.dropWhile (fun d => d == '/')) := by
  induction t with
  | nil => simp [collapse_slashes]
  | cons d rest ih =>
    by_cases hd : d = '/'
    · subst hd
      rw [collapse_cons_slash, ih]
      simp
    · have : (d == '/') = false := by simpa using hd
      rw [collapse_cons_of_not _ _ _ (fun h2 => hd h2.2), List.dropWhile_cons, this]
      rfl

/-- The loop of `clean_path` computes what the specification describes. -/
theorem collapse_eq_squeeze : ∀ (n : Nat) (s : CStr), s.length ≤ n →
    collapse_slashes s = squeeze_runs s := by
  intro n
  induction n with
  | zero =>
    intro s hs
    have : s = [] := List.length_eq_zero.1 (Nat.le_zero.1 hs)
    subst this
    simp [collapse_slashes, squeeze_runs]
  | succ n ih =>
    intro s hs
    cases s with
    | nil => simp [collapse_slashes, squeeze_runs]
    | cons c t =>
      rw [squeeze_runs]
      by_cases hc : c = '/'
      · subst hc
        rw [if_pos rfl, collapse_slash_run, ih]
        have h : (t.dropWhile (fun d => d == '/')).length ≤ t.length :=
          (List.dropWhile_sublist _).length_le
        simp only [List.length_cons] at hs
        omega
      · rw [if_neg hc, collapse_cons_ne c t hc, ih]
        simp only [List.length_cons] at hs
        omega

/-- The loop ends within `strlen + 1` iterations, with the string
`collapse_slashes` gives. -/
theorem collapse_loop_eq (s : CStr) : ∀ (fuel : Nat) (before : CStr), s.length < fuel →
    collapse_loop fuel before s = some (before ++ collapse_slashes s) := by
  induction s with
  | nil =>
    intro fuel before hf
    cases fuel with
    | zero => omega
    | succ fuel => simp [collapse_loop, collapse_slashes]
  | cons c rest ih =>
    intro fuel before hf
    cases fuel with
    | zero => omega
    | succ fuel =>
      rw [collapse_loop]
      simp only [List.length_cons] at hf
      cases rest with
      | nil =>
        simp only [List.head?_nil, and_false, if_false]
        have := ih fuel (before ++ [c]) (by simp only [List.length_nil] at hf ⊢; omega)
        simpa [collapse_slashes] using this
      | cons d rest =>
        simp only [List.head?_cons, Option.some.injEq]
        by_cases h : c = '/' ∧ d = '/'
        · rw [if_pos h, ih fuel _ (by omega), h.1, h.2, collapse_cons_slash]
        · rw [if_neg h, ih fuel _ (by omega), collapse_cons_of_not c d rest h]
          simp

theorem collapse_chain (s : CStr) :
    List.Chain' (fun a b => ¬ (a = '/' ∧ b = '/')) (collapse_slashes s) := by
  induction s with
  | nil => simp [collapse_slashes]
  | cons c rest ih =>
    cases rest with
    | nil => simp [collapse_slashes]
    | cons d rest =>
      by_cases h : c = '/' ∧ d = '/'
      · obtain ⟨hc, hd⟩ := h
        subst hc hd
        rw [collapse_cons_slash]
        exact ih
      · rw [collapse_cons_of_not c d rest h, List.chain'_cons']
        refine ⟨?_, ih⟩
        intro x hx
        rw [collapse_head] at hx
        simp only [Option.mem_def, Option.some.injEq] at hx
        subst hx
        exact h

theorem collapse_of_chain (t : CStr)
    (h : List.Chain' (fun a b => ¬ (a = '/' ∧ b = '/')) t) : collapse_slashes t = t := by
  induction t with
  | nil => simp [collapse_slashes]
  | cons c rest ih =>
    cases rest with
    | nil => simp [collapse_slashes]
    | cons d rest =>
      rw [List.chain'_cons] at h
      rw [collapse_cons_of_not c d rest h.1, ih h.2]

theorem collapse_sublist (s : CStr) : List.Sublist (collapse_slashes s) s := by
  induction s with
  | nil => simp [collapse_slashes]
  | cons c rest ih =>
    cases rest with
    | nil => simp [collapse_slashes]
    | cons d rest =>
      by_cases h : c = '/' ∧ d = '/'
      · obtain ⟨hc, hd⟩ := h
        subst hc hd
        rw [collapse_cons_slash]
        exact List.Sublist.cons _ ih
      · rw [collapse_cons_of_not c d rest h]
        exact List.Sublist.cons₂ _ ih

theorem collapse_filter (s : CStr) :
    (collapse_slashes s).filter (fun c => c != '/') = s.filter (fun c => c != '/') := by
  induction s with
  | nil => simp [collapse_slashes]
  | cons c rest ih =>
    cases rest with
    | nil => simp [collapse_slashes]
    | cons d rest =>
      by_cases h : c = '/' ∧ d = '/'
      · obtain ⟨hc, hd⟩ := h
        subst hc hd
        rw [collapse_cons_slash, ih]
        simp
      · rw [collapse_cons_of_not c d rest h, List.filter_cons, ih]
        simp only [List.filter_cons]

/-- C21: for every path shorter than `MAX_PATH`, `clean_path` runs its
slash-collapsing loop on the path (or, for a path starting with `./`, on `base`
followed by the path from its slash).  On every string the loop ends within
`strlen + 1` iterations; its result has no two adjacent slashes, is the string
with every maximal run of slashes replaced by one slash, keeps all other
characters in order, and is left unchanged by a second collapse. -/
theorem collapse_loop_squeezes_every_run (path base : CStr) (h : path.length < MAX_PATH) :
    (clean_path path base).2 = collapse_slashes
      (if path.get? 0 = some '.' ∧ path.get? 1 = some '/'
        then truncate MAX_PATH (base ++ path.drop 1) else path) ∧
    collapse_loop (path.length + 1) [] path = some (collapse_slashes path) ∧
    List.Chain' (fun a b => ¬ (a = '/' ∧ b = '/')) (collapse_slashes path) ∧
    collapse_slashes path = squeeze_runs path ∧
    (collapse_slashes path).filter (fun c => c != '/') = path.filter (fun c => c != '/') ∧
    List.Sublist (collapse_slashes path) path ∧
    collapse_slashes (collapse_slashes path) = collapse_slashes path := by
  refine ⟨?_, ?_, collapse_chain path, collapse_eq_squeeze _ path (le_refl _),
    collapse_filter path, collapse_sublist path, collapse_of_chain _ (collapse_chain path)⟩
  · unfold clean_path
    simp only
    split
    · rfl
    · rw [truncate_of_lt path h]
  · have := collapse_loop_eq path (path.length + 1) [] (Nat.lt_succ_self _)
    simpa using this

/-- C21, witness: `/r//d///x` is collapsed to `/r/d/x` in 10 iterations. -/
theorem collapse_loop_squeezes_every_run_witness :
    (clean_path "/r//d///x".toList "/r".toList).2 = "/r/d/x".toList ∧
    collapse_loop 10 [] "/r//d///x".toList = some "/r/d/x".toList ∧
    squeeze_runs "/r//d///x".toList = "/r/d/x".toList :=
  have h := collapse_loop_squeezes_every_run "/r//d///x".toList "/r".toList (by decide)
  ⟨h.1.trans (by decide), h.2.1.trans (by decide), h.2.2.2.1.symm.trans (by decide)⟩

theorem mode_lnk_not_reg (m : Nat) (h : S_ISLNK m = true) :
    S_ISREG m = false ∧ S_ISDIR m = false := by
  simp only [S_ISREG, S_ISDIR, S_ISLNK, beq_iff_eq, beq_eq_false_iff_ne] at *
  omega

/-- The delete command on an entry that is not listed as a directory and names
an object that is not a directory: the object is unlinked and the record
carries what `read_file` returned for a regular file, nothing otherwise. -/
theorem delete_nondir_run (lay : Layout) (fuel : Nat) (m : Main) (e : FileInfo) (p : Path)
    (i : Inode)
    (hsel : 0 ≤ m.selected) (he : m.files.get? m.selected.toNat = some e)
    (hnd : S_ISDIR e.mode = false)
    (hp : m.s.fs.namei e.full_path = some p) (hget : m.s.fs.get p = some i)
    (hi : ∀ perm, i ≠ .dir perm)
    (hw : m.s.fs.parentWritable p = true)
    (hfull : m.s.undo_count < (MAX_UNDO : Int)) :
    ∃ m1, delete_command lay fuel m true = .ok m1 ∧ m1.dir_path = m.dir_path ∧
      m1.s = ({ m.s with fs := m.s.fs.remove p } : State).push
        { m.s.slot m.s.undo_count with
          type := .ACTION_DELETE, path := e.full_path,
          content := if S_ISREG e.mode then read_file m.s.fs e.full_path else none,
          dir_contents := none, dir_content_count := 0 } := by
  have hlt : m.selected < (m.files.length : Int) := by
    have := (List.get?_eq_some.1 he).1
    omega
  have hne : p ≠ [] := by
    intro e2
    subst e2
    rw [get_nil] at hget
    exact hi _ (Option.some.inj hget).symm
  have hun := unlink_nondir m.s.fs e.full_path p _ hp hget hi hne hw
  unfold delete_command
  by_cases hreg : S_ISREG e.mode = true
  · simp only [hsel, hlt, and_self, if_true, he, delete_object, hreg, hun, hfull, hnd,
      Bool.false_eq_true, if_false]
    simp only [gt_iff_lt, lt_self_iff_false, if_false]
    exact ⟨_, rfl, rfl, rfl⟩
  · have hreg2 : S_ISREG e.mode = false := by simpa using hreg
    simp only [hsel, hlt, and_self, if_true, he, delete_object, hreg2, hun, hfull, hnd,
      Bool.false_eq_true, if_false]
    simp only [gt_iff_lt, lt_self_iff_false, if_false]
    exact ⟨_, rfl, rfl, rfl⟩

/-- Undoing a Delete record without content and without snapshot, when nothing
is at the path: `mkdir(path, 0755)` makes a directory there. -/
theorem undo_delete_mkdir (strcoll : CStr → CStr → Int) (fuel : Nat) (s1 : State)
    (files : List FileInfo) (base : CStr) (p : Path)
    (hc : s1.undo_count ≠ 0)
    (hty : (s1.slot (s1.undo_count - 1)).type = .ACTION_DELETE)
    (hcont : (s1.slot (s1.undo_count - 1)).content = none)
    (hdc : (s1.slot (s1.undo_count - 1)).dir_contents = none)
    (hop : (s1.slot (s1.undo_count - 1)).old_path ≠ .freed)
    (hp : s1.fs.namei (s1.slot (s1.undo_count - 1)).path = some p) (hg : s1.fs.get p = none)
    (hw : s1.fs.parentWritable p = true)
    (hscan : (s1.fs.add p (.dir 0o755)).scannable base fuel = true) :
    ∃ left files2, undo_last_action strcoll fuel s1 files base = .ok (0,
      { s1 with fs := s1.fs.add p (.dir 0o755),
                undo_stack := s1.undo_stack.set (s1.undo_count - 1).toNat left,
                undo_count := s1.undo_count - 1 }, files2) := by
  have hne : p ≠ [] := by intro e; simp [e, get_nil] at hg
  have hmk : mkdir s1.fs (s1.slot (s1.undo_count - 1)).path 0o755
      = some (s1.fs.add p (.dir 0o755)) := by
    unfold mkdir create
    rw [hp]
    simp only [hg]
    simp [hne, hw]
  have heff : undo_effect fuel s1.fs (s1.slot (s1.undo_count - 1))
      = .ok (s1.fs.add p (.dir 0o755)) := by
    simp only [undo_effect, hty, hcont, hdc, hmk]
  obtain ⟨left, hleft⟩ := free_action_ok _ hop
  obtain ⟨files2, h⟩ := undo_last_action_run strcoll fuel s1 files base _ left hc heff hleft hscan
  exact ⟨left, files2, h⟩

/-- Removing an object that is not a directory and making a directory at its
path keeps a scannable tree scannable, when the path lies below the scan root. -/
theorem scannable_after_mkdir (fs : FS) (p b : Path) (i : Inode) (base : CStr) (fuel : Nat)
    (hg : fs.get p = some i) (hne : p ≠ [])
    (hv : ∀ c ∈ splitPath [] base, validName c = true) (hb : fs.namei base = some b)
    (hlen : b.length < p.length) (h : fs.scannable base fuel = true) :
    ((fs.remove p).add p (.dir 0o755)).scannable base fuel = true := by
  have hg1 : (fs.remove p).get p = none := by rw [get_remove _ _ _ hne]; simp
  have hget : ∀ q : Path, q.length ≤ b.length →
      ((fs.remove p).add p (.dir 0o755)).get q = fs.get q := by
    intro q hq
    have hqp : q ≠ p := by
      intro e; rw [e] at hq; omega
    rw [get_add _ _ _ _ hg1, get_remove _ _ _ hne]
    simp [hqp]
  have hnb := namei_congr_len fs ((fs.remove p).add p (.dir 0o755)) base b hv hb rfl hget
  simp only [FS.scannable, Bool.and_eq_true] at h ⊢
  refine ⟨scanBound_of_keys fs _ base fuel ?_ h.1, ?_⟩
  · intro o ho
    simp only [FS.add, FS.remove, List.mem_append, List.mem_filter, List.mem_singleton] at ho
    rcases ho with ho | ho
    · exact ⟨o.2, ho.1⟩
    · rw [ho]
      exact ⟨i, get_some_mem _ _ _ hne hg⟩
  · have h2 := h.2
    rw [hb] at h2
    rw [hnb]
    simp only [FS.notLink, hget b (le_refl _)] at h2 ⊢
    exact h2

/-- A walk that succeeds never steps through an object that cannot be
searched, so it does not notice a change of that object. -/
theorem walk_congr_at (fs fs2 : FS) (p : Path) (hs : fs.searchable p = false)
    (h : ∀ q, q ≠ p → fs2.get q = fs.get q) :
    ∀ (cs : List CStr) (cur r : Path), fs.walk cur cs = some r → fs2.walk cur cs = some r := by
  intro cs
  induction cs with
  | nil => intro cur r hw; simpa [FS.walk] using hw
  | cons c rest ih =>
    intro cur r hw
    rw [FS.walk] at hw ⊢
    cases hg : fs.get cur with
    | none => simp [hg] at hw
    | some i =>
      cases i with
      | dir perm =>
        simp only [hg] at hw
        by_cases hx : canX perm = true
        · have hcur : cur ≠ p := by
            intro e
            rw [e] at hg
            simp only [FS.searchable, hg, hx] at hs
            cases hs
          rw [h cur hcur, hg]
          simp only [hx, if_true] at hw ⊢
          split at hw
          · rename_i h1
            rw [if_pos h1]; exact ih _ _ hw
          · rename_i h1
            rw [if_neg h1]
            split at hw
            · rename_i h2
              rw [if_pos h2]; exact ih _ _ hw
            · rename_i h2
              rw [if_neg h2]; exact ih _ _ hw
        · simp [hx] at hw
      | reg perm data => simp [hg] at hw
      | lnk t => simp [hg] at hw
      | other perm => simp [hg] at hw

/-- The undo of a Delete record without content on a slot without a freed
`old_path`: take an entry listed as a symbolic link, or as a regular file that
cannot be opened for reading, naming an object that is not a directory, below
the scan root and in a writable directory, with room on the undo stack.  The
delete command removes it and pushes a Delete record without content;
`undo_last_action` then returns 0 and a directory of mode 0755 is at the
record's path, not a link or a file. -/
theorem undo_of_contentless_delete_makes_directory (lay : Layout)
    (strcoll : CStr → CStr → Int) (fuel : Nat) (m : Main) (e : FileInfo) (p b : Path)
    (i : Inode)
    (hsel : 0 ≤ m.selected) (he : m.files.get? m.selected.toNat = some e)
    (hkind : S_ISLNK e.mode = true ∨
      (S_ISREG e.mode = true ∧ read_file m.s.fs e.full_path = none))
    (hp : m.s.fs.namei e.full_path = some p) (hget : m.s.fs.get p = some i)
    (hi : ∀ perm, i ≠ .dir perm)
    (hw : m.s.fs.parentWritable p = true)
    (h0 : 0 ≤ m.s.undo_count) (hfull : m.s.undo_count < (MAX_UNDO : Int))
    (harr : m.s.undo_stack.length = MAX_UNDO)
    (hold : (m.s.slot m.s.undo_count).old_path ≠ .freed)
    (hv : ∀ c ∈ splitPath [] m.dir_path, validName c = true)
    (hb : m.s.fs.namei m.dir_path = some b) (hlen : b.length < p.length)
    (hscan : m.s.fs.scannable m.dir_path fuel = true) :
    ∃ m1 s2 files2, delete_command lay fuel m true = .ok m1 ∧
      (m1.s.slot m.s.undo_count).type = .ACTION_DELETE ∧
      (m1.s.slot m.s.undo_count).path = e.full_path ∧
      (m1.s.slot m.s.undo_count).content = none ∧
      m1.s.fs.get p = none ∧
      undo_last_action strcoll fuel m1.s m1.files m1.dir_path = .ok (0, s2, files2) ∧
      s2.fs.get p = some (.dir 0o755) ∧
      lstat s2.fs e.full_path = some ⟨S_IFDIR + 0o755, 4096⟩ ∧
      s2.undo_count = m.s.undo_count := by
  have hne : p ≠ [] := by
    intro e2
    subst e2
    rw [get_nil] at hget
    exact hi _ (Option.some.inj hget).symm
  have hnd : S_ISDIR e.mode = false := by
    rcases hkind with h | h
    · exact (mode_lnk_not_reg _ h).2
    · exact (mode_reg_not_dir _ h.1).1
  have hcontent : (if S_ISREG e.mode then read_file m.s.fs e.full_path else none) = none := by
    rcases hkind with h | h
    · rw [(mode_lnk_not_reg _ h).1]; rfl
    · rw [h.1, if_pos rfl]; exact h.2
  obtain ⟨m1, hdel, hdp, hs⟩ :=
    delete_nondir_run lay fuel m e p i hsel he hnd hp hget hi hw hfull
  rw [hcontent] at hs
  have hslot := push_slot_self ({ m.s with fs := m.s.fs.remove p } : State)
    { m.s.slot m.s.undo_count with
      type := .ACTION_DELETE, path := e.full_path, content := none,
      dir_contents := none, dir_content_count := 0 } h0 hfull harr
  rw [← hs] at hslot
  have hslot2 : m1.s.slot m.s.undo_count = { m.s.slot m.s.undo_count with
      type := .ACTION_DELETE, path := e.full_path, content := none,
      dir_contents := none, dir_content_count := 0 } := hslot
  have hfs : m1.s.fs = m.s.fs.remove p := by rw [hs]; rfl
  have hcnt : m1.s.undo_count = m.s.undo_count + 1 := by rw [hs]; rfl
  have htop : m1.s.slot (m1.s.undo_count - 1) = m1.s.slot m.s.undo_count := by
    rw [hcnt, add_sub_cancel_right]
  have hsr := searchable_of_get _ _ _ hget hi
  have hg1 : (m.s.fs.remove p).get p = none := by rw [get_remove _ _ _ hne]; simp
  have hn1 : (m.s.fs.remove p).namei e.full_path = some p := by
    rw [namei_congr m.s.fs (m.s.fs.remove p) rfl (searchable_remove _ _ hne hsr)]; exact hp
  have hw1 : (m.s.fs.remove p).parentWritable p = true := by
    rw [parentWritable_congr m.s.fs _ p]
    · exact hw
    · rw [get_remove _ _ _ hne]; simp [dropLast_ne p hne]
  have hsc := scannable_after_mkdir m.s.fs p b i m.dir_path fuel hget hne hv hb hlen hscan
  obtain ⟨left, files2, hu⟩ := undo_delete_mkdir strcoll fuel m1.s m1.files m1.dir_path p
    (by omega) (by rw [htop, hslot2]) (by rw [htop, hslot2]) (by rw [htop, hslot2])
    (by rw [htop, hslot2]; exact hold)
    (by rw [htop, hslot2, hfs]; exact hn1) (by rw [hfs]; exact hg1)
    (by rw [hfs]; exact hw1) (by rw [hfs, hdp]; exact hsc)
  have hg2 : ((m.s.fs.remove p).add p (.dir 0o755)).get p = some (.dir 0o755) := by
    rw [get_add _ _ _ _ hg1]; simp
  have hn2 : ((m.s.fs.remove p).add p (.dir 0o755)).namei e.full_path = some p := by
    have hvv : ∀ q, q ≠ p → ((m.s.fs.remove p).add p (.dir 0o755)).get q
        = (m.s.fs.remove p).get q := by
      intro q hq
      rw [get_add _ _ _ _ hg1]; simp [hq]
    unfold FS.namei FS.resolveFrom at hn1 ⊢
    cases hfp : e.full_path with
    | nil => rw [hfp] at hn1; simp at hn1
    | cons c rest =>
      rw [hfp] at hn1
      simp only at hn1 ⊢
      have hcw : ((m.s.fs.remove p).add p (.dir 0o755)).cwd = (m.s.fs.remove p).cwd := rfl
      rw [hcw]
      exact walk_congr_at (m.s.fs.remove p) _ p (searchable_none _ _ hg1) hvv _ _ _ hn1
  refine ⟨m1, _, files2, hdel, by rw [hslot2], by rw [hslot2], by rw [hslot2],
    by rw [hfs]; exact hg1, hu, ?_, ?_, ?_⟩
  · show (m1.s.fs.add p (.dir 0o755)).get p = _
    rw [hfs]; exact hg2
  · show lstat (m1.s.fs.add p (.dir 0o755)) e.full_path = _
    rw [hfs]
    simp only [lstat, hn2, hg2, Option.map_some']
    rfl
  · show m1.s.undo_count - 1 = m.s.undo_count
    rw [hcnt, add_sub_cancel_right]

/-- On a fresh stack: the symbolic link `/r/b` is deleted, and undo puts a
directory of mode 0755 at `/r/b`. -/
theorem undo_of_contentless_delete_makes_directory_fresh :
    ∃ m1 s2 files2, delete_command layZero 3 mainLink true = .ok m1 ∧
      (m1.s.slot mainLink.s.undo_count).type = .ACTION_DELETE ∧
      (m1.s.slot mainLink.s.undo_count).path = "/r/b".toList ∧
      (m1.s.slot mainLink.s.undo_count).content = none ∧
      m1.s.fs.get ["r".toList, "b".toList] = none ∧
      undo_last_action strcoll_C 3 m1.s m1.files m1.dir_path = .ok (0, s2, files2) ∧
      s2.fs.get ["r".toList, "b".toList] = some (.dir 0o755) ∧
      lstat s2.fs "/r/b".toList = some ⟨S_IFDIR + 0o755, 4096⟩ ∧
      s2.undo_count = mainLink.s.undo_count :=
  undo_of_contentless_delete_makes_directory layZero strcoll_C 3 mainLink
    ⟨"/r/b".toList, "./b".toList, 7, 0o120777⟩ ["r".toList, "b".toList] ["r".toList]
    (.lnk "nowhere".toList) (by decide) (by decide) (by decide) (by decide) (by decide)
    (by intro perm h; cases h) (by decide) (by decide) (by decide) (by decide) (by decide)
    (by decide) (by decide) (by decide) (by decide)

/-- C22: the undo does not return success on a stack slot that an undone rename
has used.  On the tree `/r` with the file `a` and the symbolic link `b`, `a` is
renamed to `c` and the rename is undone: the tree is as before, the stack is
empty again and slot 0 keeps the pointer `old_path`, which the undo has freed.
The delete command on `b` removes the link and writes a Delete record without
content to slot 0, leaving `old_path` as it is.  `undo_last_action` then makes
the directory `/r/b` of mode 0755 and goes on to free `old_path` a second time:
undefined behaviour in place of the return of 0. -/
theorem undo_of_link_delete_on_reused_slot_frees_twice :
    (undo_last_action strcoll_C 4 (rename_file mainLink.s "/r/a".toList ['c'] "/r".toList).2
      [] "/r".toList).map (fun r => (r.1, r.2.1)) = .ok (0, mainLinkReused.s) ∧
    mainLinkReused.s.fs = fsDangling ∧
    mainLinkReused.s.undo_count = 0 ∧
    (mainLinkReused.s.slot 0).old_path = .freed ∧
    (delete_command layZero 3 mainLinkReused true).map
      (fun m1 => (m1.s.undo_count, m1.s.slot 0, lstat m1.s.fs "/r/b".toList))
      = .ok (1, ⟨.ACTION_DELETE, "/r/b".toList, .freed, 0, none, none, 0⟩, none) ∧
    (delete_command layZero 3 mainLinkReused true).bind
      (fun m1 => (undo_effect 3 m1.s.fs (m1.s.slot 0)).map
        (fun fs => lstat fs "/r/b".toList))
      = .ok (some ⟨S_IFDIR + 0o755, 4096⟩) ∧
    (delete_command layZero 3 mainLinkReused true).bind
      (fun m1 => undo_last_action strcoll_C 3 m1.s m1.files m1.dir_path)
      = .error .undefinedBehaviour := by
  decide

/-- C1, witness: `a.txt` containing "hello" is deleted and restored by undo. -/
theorem delete_file_undo_restores_content_witness :
    ∃ m1 m2, delete_command layZero 4 (mainDemo "hello".toList 0) true = .ok m1 ∧
      m1.status = "File deleted" ∧ m1.s.fs.get ["r".toList, "a.txt".toList] = none ∧
      undo_command strcoll_C 4 m1 true = .ok m2 ∧ m2.status = "Action undone" ∧
      m2.s.fs.get ["r".toList, "a.txt".toList] = some (.reg 0o666 "hello".toList) ∧
      read_file m2.s.fs "/r/a.txt".toList = some ("hello".toList ++ [NUL]) :=
  delete_file_undo_restores_content layZero strcoll_C 4 (mainDemo "hello".toList 0)
    (entryDemo "/a.txt" 5 0o100644) ["r".toList, "a.txt".toList] 0o644 "hello".toList
    (by decide) (by decide) (by decide) (by decide) (by decide) (by decide) (by decide)
    (by decide) (by decide) (by decide) (by decide) (by decide) (by decide)

/-- C1, counterexample: a file holding the bytes `h`, NUL, `i` comes back from
delete and undo holding only `h`. -/
theorem delete_undo_truncates_at_nul :
    (mainDemo ['h', NUL, 'i'] 0).s.fs.get ["r".toList, "a.txt".toList]
      = some (.reg 0o644 ['h', NUL, 'i']) ∧
    ((delete_command layZero 4 (mainDemo ['h', NUL, 'i'] 0) true).bind
      (fun m1 => undo_command strcoll_C 4 m1 true)).map
        (fun m2 => m2.s.fs.get ["r".toList, "a.txt".toList])
      = .ok (some (.reg 0o666 ['h'])) := by
  decide

/-- C3, witness: `a.txt` holding "v1" is edited to "v2" and undo brings "v1" back. -/
theorem edit_undo_restores_content_witness :
    ∃ s1 s2 files2,
      edit_file (mainDemo "v1".toList 0).s "/r/a.txt".toList "v2".toList = (0, s1) ∧
      s1.fs.get ["r".toList, "a.txt".toList] = some (.reg 0o644 (cstr (wgetnstr 1024 "v2".toList))) ∧
      undo_last_action strcoll_C 4 s1 (mainDemo "v1".toList 0).files "/r".toList
        = .ok (0, s2, files2) ∧
      s2.fs.get ["r".toList, "a.txt".toList] = some (.reg 0o644 "v1".toList) ∧
      s2.undo_count = (mainDemo "v1".toList 0).s.undo_count :=
  edit_undo_restores_content strcoll_C 4 (mainDemo "v1".toList 0).s "/r/a.txt".toList "v2".toList
    (mainDemo "v1".toList 0).files "/r".toList ["r".toList, "a.txt".toList] 0o644 "v1".toList
    (by decide) (by decide) (by decide) (by decide) (by decide) (by decide) (by decide)
    (by decide) (by decide) (by decide)

/-- C3, counterexample: a file holding the bytes `h`, NUL, `i` is edited to "v2";
undo leaves it holding only `h`. -/
theorem edit_undo_truncates_at_nul :
    (mainDemo ['h', NUL, 'i'] 0).s.fs.get ["r".toList, "a.txt".toList]
      = some (.reg 0o644 ['h', NUL, 'i']) ∧
    (edit_file (mainDemo ['h', NUL, 'i'] 0).s "/r/a.txt".toList "v2".toList).1 = 0 ∧
    (undo_last_action strcoll_C 4
      (edit_file (mainDemo ['h', NUL, 'i'] 0).s "/r/a.txt".toList "v2".toList).2
      (mainDemo ['h', NUL, 'i'] 0).files "/r".toList).map
        (fun r => (r.1, r.2.1.fs.get ["r".toList, "a.txt".toList]))
      = .ok (0, some (.reg 0o644 ['h'])) := by
  decide

/-- On a fresh stack: `a.txt` of mode 0644 is changed to 0600 and undo gives
0644 back. -/
theorem chmod_undo_restores_mode_fresh :
    ∃ st new_mode s2 files2,
      lstat (mainDemo "hello".toList 0).s.fs "/r/a.txt".toList = some st ∧
      S_ISLNK st.st_mode = false ∧
      sscanf_o (wgetnstr 10 "600".toList) = some new_mode ∧ new_mode ≤ 0o777 ∧
      (lstat (change_permissions (mainDemo "hello".toList 0).s "/r/a.txt".toList
        "600".toList).2.fs "/r/a.txt".toList).map (fun t => t.st_mode % 4096) = some new_mode ∧
      undo_last_action strcoll_C 4
        (change_permissions (mainDemo "hello".toList 0).s "/r/a.txt".toList "600".toList).2
        (mainDemo "hello".toList 0).files "/r".toList = .ok (0, s2, files2) ∧
      lstat s2.fs "/r/a.txt".toList = some st ∧
      s2.undo_count = (mainDemo "hello".toList 0).s.undo_count :=
  chmod_undo_restores_mode strcoll_C 4 (mainDemo "hello".toList 0).s "/r/a.txt".toList
    "600".toList (mainDemo "hello".toList 0).files "/r".toList
    (by decide) (by decide) (by decide) (by decide) (by decide) (by decide) (by decide)

theorem countOK_push (s : State) (a : UndoAction) (h : s.countOK)
    (hlt : s.undo_count < (MAX_UNDO : Int)) : (s.push a).countOK := by
  unfold State.countOK State.push at *
  simp only
  omega

/-- C6: `0 <= undo_count <= MAX_UNDO` holds at program start and every
operation that touches the undo stack preserves it, whatever its outcome. -/
theorem undo_count_stays_in_bounds (s : State) (h : s.countOK) :
    (∀ fs a b c d, (State.init fs a b c d).countOK) ∧
      (∀ base typed ch target, (create_object s base typed ch target).2.countOK) ∧
      (∀ old typed base, (rename_file s old typed base).2.countOK) ∧
      (∀ old typed, (move_file s old typed).2.countOK) ∧
      (∀ path typed, (change_permissions s path typed).2.countOK) ∧
      (∀ path typed, (edit_file s path typed).2.countOK) ∧
      (∀ strcoll fuel files base r,
        undo_last_action strcoll fuel s files base = .ok r → r.2.1.countOK) ∧
      (∀ lay fuel m confirm m2, m.s = s →
        delete_command lay fuel m confirm = .ok m2 → m2.s.countOK) := by
  refine ⟨fun fs a b c d => by simp [State.countOK, State.init, MAX_UNDO],
    ?_, ?_, ?_, ?_, ?_, ?_, ?_⟩
  · intro base typed ch target
    unfold create_object
    simp only
    split
    · exact h
    · split
      · exact h
      · split
        · exact countOK_push _ _ h (by assumption)
        · exact h
  · intro old typed base
    unfold rename_file
    simp only
    split
    · exact h
    · split
      · exact h
      · split
        · exact countOK_push _ _ h (by assumption)
        · exact h
  · intro old typed
    unfold move_file
    simp only
    split
    · exact h
    · split
      · exact h
      · split
        · exact countOK_push _ _ h (by assumption)
        · exact h
  · intro path typed
    unfold change_permissions
    split
    · exact h
    · split
      · exact h
      · simp only
        split
        · exact h
        · split
          · exact h
          · split
            · exact h
            · split
              · exact countOK_push _ _ h (by assumption)
              · exact h
  · intro path typed
    unfold edit_file
    simp only
    split
    · exact h
    · split
      · exact countOK_push _ _ h (by assumption)
      · exact h
  · intro strcoll fuel files base r hr
    unfold undo_last_action at hr
    split at hr
    · simp only [Except.ok.injEq] at hr; subst hr; exact h
    · rename_i hc
      simp only at hr
      split at hr
      · simp at hr
      · split at hr
        · simp at hr
        · split at hr
          · simp at hr
          · simp only [Except.ok.injEq] at hr
            subst hr
            have : s.undo_count ≠ 0 := by simpa using hc
            unfold State.countOK at *
            simp only
            omega
  · intro lay fuel m confirm m2 hm hd
    subst hm
    unfold delete_command at hd
    split at hd
    · split at hd
      · simp at hd
      · split at hd
        · split at hd
          · simp at hd
          · rename_i success content slots count fs1 _
            simp only at hd
            split at hd
            · split at hd
              · simp at hd
              · rename_i s2 hs2
                simp only [Except.ok.injEq] at hd
                subst hd
                simp only
                split at hs2
                · rename_i hlt
                  split at hs2
                  · simp at hs2
                  · simp only [Except.ok.injEq] at hs2
                    subst hs2
                    exact countOK_push _ _ h hlt
                · cases hf : free_contents slots count with
                  | error e => simp [hf, Except.map] at hs2
                  | ok u =>
                    simp only [hf, Except.map, Except.ok.injEq] at hs2
                    subst hs2
                    exact h
            · cases hf : free_contents slots count with
              | error e => simp [hf, Except.map] at hd
              | ok u =>
                simp only [hf, Except.map, Except.ok.injEq] at hd
                subst hd
                exact h
        · simp only [Except.ok.injEq] at hd; subst hd; exact h
    · split at hd
      · simp at hd
      · simp only [Except.ok.injEq] at hd; subst hd; exact h

/-- C6, witness: the bounds hold after each operation run from the start state
over the demo tree. -/
theorem undo_count_stays_in_bounds_witness :
    (State.init (fsDemo "hello".toList) false false false false).countOK ∧
    (create_object (mainDemo "hello".toList 0).s "/r".toList "new".toList .f []).2.countOK ∧
    (rename_file (mainDemo "hello".toList 0).s "/r/a.txt".toList "b.txt".toList
      "/r".toList).2.countOK ∧
    (move_file (mainDemo "hello".toList 0).s "/r/a.txt".toList "/r/d/a.txt".toList).2.countOK ∧
    (change_permissions (mainDemo "hello".toList 0).s "/r/a.txt".toList "600".toList).2.countOK ∧
    (edit_file (mainDemo "hello".toList 0).s "/r/a.txt".toList "v2".toList).2.countOK ∧
    (∀ r, undo_last_action strcoll_C 4 (mainDemo "hello".toList 0).s
      (mainDemo "hello".toList 0).files "/r".toList = .ok r → r.2.1.countOK) ∧
    (∀ m2, delete_command layZero 4 (mainDemo "hello".toList 0) true = .ok m2 → m2.s.countOK) :=
  have h := undo_count_stays_in_bounds (mainDemo "hello".toList 0).s ⟨by decide, by decide⟩
  ⟨h.1 _ _ _ _ _, h.2.1 _ _ _ _, h.2.2.1 _ _ _, h.2.2.2.1 _ _, h.2.2.2.2.1 _ _,
    h.2.2.2.2.2.1 _ _, h.2.2.2.2.2.2.1 _ _ _ _, fun m2 => h.2.2.2.2.2.2.2 _ _ _ _ m2 rfl⟩

/-- C7: with an empty undo stack `undo_last_action` returns -1 and leaves the
globals, the file system and the entry collection as they were; the `u`
command then reports "Nothing to undo" and changes nothing else. -/
theorem undo_on_empty_stack_changes_nothing (strcoll : CStr → CStr → Int) (fuel : Nat)
    (m : Main) (h : m.s.undo_count = 0) :
    undo_last_action strcoll fuel m.s m.files m.dir_path = .ok (-1, m.s, m.files) ∧
    undo_command strcoll fuel m true = .ok { m with status := "Nothing to undo" } := by
  have h1 : undo_last_action strcoll fuel m.s m.files m.dir_path = .ok (-1, m.s, m.files) := by
    unfold undo_last_action
    simp [h]
  refine ⟨h1, ?_⟩
  unfold undo_command
  simp [h1]

/-- C7, witness: undo right after start-up on the demo tree. -/
theorem undo_on_empty_stack_changes_nothing_witness :
    undo_last_action strcoll_C 4 (mainDemo "hello".toList 0).s (mainDemo "hello".toList 0).files
        (mainDemo "hello".toList 0).dir_path
      = .ok (-1, (mainDemo "hello".toList 0).s, (mainDemo "hello".toList 0).files) ∧
    undo_command strcoll_C 4 (mainDemo "hello".toList 0) true
      = .ok { mainDemo "hello".toList 0 with status := "Nothing to undo" } :=
  undo_on_empty_stack_changes_nothing strcoll_C 4 (mainDemo "hello".toList 0) (by decide)

/-- C8, the failing input: `/r/b` is a symbolic link to a name that does not
exist, so `access` reports that `/r/b` does not exist although `lstat` finds the
link; renaming `/r/a` to `b` then succeeds, destroys the link and pushes a
Rename record. -/
theorem rename_over_dangling_link_succeeds :
    lstat fsDangling "/r/b".toList = some ⟨S_IFLNK + 0o777, 7⟩ ∧
    access fsDangling "/r/b".toList = false ∧
    (rename_file (State.init fsDangling false false false false) "/r/a".toList "b".toList
      "/r".toList).1 = 0 ∧
    lstat (rename_file (State.init fsDangling false false false false) "/r/a".toList "b".toList
      "/r".toList).2.fs "/r/b".toList = some ⟨S_IFREG + 0o644, 1⟩ ∧
    lstat (rename_file (State.init fsDangling false false false false) "/r/a".toList "b".toList
      "/r".toList).2.fs "/r/a".toList = none ∧
    (rename_file (State.init fsDangling false false false false) "/r/a".toList "b".toList
      "/r".toList).2.undo_count = 1 := by
  decide

/-- C5 (amended): starting from an empty undo stack none of whose slots holds
an `old_path` freed by an earlier undo, 101 creations of files or
directories under fresh, distinct names in a writable directory all return 0,
and the 100 calls of `undo_last_action` that follow all return 0; afterwards
exactly the 100 objects created first have been removed, the object created
last still exists, the stack is empty, and one more undo returns -1, so the
last creation can no longer be reversed. -/
theorem create_101_undo_100_removes_first_100 (strcoll : CStr → CStr → Int) (fuel : Nat)
    (s0 : State) (base : CStr) (b : Path) (perm : Nat) (ins : List (CStr × ObjKey))
    (files : List FileInfo)
    (h0 : s0.undo_count = 0) (hlen : s0.undo_stack.length = MAX_UNDO)
    (hfr : ∀ a ∈ s0.undo_stack, a.old_path ≠ .freed)
    (hn : ins.length = MAX_UNDO + 1)
    (hv : ∀ c ∈ splitPath [] base, validName c = true)
    (hb : s0.fs.namei base = some b) (hd : s0.fs.get b = some (.dir perm))
    (hX : canX perm = true) (hW : canW perm = true)
    (hwf : s0.fs.wf = true) (hs : s0.fs.scanBound base fuel = true)
    (hdepth : b.length + 1 < fuel)
    (hins : ∀ i ∈ ins, i.2 ≠ .l ∧ validName i.1 = true ∧ i.1.length < 256 ∧
      base.length + pathLen (b ++ [i.1]) < MAX_PATH ∧ s0.fs.get (b ++ [i.1]) = none)
    (hnd : (ins.map Prod.fst).Nodup) :
    ∃ s1 s2 files2,
      create_all s0 base ins = (List.replicate (MAX_UNDO + 1) 0, s1) ∧
      undo_all strcoll fuel base MAX_UNDO s1 files
        = .ok (List.replicate MAX_UNDO 0, s2, files2) ∧
      s2.fs.objs = s0.fs.objs ++ (ins.drop MAX_UNDO).map (createdObj b) ∧
      s2.undo_count = 0 ∧
      (∀ i ∈ ins.take MAX_UNDO, lstat s2.fs (base ++ '/' :: i.1) = none) ∧
      (∀ i ∈ ins.drop MAX_UNDO,
        lstat s2.fs (base ++ '/' :: i.1) = some (createdInode i.2).stat) ∧
      undo_last_action strcoll fuel s2 files2 base = .ok (-1, s2, files2) :=
  create_undo_run strcoll fuel s0 base b perm ins files h0 hlen hfr hn hv hb hd hX hW hwf hs
    hdepth hins hnd

/-- C5, witness: the 101 creations of `createDemo` below `/r` and 100 undos. -/
theorem create_101_undo_100_removes_first_100_witness :
    ∃ s1 s2 files2,
      create_all stateDemo ['/', 'r'] createDemo = (List.replicate (MAX_UNDO + 1) 0, s1) ∧
      undo_all strcoll_C 4 ['/', 'r'] MAX_UNDO s1 []
        = .ok (List.replicate MAX_UNDO 0, s2, files2) ∧
      s2.fs.objs = stateDemo.fs.objs ++ (createDemo.drop MAX_UNDO).map (createdObj [['r']]) ∧
      s2.undo_count = 0 ∧
      (∀ i ∈ createDemo.take MAX_UNDO, lstat s2.fs (['/', 'r'] ++ '/' :: i.1) = none) ∧
      (∀ i ∈ createDemo.drop MAX_UNDO,
        lstat s2.fs (['/', 'r'] ++ '/' :: i.1) = some (createdInode i.2).stat) ∧
      undo_last_action strcoll_C 4 s2 files2 ['/', 'r'] = .ok (-1, s2, files2) :=
  create_101_undo_100_removes_first_100 strcoll_C 4 stateDemo ['/', 'r'] [['r']] 0o755
    createDemo [] (by decide) (by decide) (by decide) createDemo_length (by decide) (by decide)
    (by decide) (by decide) (by decide) (by decide) (by decide) (by decide) createDemo_inputs
    createDemo_nodup

/-- C5, counterexample: after the 101 creations of `createDemo` and 100 undos
the object created first, `/r/00000`, is gone, and the object created last,
`/r/00100`, is still there. -/
theorem undo_after_101_creates_removes_first_created :
    (create_all stateDemo "/r".toList createDemo).1 = List.replicate 101 0 ∧
    (undo_all strcoll_C 4 "/r".toList 100
      (create_all stateDemo "/r".toList createDemo).2 []).map
        (fun r => (r.1, lstat r.2.1.fs "/r/00000".toList,
          (lstat r.2.1.fs "/r/00100".toList).isSome))
      = .ok (List.replicate 100 0, none, true) := by
  obtain ⟨s1, s2, files2, h1, h2, h3, h4⟩ := createDemo_run
  have e0 : "/r".toList = ['/', 'r'] := rfl
  have e1 : "/r/00000".toList = ['/', 'r'] ++ '/' :: bigName 0 := by decide
  have e2 : "/r/00100".toList = ['/', 'r'] ++ '/' :: bigName 100 := by decide
  have e3 : MAX_UNDO = 100 := rfl
  rw [e0, e1, e2, h1]
  rw [e3] at h2
  refine ⟨rfl, ?_⟩
  simp only [h2, Except.map, h3, h4, Option.isSome_some]

end Dirwalk
